import Mathlib

/-!
# bengine-opus: timed operations and the Opus scheduling tree

A shallow embedding of `op.hpp`, `op_functions.hpp`, `op_containers.cpp` and
`opus.cpp`.

* `F64` values are exact rationals.
* `Id` is a natural number; `0` is the default identifier `Id()`.
* An action functor (`boost::function<void(OpData&, F64&)>`) is a value of
  `Action`; the functors of `op_functions.hpp` and `op_containers.hpp` are its
  constructors, a user callback is a function on `(remaining, total, dt)`.
* Calls that recurse (`Op::operator()`, `get_or_create_with_op_`, `erase`)
  take a fuel argument and return `none` when it runs out.
-/

namespace be.op

abbrev F64 := ℚ

abbrev Id := Nat

/-- The enumeration `DtConsumptionPolicy` of `op_functions.hpp`. -/
inductive DtConsumptionPolicy where
  | disable
  | consume
  | consume_all
  deriving DecidableEq, Repr

/-- A user callback of shape `void(OpData&, F64&)` that touches only
`remaining`, `total` and the delta: it maps `(remaining, total, dt)` to their
new values. -/
abbrev UserFunc := F64 → F64 → F64 → F64 × F64 × F64

/-- The action functors. `F` is the wrapped base functor of a combinator, a
`tag` names a user function in the event trace. `Queue` carries its cursor, the
iterator `position`, as an index into `data.children`; `QueueInvalid` is a
`Queue` whose iterator has been invalidated by a change of the children vector
(a `push_back` that reallocates, an `erase` at or before the cursor). A value
functor (`ValueFunc`, `FactorFunc`) is the sequence of the values it returns,
with the number of calls made so far. -/
inductive Action where
  | Empty
  | Wrap (tag : Nat)
  | FuncPtrWrap (tag : Nat)
  | OpFuncPtrWrap (tag : Nat) (func : UserFunc)
  | PostSetCompleted (F : Action)
  | ResetWhenComplete (F : Action)
  | Resettable (F : Action)
  | StaticResettable (F : Action) (Numer Denom : Int)
  | StatefulResettable (val : F64) (F : Action)
  | DynamicResettable (reset_func : Nat → F64) (calls : Nat) (F : Action)
  | StaticTimestretch (F : Action) (Numer Denom : Int) (Dtcp : DtConsumptionPolicy)
  | StatefulTimestretch (factor : F64) (F : Action) (Dtcp : DtConsumptionPolicy)
  | DynamicTimestretch (factor_func : Nat → F64) (calls : Nat) (F : Action)
      (Dtcp : DtConsumptionPolicy)
  | Queue (position : Nat) (initialized : Bool)
  | QueueInvalid (initialized : Bool)
  | Set
  | StaticSet

/-- The function `empty_op_func`, the default action of an `OpData`. -/
def empty_op_func : Action := Action.Empty

namespace Action

/-- What a `push_back` that reallocates the children vector leaves of the
functor: every iterator into the vector is invalidated, so a `Queue`, also one
wrapped in combinators, holds an invalid `position`. -/
def invalidate : Action → Action
  | PostSetCompleted F => PostSetCompleted (invalidate F)
  | ResetWhenComplete F => ResetWhenComplete (invalidate F)
  | Resettable F => Resettable (invalidate F)
  | StaticResettable F Numer Denom => StaticResettable (invalidate F) Numer Denom
  | StatefulResettable val F => StatefulResettable val (invalidate F)
  | DynamicResettable reset_func calls F => DynamicResettable reset_func calls (invalidate F)
  | StaticTimestretch F Numer Denom Dtcp => StaticTimestretch (invalidate F) Numer Denom Dtcp
  | StatefulTimestretch factor F Dtcp => StatefulTimestretch factor (invalidate F) Dtcp
  | DynamicTimestretch factor_func calls F Dtcp =>
    DynamicTimestretch factor_func calls (invalidate F) Dtcp
  | Queue _ initialized => QueueInvalid initialized
  | a => a

/-- What `erase(it)` at index `i` of the children vector leaves of the functor:
the iterators at or after `i` are invalidated. -/
def invalidate_from (i : Nat) : Action → Action
  | PostSetCompleted F => PostSetCompleted (invalidate_from i F)
  | ResetWhenComplete F => ResetWhenComplete (invalidate_from i F)
  | Resettable F => Resettable (invalidate_from i F)
  | StaticResettable F Numer Denom => StaticResettable (invalidate_from i F) Numer Denom
  | StatefulResettable val F => StatefulResettable val (invalidate_from i F)
  | DynamicResettable reset_func calls F =>
    DynamicResettable reset_func calls (invalidate_from i F)
  | StaticTimestretch F Numer Denom Dtcp =>
    StaticTimestretch (invalidate_from i F) Numer Denom Dtcp
  | StatefulTimestretch factor F Dtcp => StatefulTimestretch factor (invalidate_from i F) Dtcp
  | DynamicTimestretch factor_func calls F Dtcp =>
    DynamicTimestretch factor_func calls (invalidate_from i F) Dtcp
  | Queue position initialized =>
    if i ≤ position then QueueInvalid initialized else Queue position initialized
  | a => a

end Action

/-- What a run leaves in its trace: `op h dt` when `Op::operator()(dt)` is
entered on the Op of identity `h`, `func tag dt` when the user function `tag`
is called with delta `dt`. -/
inductive Event where
  | op (handle : Nat) (dt : F64)
  | func (tag : Nat) (dt : F64)
  deriving DecidableEq, Repr

/-- An `Op`: its `Handleable` identity and the fields of its `OpData`. -/
inductive Op where
  | mk (handle : Nat) (remaining : F64) (total : F64) (action : Action) (children : List Op)

/-- The struct `OpData`. -/
structure OpData where
  remaining : F64 := -1
  total : F64 := 0
  action : Action := empty_op_func
  children : List Op := []

/-- The call `data.children.push_back(op)`: the Op is appended; when the vector
reallocates (its size was its capacity) every iterator into it is invalidated,
the `position` of a `Queue` in `data.action` among them. -/
def OpData.push_back (data : OpData) (op : Op) (reallocates : Bool) : OpData :=
  { data with
    children := data.children ++ [op]
    action := if reallocates then data.action.invalidate else data.action }

namespace Op

def handle : Op → Nat
  | mk h _ _ _ _ => h

def remaining : Op → F64
  | mk _ r _ _ _ => r

def total : Op → F64
  | mk _ _ t _ _ => t

def action : Op → Action
  | mk _ _ _ a _ => a

def children : Op → List Op
  | mk _ _ _ _ c => c

def data_ : Op → OpData
  | mk _ r t a c => { remaining := r, total := t, action := a, children := c }

def ofData (h : Nat) (d : OpData) : Op :=
  mk h d.remaining d.total d.action d.children

end Op

/-- The value `f = Numer / (F64)Denom` of the static combinators. -/
def staticValue (Numer Denom : Int) : F64 := (Numer : ℚ) / (Denom : ℚ)

/-- What the caller's delta becomes in `exec`: untouched for `disable`,
`mdt / f` for `consume`, `0` for `consume_all`. -/
def execDt (Dtcp : DtConsumptionPolicy) (dt mdt f : F64) : F64 :=
  match Dtcp with
  | .disable => dt
  | .consume => mdt / f
  | .consume_all => 0

/-- The loop of `Set::operator()`: a child with `remaining() != 0` is called
with a copy of `dt` and clears `finished`. Returns the children, `finished`
and the trace. -/
def setLoop (call : Op → F64 → Option (Op × List Event)) (dt : F64) :
    List Op → Option (List Op × Bool × List Event)
  | [] => some ([], true, [])
  | op :: rest =>
    if op.remaining ≠ 0 then
      match call op dt with
      | none => none
      | some (op', e) =>
        match setLoop call dt rest with
        | none => none
        | some (rest', _, e') => some (op' :: rest', false, e ++ e')
    else
      match setLoop call dt rest with
      | none => none
      | some (rest', finished, e') => some (op :: rest', finished, e')

/-- The loop of `StaticSet::operator()`: every child is called with a copy of
`dt`. -/
def staticSetLoop (call : Op → F64 → Option (Op × List Event)) (dt : F64) :
    List Op → Option (List Op × List Event)
  | [] => some ([], [])
  | op :: rest =>
    match call op dt with
    | none => none
    | some (op', e) =>
      match staticSetLoop call dt rest with
      | none => none
      | some (rest', e') => some (op' :: rest', e ++ e')

/-- The loop `while (dt > 0)` of `Queue::operator()`, one iteration per unit of
`steps`; dereferencing a cursor outside `data.children` gives `none`. Returns
the cursor, the data and the trace. -/
def queueLoop (call : Op → F64 → Option (Op × List Event)) (dt : F64) :
    Nat → Nat → OpData → List Event → Option (Nat × OpData × List Event)
  | 0, _, _, _ => none
  | steps + 1, position, data, ev =>
    if dt > 0 then
      match data.children.get? position with
      | none => none
      | some op =>
        if op.remaining ≠ 0 then
          match call op dt with
          | none => none
          | some (op', e) =>
            let data1 : OpData :=
              { data with remaining := -1, children := data.children.set position op' }
            if op'.remaining ≠ 0 then
              some (position, data1, ev ++ e)
            else if position + 1 ≠ data1.children.length then
              queueLoop call dt steps (position + 1) data1 (ev ++ e)
            else
              some (position, { data1 with remaining := 0 }, ev ++ e)
        else if position + 1 ≠ data.children.length then
          queueLoop call dt steps (position + 1) data ev
        else
          some (position, { data with remaining := 0 }, ev)
    else
      some (position, data, ev)

mutual

/-- The call `functor(data, dt)` of an action functor: the functor after the
call, the data, the delta left in `dt`, and the trace. A `Queue` whose
`position` is invalid and that does not reset it (`initialized`, `dt != 0`)
dereferences it in the loop `while (dt > 0)`: undefined behaviour, `none`. -/
def Action.call : Nat → Action → OpData → F64 → Option (Action × OpData × F64 × List Event)
  | 0, _, _, _ => none
  | fuel + 1, a, data, dt =>
    match a with
    | .Empty => some (.Empty, data, dt, [])
    | .Wrap tag => some (.Wrap tag, data, dt, [Event.func tag dt])
    | .FuncPtrWrap tag => some (.FuncPtrWrap tag, data, dt, [Event.func tag dt])
    | .OpFuncPtrWrap tag func =>
      let r := func data.remaining data.total dt
      some (.OpFuncPtrWrap tag func, { data with remaining := r.1, total := r.2.1 }, r.2.2,
        [Event.func tag dt])
    | .PostSetCompleted F =>
      match Action.call fuel F data dt with
      | none => none
      | some (F', d1, dt1, e1) => some (.PostSetCompleted F', { d1 with remaining := 0 }, dt1, e1)
    | .ResetWhenComplete F =>
      match Action.call fuel F data dt with
      | none => none
      | some (F1, d1, dt1, e1) =>
        if d1.remaining = 0 then
          match Action.call fuel F1 d1 0 with
          | none => none
          | some (F2, d2, _, e2) => some (.ResetWhenComplete F2, d2, dt1, e1 ++ e2)
        else
          some (.ResetWhenComplete F1, d1, dt1, e1)
    | .Resettable F =>
      let data1 : OpData := if dt = 0 then { data with remaining := data.total } else data
      match Action.call fuel F data1 dt with
      | none => none
      | some (F', d1, dt1, e1) => some (.Resettable F', d1, dt1, e1)
    | .StaticResettable F Numer Denom =>
      let data1 : OpData :=
        if dt = 0 then { data with remaining := staticValue Numer Denom } else data
      match Action.call fuel F data1 dt with
      | none => none
      | some (F', d1, dt1, e1) => some (.StaticResettable F' Numer Denom, d1, dt1, e1)
    | .StatefulResettable val F =>
      let data1 : OpData := if dt = 0 then { data with remaining := val } else data
      match Action.call fuel F data1 dt with
      | none => none
      | some (F', d1, dt1, e1) => some (.StatefulResettable val F', d1, dt1, e1)
    | .DynamicResettable reset_func calls F =>
      let data1 : OpData := if dt = 0 then { data with remaining := reset_func calls } else data
      let calls1 : Nat := if dt = 0 then calls + 1 else calls
      match Action.call fuel F data1 dt with
      | none => none
      | some (F', d1, dt1, e1) => some (.DynamicResettable reset_func calls1 F', d1, dt1, e1)
    | .StaticTimestretch F Numer Denom Dtcp =>
      let f := staticValue Numer Denom
      match Action.call fuel F data (dt * f) with
      | none => none
      | some (F', d1, mdt, e1) =>
        some (.StaticTimestretch F' Numer Denom Dtcp, d1, execDt Dtcp dt mdt f, e1)
    | .StatefulTimestretch factor F Dtcp =>
      match Action.call fuel F data (dt * factor) with
      | none => none
      | some (F', d1, mdt, e1) =>
        some (.StatefulTimestretch factor F' Dtcp, d1, execDt Dtcp dt mdt factor, e1)
    | .DynamicTimestretch factor_func calls F Dtcp =>
      let f := factor_func calls
      match Action.call fuel F data (dt * f) with
      | none => none
      | some (F', d1, mdt, e1) =>
        some (.DynamicTimestretch factor_func (calls + 1) F' Dtcp, d1, execDt Dtcp dt mdt f, e1)
    | .Queue position initialized =>
      if !initialized || dt = 0 then
        if data.children.length = 0 then
          some (.Queue 0 false, data, dt, [])
        else
          match queueLoop (Op.call fuel) dt fuel 0 data [] with
          | none => none
          | some (p, d1, e1) => some (.Queue p true, d1, dt, e1)
      else
        match queueLoop (Op.call fuel) dt fuel position data [] with
        | none => none
        | some (p, d1, e1) => some (.Queue p initialized, d1, dt, e1)
    | .QueueInvalid initialized =>
      if !initialized || dt = 0 then
        if data.children.length = 0 then
          some (.Queue 0 false, data, dt, [])
        else
          match queueLoop (Op.call fuel) dt fuel 0 data [] with
          | none => none
          | some (p, d1, e1) => some (.Queue p true, d1, dt, e1)
      else if dt > 0 then
        none
      else
        some (.QueueInvalid initialized, data, dt, [])
    | .Set =>
      match setLoop (Op.call fuel) dt data.children with
      | none => none
      | some (kids, finished, e1) =>
        some (.Set, { data with children := kids, remaining := if finished then 0 else -1 }, dt, e1)
    | .StaticSet =>
      match staticSetLoop (Op.call fuel) dt data.children with
      | none => none
      | some (kids, e1) => some (.StaticSet, { data with children := kids }, dt, e1)

/-- The call `Op::operator()(F64 dt)`: `dt` is a by-value parameter, the
action runs on the local copy, so what it leaves in the delta is dropped. -/
def Op.call : Nat → Op → F64 → Option (Op × List Event)
  | 0, _, _ => none
  | fuel + 1, op, dt =>
    match Action.call fuel op.action op.data_ dt with
    | none => none
    | some (a', d1, _, e1) =>
      some (Op.mk op.handle d1.remaining d1.total a' d1.children, Event.op op.handle dt :: e1)

end

/-! ## The scheduling tree

The Op objects a tree owns live in a store addressed by their `Handleable`
identity; a `vector<Op>` is the list of the identities of its elements, and a
`Handle<Op>` is an optional identity, alive while the store holds that
identity. A handle so follows its Op through moves and swaps. -/

/-- An Op object in the store: its `OpData`, the children vector given by the
identities of its elements. `has_capacity` tells whether the children vector
owns a buffer (`capacity() != 0`): it does from the first `push_back` on, also
when its elements have been erased since. -/
structure OpCell where
  remaining : F64 := -1
  total : F64 := 0
  action : Action := empty_op_func
  children : List Nat := []
  has_capacity : Bool := false

/-- What an `op_generator` returns: an Op without children. -/
structure GenOp where
  remaining : F64 := -1
  total : F64 := 0
  action : Action := empty_op_func

/-- The function `default_op_generator`: a default Op whose action is
`StaticSet`. -/
def default_op_generator : Id → GenOp :=
  fun _ => { action := Action.StaticSet }

/-- The struct `Opus::op_meta`. -/
structure op_meta where
  parent : Id := 0
  op : Option Nat := none
  children : List Id := []
  children_dirty : Bool := false
  priority : Int := 0
  deriving DecidableEq, Repr

/-- The `be_error()` records. -/
inductive LogEntry where
  | id_not_found_in_old_parent (op_id old_parent_id new_parent_id : Id)
  | op_not_found_in_old_parent (op_id old_parent_id new_parent_id : Id)
  | id_not_found_in_parent (op_id parent_id : Id)
  | op_not_found_in_parent (op_id parent_id : Id)
  deriving DecidableEq, Repr

/-- The map `opus_map` as a list of entries with the operations `find`,
assignment through a reference (`set`), `emplace` and `erase`. The order of
the list is the order in which `clean_()` walks the map. -/
abbrev opus_map := List (Id × op_meta)

namespace opus_map

def find : opus_map → Id → Option op_meta
  | [], _ => none
  | (k, v) :: rest, id => if k = id then some v else find rest id

def set : opus_map → Id → op_meta → opus_map
  | [], id, v => [(id, v)]
  | (k, w) :: rest, id, v => if k = id then (k, v) :: rest else (k, w) :: set rest id v

/-- The call `emplace(id, v)`: no effect when `id` has an entry. -/
def emplace (m : opus_map) (id : Id) (v : op_meta) : opus_map :=
  match find m id with
  | some _ => m
  | none => set m id v

def erase (m : opus_map) (id : Id) : opus_map :=
  m.filter (fun p => p.1 ≠ id)

def keys (m : opus_map) : List Id :=
  m.map (fun p => p.1)

end opus_map

/-- The class `Opus`: `root_` is the identity of the root Op, `ops` the store
of Op objects, `fresh` the identity the next constructed Op gets. -/
structure Opus where
  root_ : Nat
  ops : Nat → Option OpCell
  fresh : Nat
  meta_ : opus_map
  dirty_ : Bool
  op_gen_ : Id → GenOp
  log : List LogEntry

/-- The destructor of a children vector: it destroys the elements in turn. -/
def destroyAll (destroy : (Nat → Option OpCell) → Nat → Option (Nat → Option OpCell)) :
    (Nat → Option OpCell) → List Nat → Option (Nat → Option OpCell)
  | ops, [] => some ops
  | ops, k :: rest =>
    match destroy ops k with
    | none => none
    | some o => destroyAll destroy o rest

/-- The destructor `~Op()` on the Op of identity `h`: it destroys the children
vector, so the Ops the vector owns with what they own, and then the Op leaves
the store. `none` when the fuel runs out: with every fuel when the Ops below
`h` own each other in a cycle, where the destructors call each other without
end. -/
def destroy : Nat → (Nat → Option OpCell) → Nat → Option (Nat → Option OpCell)
  | 0, _, _ => none
  | fuel + 1, ops, h =>
    match ops h with
    | none => some ops
    | some c =>
      match destroyAll (destroy fuel) ops c.children with
      | none => none
      | some o => some (fun k => if k = h then none else o k)

/-- The children vectors below the Op of identity `h` are less than `n` levels
deep: the Ops `h` owns, directly or through others, do not own each other in a
cycle. -/
def ownDepthLE : Nat → (Nat → Option OpCell) → Nat → Bool
  | 0, _, _ => false
  | n + 1, ops, h =>
    match ops h with
    | none => true
    | some c => c.children.all (fun k => ownDepthLE n ops k)

/-- Modelled from the spec: `Handleable<Op>::swap_source_handle_`, declared in
`handleable.hpp`, which is not among the sources; a handle stays valid across
the swap of its Op with another live Op. The exchange `swap(a, b)` of two Ops
(`Op::swap_`): data and identity change places, so every vector slot and
`root_` holding one identity then holds the other. -/
def swapId (h1 h2 : Nat) (k : Nat) : Nat :=
  if k = h1 then h2 else if k = h2 then h1 else k

namespace Opus

/-- The constructor `Opus::Opus(op_gen)`. -/
def new (op_gen : Id → GenOp) : Opus :=
  { root_ := 0
    ops := fun k =>
      if k = 0 then
        some { remaining := (op_gen 0).remaining, total := (op_gen 0).total,
               action := (op_gen 0).action, children := [] }
      else none
    fresh := 1
    meta_ := [(0, { op := some 0 })]
    dirty_ := false
    op_gen_ := op_gen
    log := [] }

/-- Modelled from the spec: `Handle<Op>`, declared in `handleable.hpp`, which is
not among the sources; a handle can be tested for liveness and dereferences to
its Op wherever the Op has been moved. The pointer `handle.get()`: the identity
when the handle is alive. -/
def get (s : Opus) (h : Option Nat) : Option Nat :=
  match h with
  | none => none
  | some x => if (s.ops x).isSome then some x else none

/-- Assignment through a reference to the entry of `id`. -/
def modify (s : Opus) (id : Id) (f : op_meta → op_meta) : Opus :=
  match s.meta_.find id with
  | none => s
  | some m => { s with meta_ := s.meta_.set id (f m) }

def error (s : Opus) (e : LogEntry) : Opus :=
  { s with log := s.log ++ [e] }

/-- The children vector of the Op of identity `h`, as the list of the
identities of its elements (empty when there is no such Op). -/
def op_children (s : Opus) (h : Nat) : List Nat :=
  ((s.ops h).map (fun c => c.children)).getD []

/-- The pointer `meta.op.get()` of the entry of `id`: the identity of the Op the
entry is bound to, when the entry exists and its handle is alive. -/
def op_of (s : Opus) (id : Id) : Option Nat :=
  (s.meta_.find id).bind (fun e => s.get e.op)

/-- The call `children.push_back(x)` on the children vector of the Op `h`,
where `x` is neither `h` nor an Op a reference held across the call depends
on: the identity `x` is appended. The vector has a buffer afterwards; whether
the call reallocates depends on the capacity, which the source does not fix,
so the iterator of a `Queue` of `h` is taken as invalidated. -/
def push_back (s : Opus) (h x : Nat) : Opus :=
  { s with ops := fun k =>
      if k = h then
        (s.ops h).map (fun c =>
          { c with
            children := c.children ++ [x]
            has_capacity := true
            action := c.action.invalidate })
      else s.ops k }

/-- The call `children.push_back(op_gen_(id))` on the children vector of the
Op `h`: the generated Op gets the identity `fresh`. -/
def push_new (s : Opus) (h : Nat) (id : Id) : Opus :=
  let g := s.op_gen_ id
  let s1 : Opus :=
    { s with
      ops := fun k =>
        if k = s.fresh then
          some { remaining := g.remaining, total := g.total, action := g.action, children := [] }
        else s.ops k
      fresh := s.fresh + 1 }
  s1.push_back h s.fresh

/-- The call `children.erase(it)` on the children vector of the Op `h`, `it`
the first slot that holds `x`: what it leaves of the vector and of the
iterators into it (the destruction of the erased Op apart). -/
def erase_slot (s : Opus) (h x : Nat) : Opus :=
  { s with ops := fun k =>
      if k = h then
        (s.ops h).map (fun c =>
          { c with
            children := c.children.erase x
            action := c.action.invalidate_from (c.children.indexOf x) })
      else s.ops k }

/-- The call `swap(a, b)` on the Ops of identities `h1` and `h2`. -/
def swap (s : Opus) (h1 h2 : Nat) : Opus :=
  { s with
    root_ := swapId h1 h2 s.root_
    ops := fun k => (s.ops k).map (fun c => { c with children := c.children.map (swapId h1 h2) }) }

/-- The function `Opus::parent(Id) const`. -/
def parent (s : Opus) (child_id : Id) : Id :=
  match s.meta_.find child_id with
  | some m => m.parent
  | none => 0

/-- The function `Opus::priority(Id) const`. -/
def priority (s : Opus) (id : Id) : Int :=
  match s.meta_.find id with
  | some m => m.priority
  | none => 0

/-- The function `Opus::exists`. -/
def exists_id (s : Opus) (id : Id) : Bool :=
  (s.meta_.find id).isSome

/-- The range `begin(id) .. end(id)`. -/
def iterate (s : Opus) (id : Id) : List Id :=
  match s.meta_.find id with
  | some m => m.children
  | none => []

/-- The function `Opus::get_or_create_`. The statement
`op_meta rootMeta = meta_[Id()]` default-inserts the root entry when it is
missing and copies it; the changes to the copy are dropped with it. -/
def get_or_create_ (s : Opus) (id : Id) : Opus :=
  match s.meta_.find id with
  | some _ => s
  | none => { s with meta_ := (s.meta_.emplace id {}).emplace 0 {}, dirty_ := true }

/-- The function `Opus::get_or_create_with_op_`; the entry it returns is the
entry of `id` in the state returned. -/
def get_or_create_with_op_ : Nat → Opus → Id → Option Opus
  | 0, _, _ => none
  | fuel + 1, s, id =>
    match s.meta_.find id with
    | some m =>
      match s.get m.op with
      | some _ => some s
      | none =>
        match get_or_create_with_op_ fuel s m.parent with
        | none => none
        | some s1 =>
          match s1.meta_.find m.parent with
          | none => none
          | some p =>
            match s1.get p.op with
            | none => none
            | some ph =>
              let s2 := s1.push_new ph id
              let s3 := s2.modify id (fun e => { e with op := some s1.fresh })
              let s4 := s3.modify m.parent (fun e => { e with children_dirty := true })
              some { s4 with dirty_ := true }
    | none =>
      match s.ops s.root_ with
      | none => none
      | some _ =>
        let s1 := s.push_new s.root_ id
        some { s1 with
          meta_ := (s1.meta_.emplace id { op := some s.fresh }).emplace 0 {}
          dirty_ := true }

/-- The function `Opus::operator[]`: the state and the identity of the Op
returned. -/
def index (fuel : Nat) (s : Opus) (id : Id) : Option (Opus × Nat) :=
  match get_or_create_with_op_ fuel s id with
  | none => none
  | some s1 =>
    match s1.meta_.find id with
    | none => none
    | some m =>
      match s1.get m.op with
      | none => none
      | some h => some (s1, h)

/-- The statements `parent.op->data_.children.push_back(std::move(*it));
old_children.erase(it);` for the Op `h` in the children vector of `oh`, moved
to the children vector of `ph`.

When `ph` is `h` the Op is pushed into its own children vector, and the new
element takes the data of `h`, that vector with it. If the vector is empty and
never had a buffer, the call allocates one for the new element, which is then
owned by what is left of `h`, and the `erase` destroys it with `h`: the Op is
gone. If the vector has a buffer (it has one whenever it has elements), the
new element takes that buffer over while the `push_back` is working on it; with
room left the element is built in the buffer it then owns and `h` is left with
a size and no storage: no defined result, `none`.

When `ph` is `oh`, or the children vector of `ph` holds `oh`, a `push_back`
that reallocates invalidates `it`, or moves the Op `oh` and leaves the
reference `old_children` dangling for the `erase`; whether it reallocates
depends on the capacity, which the source does not fix: `none`. -/
def move_slot_ (s : Opus) (oh h ph : Nat) : Option Opus :=
  if ph = h then
    match s.ops h with
    | none => none
    | some c =>
      if c.children = [] ∧ c.has_capacity = false then
        let s1 := s.erase_slot oh h
        some { s1 with ops := fun k => if k = h then none else s1.ops k }
      else none
  else if ph = oh ∨ oh ∈ s.op_children ph then none
  else some ((s.push_back ph h).erase_slot oh h)

/-- The inner block `if (old_parent.op) { ... }` of the reparenting code: when
the old parent's Op and the child's Op are alive, move the child's Op from the
children of the old parent's Op to those of the new parent's Op, or log and
reset the child's handle when it is not there. -/
def move_op_ (s : Opus) (child_id old_parent_id new_parent_id : Id) : Option Opus :=
  match (s.meta_.find old_parent_id).bind (fun e => s.get e.op) with
  | none => some s
  | some oh =>
    match (s.meta_.find child_id).bind (fun e => s.get e.op) with
    | none => some s
    | some h =>
      match s.ops oh with
      | none => none
      | some oc =>
        if h ∈ oc.children then
          match (s.meta_.find new_parent_id).bind (fun e => s.get e.op) with
          | none => none
          | some ph => move_slot_ s oh h ph
        else
          some ((s.error
            (.op_not_found_in_old_parent child_id old_parent_id new_parent_id)).modify
              child_id (fun e => { e with op := none }))

/-- The block guarded by `meta.parent != new_parent_id`, the same text in
`child` and in `parent(Id, Id)`: move the entry of `child_id`, and its Op,
from the old parent to the new one. -/
def reparent_ (fuel : Nat) (s : Opus) (child_id new_parent_id : Id) : Option Opus :=
  match s.meta_.find child_id with
  | none => none
  | some m =>
    let old_parent_id := m.parent
    match get_or_create_with_op_ fuel s new_parent_id with
    | none => none
    | some s1 =>
      let s2 := s1.get_or_create_ old_parent_id
      match s2.meta_.find old_parent_id with
      | none => none
      | some old_parent =>
        let s3 :=
          if child_id ∈ old_parent.children then
            s2.modify old_parent_id (fun e => { e with children := e.children.erase child_id })
          else
            s2.error (.id_not_found_in_old_parent child_id old_parent_id new_parent_id)
        let s4 : Opus :=
          { s3.modify new_parent_id
              (fun e => { e with children := e.children ++ [child_id], children_dirty := true })
            with dirty_ := true }
        match move_op_ s4 child_id old_parent_id new_parent_id with
        | none => none
        | some s5 => some (s5.modify child_id (fun e => { e with parent := new_parent_id }))

/-- The end of `Opus::child`, from `if (!parent)` on: generate the Op of
`child_id` under the Op of `parent_id`. `has_parent` tells whether `parent`
was assigned before. -/
def child_tail (fuel : Nat) (s : Opus) (parent_id child_id : Id) (has_parent : Bool) :
    Option (Opus × Nat) :=
  match (if has_parent then some s else get_or_create_with_op_ fuel s parent_id) with
  | none => none
  | some s1 =>
    match (s1.meta_.find parent_id).bind (fun e => s1.get e.op) with
    | none => none
    | some ph =>
      let s2 := s1.push_new ph child_id
      let s3 : Opus :=
        { s2.modify parent_id (fun e => { e with children_dirty := true }) with dirty_ := true }
      some (s3.modify child_id (fun e => { e with op := some s1.fresh }), s1.fresh)

/-- The block `if (meta->parent != parent_id) { ... }` of `Opus::child`; the
flag tells whether `parent` has been assigned. -/
def child_move_ (fuel : Nat) (s : Opus) (parent_id child_id : Id) : Option (Opus × Bool) :=
  if s.parent child_id ≠ parent_id then
    (reparent_ fuel s child_id parent_id).map (fun s1 => (s1, true))
  else some (s, false)

/-- The block `if (meta->priority != priority) { ... }` of `Opus::child`. -/
def child_priority_ (fuel : Nat) (s : Opus) (parent_id child_id : Id) (priority : Int)
    (has_parent : Bool) : Option (Opus × Bool) :=
  if s.priority child_id ≠ priority then
    let s2 := s.modify child_id (fun e => { e with priority := priority })
    match (if has_parent then some s2 else get_or_create_with_op_ fuel s2 parent_id) with
    | none => none
    | some s3 =>
      some ({ s3.modify parent_id (fun e => { e with children_dirty := true })
              with dirty_ := true }, true)
  else some (s, has_parent)

/-- The function `Opus::child`: the state and the identity of the Op returned;
`none` when `assert((U64)child_id)` fails. -/
def child (fuel : Nat) (s : Opus) (parent_id child_id : Id) (priority : Int) :
    Option (Opus × Nat) :=
  if child_id = 0 then none
  else
    match s.meta_.find child_id with
    | some _ =>
      match child_move_ fuel s parent_id child_id with
      | none => none
      | some (s1, has_parent) =>
        match child_priority_ fuel s1 parent_id child_id priority has_parent with
        | none => none
        | some (s4, has_parent2) =>
          match (s4.meta_.find child_id).bind (fun e => s4.get e.op) with
          | some h => some (s4, h)
          | none => child_tail fuel s4 parent_id child_id has_parent2
    | none =>
      child_tail fuel { s with meta_ := s.meta_.emplace child_id {} } parent_id child_id false

/-- The value is one of the type `I32`. -/
def in_I32 (x : Int) : Bool :=
  decide (-2147483648 ≤ x ∧ x ≤ 2147483647)

/-- The function `Opus::before`; `none` when an assertion fails or the sum
`sibling.priority + priority_delta` overflows `I32` (undefined behaviour). -/
def before (fuel : Nat) (s : Opus) (sibling_id op_id : Id) (priority_delta : Int) :
    Option (Opus × Nat) :=
  if sibling_id = 0 ∨ op_id = 0 then none
  else
    let s1 := s.get_or_create_ sibling_id
    if in_I32 (s1.priority sibling_id + priority_delta) then
      child fuel s1 (s1.parent sibling_id) op_id (s1.priority sibling_id + priority_delta)
    else none

/-- The function `Opus::after`; `none` when an assertion fails or the difference
`sibling.priority - priority_delta` overflows `I32` (undefined behaviour). -/
def after (fuel : Nat) (s : Opus) (sibling_id op_id : Id) (priority_delta : Int) :
    Option (Opus × Nat) :=
  if sibling_id = 0 ∨ op_id = 0 then none
  else
    let s1 := s.get_or_create_ sibling_id
    if in_I32 (s1.priority sibling_id - priority_delta) then
      child fuel s1 (s1.parent sibling_id) op_id (s1.priority sibling_id - priority_delta)
    else none

/-- The function `Opus::parent(Id, Id)`: the state and the value returned. -/
def set_parent (fuel : Nat) (s : Opus) (child_id new_parent_id : Id) : Option (Opus × Id) :=
  let s0 := s.get_or_create_ child_id
  let old_parent_id := s0.parent child_id
  if old_parent_id ≠ new_parent_id then
    (reparent_ fuel s0 child_id new_parent_id).map (fun s1 => (s1, old_parent_id))
  else some (s0, old_parent_id)

/-- The function `Opus::priority(Id, I32)`: the state and the value returned. -/
def set_priority (s : Opus) (id : Id) (new_priority : Int) : Opus × Int :=
  let s0 := s.get_or_create_ id
  let old_priority := s0.priority id
  if old_priority ≠ new_priority then
    let s1 := s0.modify id (fun e => { e with priority := new_priority })
    let parent_id := s1.parent id
    let s2 := s1.get_or_create_ parent_id
    ({ s2.modify parent_id (fun e => { e with children_dirty := true }) with dirty_ := true },
      old_priority)
  else (s0, old_priority)

/-- The block `if (parent.op) { ... }` of `Opus::erase`: when the Op of `id`
is among the children of the parent's Op, `old_children.erase(it3)` destroys it
(the destructor runs on the vector that still holds the Op) and takes it out of
the vector; otherwise log and reset the handle. -/
def erase_op_ (fuel : Nat) (s3 : Opus) (id parent_id : Id) : Option Opus :=
  match (s3.meta_.find parent_id).bind (fun e => s3.get e.op) with
  | none => some s3
  | some ph =>
    match (s3.meta_.find id).bind (fun e => s3.get e.op) with
    | none => some s3
    | some h =>
      match s3.ops ph with
      | none => some s3
      | some pc =>
        if h ∈ pc.children then
          match destroy fuel s3.ops h with
          | none => none
          | some o => some (({ s3 with ops := o } : Opus).erase_slot ph h)
        else
          some ((s3.error (.op_not_found_in_parent id parent_id)).modify id
            (fun e => { e with op := none }))

/-- The part of `Opus::erase` after the loop over the children: take `id` out
of its parent's child list, destroy its Op when it is among the children of
the parent's Op, and erase the entry. -/
def erase_self_ (fuel : Nat) (s1 : Opus) (id : Id) : Option Opus :=
  match s1.meta_.find id with
  | none => none
  | some m =>
    let s2 := s1.get_or_create_ m.parent
    match s2.meta_.find m.parent with
    | none => none
    | some p =>
      let s3 :=
        if id ∈ p.children then
          s2.modify m.parent (fun e => { e with children := e.children.erase id })
        else
          s2.error (.id_not_found_in_parent id m.parent)
      match erase_op_ fuel s3 id m.parent with
      | none => none
      | some s4 => some { s4 with meta_ := s4.meta_.erase id }

mutual

/-- The function `Opus::erase`. -/
def erase : Nat → Opus → Id → Option Opus
  | 0, _, _ => none
  | fuel + 1, s, id =>
    match s.meta_.find id with
    | none => some s
    | some _ =>
      match erase_children fuel s id with
      | none => none
      | some s1 => erase_self_ fuel s1 id

/-- The loop `while (!meta.children.empty()) erase(meta.children.back())` of
`Opus::erase`. -/
def erase_children : Nat → Opus → Id → Option Opus
  | 0, _, _ => none
  | fuel + 1, s, id =>
    match s.meta_.find id with
    | none => none
    | some m =>
      match m.children.getLast? with
      | none => some s
      | some c =>
        match erase fuel s c with
        | none => none
        | some s1 => erase_children fuel s1 id

end

/-- The loop `for (Id id : kids)` of `clean_(op_meta&)`: `H` is the identity of
the entry's Op, `op_it` the index of the iterator into its children vector. -/
def lockstep : Opus → Nat → List Id → Nat → Opus
  | s, _, [], _ => s
  | s, H, id :: rest, op_it =>
    match s.ops H with
    | none => s
    | some c =>
      match c.children.get? op_it with
      | none => s
      | some x =>
        match (s.meta_.find id).bind (fun e => s.get e.op) with
        | none => lockstep s H rest op_it
        | some child_op => lockstep (s.swap x child_op) H rest (op_it + 1)

/-- The function `Opus::clean_(op_meta&)` on the entry of `id`;
`std::stable_sort` with the comparison `priority(a) > priority(b)` is the
stable insertion sort by descending priority. -/
def clean_meta (s : Opus) (id : Id) : Opus :=
  match s.meta_.find id with
  | none => s
  | some m =>
    if !m.children_dirty then s
    else
      let s1 : Opus :=
        match s.get m.op with
        | none => s
        | some H =>
          let kids := m.children.insertionSort (fun a b => s.priority b ≤ s.priority a)
          lockstep (s.modify id (fun e => { e with children := kids })) H kids 0
      s1.modify id (fun e => { e with children_dirty := false })

/-- The function `Opus::clean_()`. -/
def clean_ (s : Opus) : Opus :=
  if s.dirty_ then { s.meta_.keys.foldl clean_meta s with dirty_ := false } else s

end Opus

/-- The Op of identity `h` with the Ops it owns, read from the store. -/
def reify : Nat → (Nat → Option OpCell) → Nat → Option Op
  | 0, _, _ => none
  | fuel + 1, ops, h =>
    match ops h with
    | none => none
    | some c =>
      match c.children.mapM (reify fuel ops) with
      | none => none
      | some kids => some (Op.mk h c.remaining c.total c.action kids)

mutual

/-- Write the fields `remaining`, `total` and `action` of an Op and of the Ops
it owns back to the store. -/
def Op.store : Op → (Nat → Option OpCell) → (Nat → Option OpCell)
  | .mk h r t a kids, ops =>
    Op.storeAll kids (fun k =>
      if k = h then (ops h).map (fun c => { c with remaining := r, total := t, action := a })
      else ops k)

def Op.storeAll : List Op → (Nat → Option OpCell) → (Nat → Option OpCell)
  | [], ops => ops
  | o :: rest, ops => Op.storeAll rest (Op.store o ops)

end

namespace Opus

/-- The function `Opus::operator()(F64 dt)`: the state, the value returned and
the trace of the run of `root_`. -/
def call (fuel : Nat) (s : Opus) (dt : F64) : Option (Opus × F64 × List Event) :=
  let s1 := if s.dirty_ then s.clean_ else s
  match reify fuel s1.ops s1.root_ with
  | none => none
  | some root =>
    match Op.call fuel root dt with
    | none => none
    | some (root', ev) => some ({ s1 with ops := root'.store s1.ops }, dt, ev)

end Opus

/-! ## Inputs of the examples -/

/-- A leaf callback that consumes the whole delta it is given and lowers
`remaining` by that amount. -/
def consuming_leaf : UserFunc :=
  fun remaining total dt => (remaining - dt, total, 0)

/-- A Queue over the leaves `A(total=1, remaining=1)` and
`B(total=1, remaining=1)`, not yet called. -/
def queue_AB : Op :=
  Op.mk 0 (-1) 0 (Action.Queue 0 false)
    [Op.mk 1 1 1 (Action.OpFuncPtrWrap 1 consuming_leaf) [],
     Op.mk 2 1 1 (Action.OpFuncPtrWrap 2 consuming_leaf) []]

/-- The data of a Set over a finished child (`remaining = 0`) and an
unfinished one. -/
def set_data : OpData :=
  { action := Action.Set
    children :=
      [Op.mk 1 0 1 (Action.OpFuncPtrWrap 1 consuming_leaf) [],
       Op.mk 2 1 1 (Action.OpFuncPtrWrap 2 consuming_leaf) []] }

/-- The three time-stretch functors as one family, by where the factor comes
from. -/
inductive Timestretch where
  | Static (Numer Denom : Int)
  | Stateful (factor : F64)
  | Dynamic (factor_func : Nat → F64) (calls : Nat)

namespace Timestretch

/-- The factor the next call uses. -/
def factor : Timestretch → F64
  | Static Numer Denom => staticValue Numer Denom
  | Stateful f => f
  | Dynamic factor_func calls => factor_func calls

/-- The functor around the base functor `F`. -/
def functor : Timestretch → Action → DtConsumptionPolicy → Action
  | Static Numer Denom, F, Dtcp => Action.StaticTimestretch F Numer Denom Dtcp
  | Stateful f, F, Dtcp => Action.StatefulTimestretch f F Dtcp
  | Dynamic factor_func calls, F, Dtcp => Action.DynamicTimestretch factor_func calls F Dtcp

/-- The family member after one call: a dynamic factor has been asked once
more. -/
def after : Timestretch → Timestretch
  | Static Numer Denom => Static Numer Denom
  | Stateful f => Stateful f
  | Dynamic factor_func calls => Dynamic factor_func (calls + 1)

end Timestretch

/-! ## Relations between states -/

/-- The entries of `s1` extend those of `s`: every entry of `s` is still there
with the same parent, child list and priority, and an entry that is new has
the default ones. -/
def MetaExt (s s1 : Opus) : Prop :=
  ∀ k, match s.meta_.find k with
    | some w => ∃ w', s1.meta_.find k = some w' ∧ w'.parent = w.parent ∧
        w'.children = w.children ∧ w'.priority = w.priority
    | none => ∀ w', s1.meta_.find k = some w' →
        w'.parent = 0 ∧ w'.children = [] ∧ w'.priority = 0

/-- The metadata invariant: a child list has no duplicates, and an identifier
it lists has an entry whose parent is the listing identifier. -/
def ListsOK (s : Opus) : Prop :=
  ∀ e, (s.iterate e).Nodup ∧ ∀ c ∈ s.iterate e, s.parent c = e ∧ s.exists_id c = true

/-- The step from `s` to `s'` keeps every parent and every child list and
erases no entry. -/
def SameTree (s s' : Opus) : Prop :=
  (∀ k, s'.parent k = s.parent k) ∧ (∀ k, s'.iterate k = s.iterate k) ∧
    (∀ k, s.exists_id k = true → s'.exists_id k = true)

namespace Opus

/-- A caller writes `remaining`, `total` and `action` of the Op of identity `h`
through a reference it holds (`Op::remaining(v)`, `Op::total(v)`,
`Op::action(f)`). -/
def set_op (s : Opus) (h : Nat) (remaining total : F64) (action : Action) : Opus :=
  { s with ops := fun k =>
      if k = h then
        (s.ops h).map (fun c => { c with remaining := remaining, total := total, action := action })
      else s.ops k }

end Opus

/-- The states a tree can be in: a constructed tree, changed by the public
operations and by writes to the Ops it hands out. -/
inductive Reachable : Opus → Prop where
  | new (op_gen : Id → GenOp) : Reachable (Opus.new op_gen)
  | index {s s' : Opus} (fuel : Nat) (id : Id) (h : Nat) :
      Reachable s → Opus.index fuel s id = some (s', h) → Reachable s'
  | child {s s' : Opus} (fuel : Nat) (parent_id child_id : Id) (priority : Int) (h : Nat) :
      Reachable s → Opus.child fuel s parent_id child_id priority = some (s', h) → Reachable s'
  | before {s s' : Opus} (fuel : Nat) (sibling_id op_id : Id) (priority_delta : Int) (h : Nat) :
      Reachable s → Opus.before fuel s sibling_id op_id priority_delta = some (s', h) →
        Reachable s'
  | after {s s' : Opus} (fuel : Nat) (sibling_id op_id : Id) (priority_delta : Int) (h : Nat) :
      Reachable s → Opus.after fuel s sibling_id op_id priority_delta = some (s', h) →
        Reachable s'
  | set_parent {s s' : Opus} (fuel : Nat) (child_id new_parent_id old : Id) :
      Reachable s → Opus.set_parent fuel s child_id new_parent_id = some (s', old) →
        Reachable s'
  | set_priority {s : Opus} (id : Id) (new_priority : Int) :
      Reachable s → Reachable (Opus.set_priority s id new_priority).1
  | erase {s s' : Opus} (fuel : Nat) (id : Id) :
      Reachable s → Opus.erase fuel s id = some s' → Reachable s'
  | call {s s' : Opus} (fuel : Nat) (dt r : F64) (ev : List Event) :
      Reachable s → Opus.call fuel s dt = some (s', r, ev) → Reachable s'
  | set_op {s : Opus} (h : Nat) (remaining total : F64) (action : Action) :
      Reachable s → Reachable (Opus.set_op s h remaining total action)

/-- The identifier `d` is reachable from `a` through child lists (`a` itself
included). -/
inductive Desc (s : Opus) : Id → Id → Prop where
  | refl (a : Id) : Desc s a a
  | step {a b c : Id} : Desc s a b → c ∈ s.iterate b → Desc s a c

/-- The child lists reachable from `id` are less than `n` levels deep: they
form a finite structure without a cycle. -/
def DepthLE (s : Opus) : Nat → Id → Prop
  | 0, _ => False
  | n + 1, id => ∀ c ∈ s.iterate id, DepthLE s n c

/-- A state in which two Ops own each other while the child lists hold no
cycle: on a fresh tree, `child(1, 2, 0)` and `parent(1, 2)`. The new-entry
branch of `child` generates the Op of 2 in the children vector of the Op of 1
and records neither the parent nor the list membership of 2; `parent(1, 2)`
then lists 1 under 2 and moves the Op of 1 into the children vector of the Op
of 2, which the Op of 1 owns. -/
def owned_cycle_state : Option Opus :=
  (Opus.child 5 (Opus.new default_op_generator) 1 2 0).bind fun r1 =>
    (Opus.set_parent 5 r1.1 1 2).map fun r2 => r2.1

namespace Opus

/-- The identities of the live Ops bound to the identifiers of `kids`, in the
order of `kids`; an identifier without an entry or without a live Op is
skipped. -/
def live_ops (s : Opus) (kids : List Id) : List Nat :=
  kids.filterMap (fun id => (s.meta_.find id).bind (fun e => s.get e.op))

end Opus

/-- No two entries hold a handle to the same Op. -/
def HandlesOK (s : Opus) : Prop :=
  ∀ e1 e2 m1 m2 h, s.meta_.find e1 = some m1 → s.meta_.find e2 = some m2 →
    m1.op = some h → m2.op = some h → e1 = e2

/-- The store is an ownership structure: a children vector holds an Op once,
and no Op is held by two vectors. -/
def StoreOK (s : Opus) : Prop :=
  (∀ h, (s.op_children h).Nodup) ∧
    (∀ h1 h2 x, x ∈ s.op_children h1 → x ∈ s.op_children h2 → h1 = h2)

namespace Opus

/-- The state after a sequence of exchanges `swap(a, b)`: every vector slot and
`root_` holding the identity `k` then holds `σ k`. -/
def rename (s : Opus) (σ : Nat → Nat) : Opus :=
  { s with
    root_ := σ s.root_
    ops := fun k => (s.ops k).map (fun c => { c with children := c.children.map σ }) }

end Opus

/-- Identities are handed out in increasing order: a handle of an entry, an Op
of the store and an element of a children vector are below `fresh`. -/
def FreshOK (s : Opus) : Prop :=
  (∀ k m h, s.meta_.find k = some m → m.op = some h → h < s.fresh) ∧
  (∀ h, (s.ops h).isSome = true → h < s.fresh) ∧
  (∀ h x, x ∈ s.op_children h → x < s.fresh)

/-- The ownership invariant of the two trees. -/
def OwnOK (s : Opus) : Prop :=
  HandlesOK s ∧ StoreOK s ∧ FreshOK s

/-- The flag `dirty_` covers the flags of the entries: an entry is dirty only
in a dirty tree. -/
def DirtyOK (s : Opus) : Prop :=
  s.dirty_ = true ∨ ∀ k m, s.meta_.find k = some m → m.children_dirty = false

/-- The step from `s` to `t` binds no handle: a handle an entry of `t` holds is
the one the entry held in `s`. -/
def HandlesLE (s t : Opus) : Prop :=
  ∀ k m' h, t.meta_.find k = some m' → m'.op = some h →
    ∃ m, s.meta_.find k = some m ∧ m.op = some h

/-- The invariant of the states of a tree: ownership, and `dirty_` covering the
flags of the entries. -/
def TreeOK (s : Opus) : Prop :=
  OwnOK s ∧ DirtyOK s

/-- A tree with a dirty entry: on a fresh tree, `[1]`, `[2]`, `[4]`,
`parent(2, 1)`, `parent(3, 1)`, `parent(4, 1)`, `priority(4, 5)`. The entry of 1
lists 2, 3, 4; the Ops of 2 and 4 (identities 2 and 3) are the children of the
Op of 1, in this order; 3 has no Op. -/
def reconcile_example : Option Opus :=
  (Opus.index 5 (Opus.new default_op_generator) 1).bind fun r1 =>
    (Opus.index 5 r1.1 2).bind fun r2 =>
      (Opus.index 5 r2.1 4).bind fun r3 =>
        (Opus.set_parent 5 r3.1 2 1).bind fun r4 =>
          (Opus.set_parent 5 r4.1 3 1).bind fun r5 =>
            (Opus.set_parent 5 r5.1 4 1).map fun r6 =>
              (Opus.set_priority r6.1 4 5).1

/-- What the loop of `Queue::operator()` leaves of a child it has looked at
with delta `dt`: a child with `remaining() != 0` has been called, any other is
as it was. -/
def Queue.visitedOp (call : Op → F64 → Option (Op × List Event)) (dt : F64) (c : Op) : Op :=
  if c.remaining ≠ 0 then ((call c dt).map Prod.fst).getD c else c

/-- The trace of the loop of `Queue::operator()` looking at one child: the
trace of its call when it has `remaining() != 0`, nothing otherwise. -/
def Queue.visitedTrace (call : Op → F64 → Option (Op × List Event)) (dt : F64) (c : Op) :
    List Event :=
  if c.remaining ≠ 0 then ((call c dt).map Prod.snd).getD [] else []

/-- A leaf `C(total=2, remaining=2)` to append to a Queue. -/
def queue_C : Op :=
  Op.mk 3 2 2 (Action.OpFuncPtrWrap 3 consuming_leaf) []

/-- The Ops of `t` are the Ops of `s` with the state they had and bound as they
were: every Op keeps its `remaining`, its `total` and its action, every entry
keeps its handle, and a handle refers to the Op it referred to. -/
def SameOps (s t : Opus) : Prop :=
  (∀ h, (t.ops h).map (fun c => (c.remaining, c.total, c.action)) =
      (s.ops h).map (fun c => (c.remaining, c.total, c.action))) ∧
  (∀ k, (t.meta_.find k).map (fun e => e.op) = (s.meta_.find k).map (fun e => e.op)) ∧
  (∀ o, t.get o = s.get o)

/-- Every entry to reconcile owns what it lists: the live Ops of the identifiers
listed by a dirty entry with a live Op are elements of the children vector of
that Op. -/
def ListedOwned (s : Opus) : Prop :=
  ∀ k m H, s.meta_.find k = some m → m.children_dirty = true → s.get m.op = some H →
    ∀ h ∈ s.live_ops m.children, h ∈ s.op_children H

/-- What the states `t` met while `clean_()` walks the entries of `s` satisfy
when the entries to reconcile own what they list: the store is an ownership
structure, the Ops are those of `s`, every children vector is a permutation of
what it was, and an entry lists the identifiers it listed and is dirty only if
it was. -/
def CleanPerm (s t : Opus) : Prop :=
  StoreOK t ∧ SameOps s t ∧ (∀ h, (t.op_children h).Perm (s.op_children h)) ∧
    ∀ k mt, t.meta_.find k = some mt →
      ∃ ms, s.meta_.find k = some ms ∧ mt.children.Perm ms.children ∧
        (mt.children_dirty = true → ms.children_dirty = true)

/-- A state in which an entry lists an identifier whose Op it does not own: on
a fresh tree, `child(5, 1, 0)`, `erase(0)`, `parent(1, 7)`, `child(7, 8, 0)`.
The Op of 1 (identity 2) is generated as a child of the Op of 5 (identity 1),
and the new-entry branch of `child` lists 1 nowhere; after `erase(0)` the root
entry has no Op, so `parent(1, 7)` lists 1 under 7 and moves no Op; the Op of 8
(identity 4) is the child of the Op of 7 (identity 3). -/
def unowned_listed_state : Option Opus :=
  (Opus.child 5 (Opus.new default_op_generator) 5 1 0).bind fun r1 =>
    (Opus.erase 5 r1.1 0).bind fun s2 =>
      (Opus.set_parent 5 s2 1 7).bind fun r3 =>
        (Opus.child 5 r3.1 7 8 0).map fun r4 => r4.1

/-! ## Theorems -/

/-! ### Containers and combinators -/

theorem Op.call_trace_head (fuel : Nat) (c : Op) (d : F64) (r : Op × List Event)
    (h : Op.call fuel c d = some r) : ∃ e, r.2 = Event.op c.handle d :: e := by
  cases fuel with
  | zero => simp [Op.call] at h
  | succ n =>
    simp only [Op.call] at h
    split at h
    · simp at h
    · simp only [Option.some.injEq] at h
      subst h
      exact ⟨_, rfl⟩

theorem setLoop_eq (call : Op → F64 → Option (Op × List Event)) (d : F64) :
    ∀ kids : List Op, (∀ c ∈ kids, c.remaining ≠ 0 → (call c d).isSome) →
      setLoop call d kids =
        some (kids.map (fun c => if c.remaining ≠ 0 then ((call c d).map Prod.fst).getD c else c),
          kids.all (fun c => decide (c.remaining = 0)),
          (kids.filter (fun c => decide (c.remaining ≠ 0))).flatMap
            (fun c => ((call c d).map Prod.snd).getD [])) := by
  intro kids
  induction kids with
  | nil => intro _; simp [setLoop]
  | cons op rest ih =>
    intro h
    have ih' := ih (fun c hc => h c (List.mem_cons_of_mem _ hc))
    by_cases hr : op.remaining = 0
    · simp [setLoop, hr, ih']
    · have hs := h op (List.mem_cons_self _ _) hr
      obtain ⟨r, hr'⟩ := Option.isSome_iff_exists.mp hs
      simp [setLoop, hr, hr', ih']

/-- C8 (as the code behaves): on the Queue over `A(1,1)` and `B(1,1)` with
consuming leaves, ONE call with delta 1 runs A and then B in the same call and
leaves `A.remaining = 0`, `B.remaining = 0`, `Queue.remaining = 0`; the delta
a child consumes is lost at `Op::operator()(F64 dt)`. -/
theorem Queue_runs_next_child_in_same_call :
    (Op.call 4 queue_AB 1).map
        (fun r => (r.1.remaining, r.1.children.map Op.remaining, r.2))
      = some (0, [0, 0],
          [Event.op 0 1, Event.op 1 1, Event.func 1 1, Event.op 2 1, Event.func 2 1]) := by
  decide!

/-- C9: a call of `Set` with delta `d`, when the calls of the unfinished
children return: exactly the children with `remaining ≠ 0` are called, in
sequence order and each with `d` (the trace is the concatenation of their
traces, each starting with its own `op handle d`), the others are left as they
are, the delta is still `d`, and `remaining` becomes `0` when every child has
`remaining = 0` and `-1` otherwise. -/
theorem Set_call_spec (fuel : Nat) (data : OpData) (d : F64)
    (hret : ∀ c ∈ data.children, c.remaining ≠ 0 → (Op.call fuel c d).isSome) :
    ∃ kids ev r,
      Action.call (fuel + 1) Action.Set data d
          = some (Action.Set, { data with children := kids, remaining := r }, d, ev)
      ∧ kids = data.children.map
          (fun c => if c.remaining ≠ 0 then ((Op.call fuel c d).map Prod.fst).getD c else c)
      ∧ ev = (data.children.filter (fun c => decide (c.remaining ≠ 0))).flatMap
          (fun c => ((Op.call fuel c d).map Prod.snd).getD [])
      ∧ (∀ c ∈ data.children, ∀ x, Op.call fuel c d = some x →
          ∃ e, x.2 = Event.op c.handle d :: e)
      ∧ (r = 0 ∨ r = -1)
      ∧ (r = 0 ↔ ∀ c ∈ data.children, c.remaining = 0)
      ∧ (r = 0 → ∀ c ∈ kids, c.remaining = 0) := by
  have hl := setLoop_eq (Op.call fuel) d data.children hret
  refine ⟨_, _, if (data.children.all (fun c => decide (c.remaining = 0))) = true then 0 else -1,
    ?_, rfl, rfl, ?_, ?_, ?_, ?_⟩
  · simp only [Action.call, hl]
  · intro c _ x hx
    exact Op.call_trace_head fuel c d x hx
  · split <;> simp
  · by_cases hall : (data.children.all (fun c => decide (c.remaining = 0))) = true
    · simp only [hall, if_true, true_iff]
      simpa using hall
    · simp only [hall, if_false]
      constructor
      · intro h; norm_num at h
      · intro h; exact absurd (by simpa using h) hall
  · intro hr c hc
    by_cases hall : (data.children.all (fun c => decide (c.remaining = 0))) = true
    · have hz : ∀ c ∈ data.children, c.remaining = 0 := by simpa using hall
      rw [List.mem_map] at hc
      obtain ⟨c0, hc0, rfl⟩ := hc
      simp [hz c0 hc0]
    · simp only [hall, if_false] at hr
      norm_num at hr

/-- C9, witness: a finished child and an unfinished one; only the unfinished
one is called and the Set reports `-1`. -/
theorem Set_call_spec_witness :
    ∃ kids ev r,
      Action.call 3 Action.Set set_data 1
          = some (Action.Set, { set_data with children := kids, remaining := r }, 1, ev)
      ∧ ev = [Event.op 2 1, Event.func 2 1] ∧ r = -1 := by
  have hret : ∀ c ∈ set_data.children, c.remaining ≠ 0 → (Op.call 2 c 1).isSome := by
    intro c hc _
    simp only [set_data, List.mem_cons, List.mem_singleton, List.not_mem_nil, or_false] at hc
    rcases hc with rfl | rfl <;> simp [Op.call, Action.call, Op.action]
  obtain ⟨kids, ev, r, h1, _, h3, _, _, h6, _⟩ := Set_call_spec 2 set_data 1 hret
  refine ⟨kids, ev, r, h1, ?_, ?_⟩
  · rw [h3]
    simp [set_data, Op.remaining, Op.call, Action.call, Op.action, Op.handle]
  · rcases (by assumption : r = 0 ∨ r = -1) with h | h
    · have := h6.mp h (Op.mk 2 1 1 (Action.OpFuncPtrWrap 2 consuming_leaf) [])
        (by simp [set_data])
      simp [Op.remaining] at this
    · exact h

/-- C10: a call of a time-stretch functor (static, stateful or dynamic) with
factor `f` and caller delta `d` is ONE call of the base functor with delta
`d * f`; the caller's delta afterwards is `d` for `disable`, `m / f` for
`consume` (`m` the delta the base functor left) and `0` for `consume_all`. -/
theorem Timestretch_call_spec (k : Timestretch) (F : Action) (Dtcp : DtConsumptionPolicy)
    (fuel : Nat) (data : OpData) (d : F64) (_hf : Dtcp = DtConsumptionPolicy.consume → k.factor ≠ 0) :
    Action.call (fuel + 1) (k.functor F Dtcp) data d =
      (Action.call fuel F data (d * k.factor)).map (fun r =>
        (k.after.functor r.1 Dtcp, r.2.1,
          (match Dtcp with
            | DtConsumptionPolicy.disable => d
            | DtConsumptionPolicy.consume => r.2.2.1 / k.factor
            | DtConsumptionPolicy.consume_all => 0),
          r.2.2.2)) := by
  cases k <;> simp only [Timestretch.functor, Timestretch.factor, Timestretch.after, Action.call] <;>
    cases h : Action.call fuel F data _ <;> cases Dtcp <;> simp [execDt]

/-- C10, witness: `StaticTimestretch` with factor 1/2 and policy `consume`
around a consuming leaf, caller delta 2: the leaf is called with 1 and the
caller's delta becomes 0. -/
theorem Timestretch_call_spec_witness :
    (Action.call 2
        (Action.StaticTimestretch (Action.OpFuncPtrWrap 7 consuming_leaf) 1 2
          DtConsumptionPolicy.consume) {} 2).map (fun r => (r.2.2.1, r.2.2.2))
      = some (0, [Event.func 7 (1 : F64)]) := by
  have h := Timestretch_call_spec (Timestretch.Static 1 2)
    (Action.OpFuncPtrWrap 7 consuming_leaf) DtConsumptionPolicy.consume 1 {} 2
    (by intro _; simp [Timestretch.factor, staticValue])
  simp only [Timestretch.functor] at h
  rw [h]
  simp [Action.call, Timestretch.factor, staticValue, consuming_leaf]

/-! ### The new-entry branch of `Opus::child` -/

/-- C1 (as the code behaves): on a fresh tree, `child(1, 2, 1)`, `child(1, 3, 2)`
and one tick: the Op of identifier 2 (identity 2) is visited BEFORE the Op of
identifier 3 (identity 3) although 3 was attached with the higher priority;
both priorities read back as 0 and the child list of 1 is empty. -/
theorem child_then_tick_visits_in_attach_order :
    ((Opus.child 5 (Opus.new default_op_generator) 1 2 1).bind fun r1 =>
      (Opus.child 5 r1.1 1 3 2).bind fun r2 =>
        (Opus.call 10 r2.1 1).map fun r3 => (r1.2, r2.2, r3.2.2))
      = some (2, 3, [Event.op 0 1, Event.op 1 1, Event.op 2 1, Event.op 3 1])
    ∧ ((Opus.child 5 (Opus.new default_op_generator) 1 2 1).bind fun r1 =>
      (Opus.child 5 r1.1 1 3 2).bind fun r2 =>
        (Opus.call 10 r2.1 1).map fun r3 =>
          (r3.1.priority 2, r3.1.priority 3, r3.1.iterate 1))
      = some (0, 0, []) := by
  decide

/-- C2 (as the code behaves): on a fresh tree, after `child(1, 2, 5)` the entry
of 2 exists and its Op (identity 2) is the new last child of the Op of 1, but
`parent(2)` is the root, `priority(2)` is 0 and 2 is not in the child list
of 1. -/
theorem child_new_entry_drops_parent_and_priority :
    ((Opus.child 5 (Opus.new default_op_generator) 1 2 5).map fun r =>
        (r.1.exists_id 2, r.1.parent 2, r.1.priority 2, r.1.iterate 1))
      = some (true, 0, 0, [])
    ∧ ((Opus.child 5 (Opus.new default_op_generator) 1 2 5).map fun r =>
        (r.2, r.1.meta_.find 1, (r.1.ops 1).map (fun c => c.children)))
      = some (2, some { op := some 1, children_dirty := true }, some [2]) := by
  decide

/-- C3 (as the code behaves): on a fresh tree, the first `child(1, 2, 1)`
returns the Op of identity 2 and logs nothing; the same call again logs two
consistency errors, generates a second Op (identity 3) and returns it, and
changes the entry of 2 (parent 0 to 1, priority 0 to 1) and the child list
of 1. -/
theorem child_twice_differs_from_once :
    ((Opus.child 5 (Opus.new default_op_generator) 1 2 1).map fun r =>
        (r.2, r.1.log, r.1.meta_.find 2))
      = some (2, [], some { op := some 2 })
    ∧ ((Opus.child 5 (Opus.new default_op_generator) 1 2 1).bind fun r1 =>
        (Opus.child 5 r1.1 1 2 1).map fun r => (r.2, r.1.log))
      = some (3,
          [LogEntry.id_not_found_in_old_parent 2 0 1, LogEntry.op_not_found_in_old_parent 2 0 1])
    ∧ ((Opus.child 5 (Opus.new default_op_generator) 1 2 1).bind fun r1 =>
        (Opus.child 5 r1.1 1 2 1).map fun r =>
          (r.1.meta_.find 2, r1.1.iterate 1, r.1.iterate 1))
      = some (some { parent := 1, op := some 3, priority := 1 }, [], [2])
    ∧ ((Opus.child 5 (Opus.new default_op_generator) 1 2 1).bind fun r1 =>
        (Opus.child 5 r1.1 1 2 1).map fun r =>
          ((r1.1.ops 1).map (fun c => c.children), (r.1.ops 1).map (fun c => c.children)))
      = some (some [2], some [2, 3]) := by
  decide

/-- C5 (as the code behaves): on a fresh tree, after `child(1, 2, 0)` the Op of
2 is alive; `parent(2, 3)` then looks for it under the root, logs that it is
missing and drops the handle: the Op bound to 2 is dead afterwards and the Op
of 3 has no children. -/
theorem set_parent_after_child_kills_op :
    ((Opus.child 5 (Opus.new default_op_generator) 1 2 0).map fun r1 =>
        ((r1.1.meta_.find 2).bind (fun e => r1.1.get e.op)))
      = some (some 2)
    ∧ ((Opus.child 5 (Opus.new default_op_generator) 1 2 0).bind fun r1 =>
        (Opus.set_parent 5 r1.1 2 3).map fun r =>
          ((r.1.meta_.find 2).bind (fun e => r.1.get e.op), r.1.parent 2, r.1.log))
      = some (none, 3,
          [LogEntry.id_not_found_in_old_parent 2 0 3, LogEntry.op_not_found_in_old_parent 2 0 3])
    ∧ ((Opus.child 5 (Opus.new default_op_generator) 1 2 0).bind fun r1 =>
        (Opus.set_parent 5 r1.1 2 3).map fun r =>
            ((r.1.meta_.find 3).bind (fun e => e.op)).bind
              (fun h => (r.1.ops h).map (fun c => c.children)))
      = some (some []) := by
  decide

/-! ### The metadata map -/

namespace opus_map

theorem find_set (m : opus_map) (k : Id) (v : op_meta) (k' : Id) :
    find (set m k v) k' = if k' = k then some v else find m k' := by
  induction m with
  | nil =>
    by_cases h : k' = k
    · simp [set, find, h]
    · simp [set, find, h, Ne.symm h]
  | cons p rest ih =>
    obtain ⟨a, w⟩ := p
    by_cases ha : a = k
    · by_cases h : k' = k
      · simp [set, find, ha, h]
      · simp [set, find, ha, h, Ne.symm h]
    · by_cases h : k' = k
      · subst h
        simp [set, find, ha, ih]
      · simp only [set, ha, if_false, find, ih, h]

theorem find_emplace (m : opus_map) (k : Id) (v : op_meta) (k' : Id) :
    find (emplace m k v) k' =
      match find m k' with
      | some w => some w
      | none => if k' = k then some v else none := by
  unfold emplace
  cases hk : find m k with
  | some w =>
    by_cases h : k' = k
    · subst h; simp [hk]
    · cases hk' : find m k' <;> simp [h]
  | none =>
    simp only [find_set]
    by_cases h : k' = k
    · subst h; simp [hk]
    · cases hk' : find m k' <;> simp [h]

theorem find_erase (m : opus_map) (k k' : Id) :
    find (erase m k) k' = if k' = k then none else find m k' := by
  induction m with
  | nil => simp [erase, find]
  | cons p rest ih =>
    obtain ⟨a, w⟩ := p
    unfold erase at ih ⊢
    simp only [ne_eq, decide_not] at ih ⊢
    by_cases ha : a = k
    · by_cases h : k' = k
      · subst h; simpa [List.filter, ha] using ih
      · simp [List.filter, ha, ih, h, find, Ne.symm h]
    · by_cases h : k' = k
      · subst h; simp [List.filter, ha, ih, find]
      · simp [List.filter, ha, ih, h, find]

end opus_map

namespace Opus

theorem find_modify (s : Opus) (id : Id) (f : op_meta → op_meta) (k : Id) :
    (s.modify id f).meta_.find k = if k = id then (s.meta_.find id).map f else s.meta_.find k := by
  unfold modify
  cases h : s.meta_.find id with
  | none =>
    by_cases hk : k = id
    · subst hk; simp [h]
    · simp [hk]
  | some m =>
    simp [opus_map.find_set]

theorem find_get_or_create_ (s : Opus) (id k : Id) :
    (s.get_or_create_ id).meta_.find k =
      match s.meta_.find k with
      | some w => some w
      | none => if s.meta_.find id = none ∧ (k = id ∨ k = 0) then some {} else none := by
  unfold get_or_create_
  cases h : s.meta_.find id with
  | some m => cases hk : s.meta_.find k <;> simp [hk]
  | none =>
    simp only [opus_map.find_emplace]
    cases hk : s.meta_.find k with
    | some w => simp
    | none =>
      by_cases h1 : k = id
      · simp [h1]
      · by_cases h2 : k = 0
        · subst h2
          have h3 : ¬ (0 = id) := fun e => h1 e
          simp [h3]
        · simp [h1, h2]

end Opus

namespace Opus

theorem parent_eq (s : Opus) (k : Id) :
    s.parent k = ((s.meta_.find k).map (fun m => m.parent)).getD 0 := by
  unfold parent; cases s.meta_.find k <;> rfl

theorem priority_eq (s : Opus) (k : Id) :
    s.priority k = ((s.meta_.find k).map (fun m => m.priority)).getD 0 := by
  unfold priority; cases s.meta_.find k <;> rfl

theorem iterate_eq (s : Opus) (k : Id) :
    s.iterate k = ((s.meta_.find k).map (fun m => m.children)).getD [] := by
  unfold iterate; cases s.meta_.find k <;> rfl

@[simp] theorem modify_ops (s : Opus) (id : Id) (f : op_meta → op_meta) :
    (s.modify id f).ops = s.ops := by
  unfold modify; split <;> rfl

@[simp] theorem modify_dirty_ (s : Opus) (id : Id) (f : op_meta → op_meta) :
    (s.modify id f).dirty_ = s.dirty_ := by
  unfold modify; split <;> rfl

@[simp] theorem modify_fresh (s : Opus) (id : Id) (f : op_meta → op_meta) :
    (s.modify id f).fresh = s.fresh := by
  unfold modify; split <;> rfl

@[simp] theorem modify_root_ (s : Opus) (id : Id) (f : op_meta → op_meta) :
    (s.modify id f).root_ = s.root_ := by
  unfold modify; split <;> rfl

@[simp] theorem modify_log (s : Opus) (id : Id) (f : op_meta → op_meta) :
    (s.modify id f).log = s.log := by
  unfold modify; split <;> rfl

@[simp] theorem get_modify (s : Opus) (id : Id) (f : op_meta → op_meta) (h : Option Nat) :
    (s.modify id f).get h = s.get h := by
  unfold get; simp

@[simp] theorem error_meta_ (s : Opus) (e : LogEntry) : (s.error e).meta_ = s.meta_ := rfl

@[simp] theorem error_ops (s : Opus) (e : LogEntry) : (s.error e).ops = s.ops := rfl

@[simp] theorem error_dirty_ (s : Opus) (e : LogEntry) : (s.error e).dirty_ = s.dirty_ := rfl

@[simp] theorem get_error (s : Opus) (e : LogEntry) (h : Option Nat) :
    (s.error e).get h = s.get h := rfl

@[simp] theorem push_back_meta_ (s : Opus) (h x : Nat) : (s.push_back h x).meta_ = s.meta_ := rfl

@[simp] theorem push_back_dirty_ (s : Opus) (h x : Nat) : (s.push_back h x).dirty_ = s.dirty_ := rfl

@[simp] theorem push_new_meta_ (s : Opus) (h : Nat) (id : Id) :
    (s.push_new h id).meta_ = s.meta_ := rfl

@[simp] theorem push_new_dirty_ (s : Opus) (h : Nat) (id : Id) :
    (s.push_new h id).dirty_ = s.dirty_ := rfl

@[simp] theorem push_new_fresh (s : Opus) (h : Nat) (id : Id) :
    (s.push_new h id).fresh = s.fresh + 1 := rfl

@[simp] theorem erase_slot_meta_ (s : Opus) (h x : Nat) : (s.erase_slot h x).meta_ = s.meta_ := rfl

@[simp] theorem erase_slot_dirty_ (s : Opus) (h x : Nat) :
    (s.erase_slot h x).dirty_ = s.dirty_ := rfl

theorem get_eq_some {s : Opus} {h : Option Nat} {x : Nat} (hx : s.get h = some x) :
    h = some x ∧ (s.ops x).isSome = true := by
  unfold get at hx
  cases h with
  | none => simp at hx
  | some y =>
    by_cases hy : (s.ops y).isSome = true
    · simp [hy] at hx; subst hx; exact ⟨rfl, hy⟩
    · simp [hy] at hx

theorem get_congr_ops {s t : Opus} (h : t.ops = s.ops) (o : Option Nat) : t.get o = s.get o := by
  unfold get; rw [h]

theorem push_new_ops_fresh (s : Opus) (h : Nat) (id : Id) :
    ((s.push_new h id).ops s.fresh).isSome = true := by
  simp only [push_new, push_back]
  by_cases hh : s.fresh = h <;> simp [hh]

theorem push_new_ops_mono (s : Opus) (h : Nat) (id : Id) (x : Nat)
    (hx : (s.ops x).isSome = true) : ((s.push_new h id).ops x).isSome = true := by
  simp only [push_new, push_back]
  by_cases h1 : x = h
  · subst h1
    by_cases h2 : x = s.fresh <;> simp [h2, hx]
  · by_cases h2 : x = s.fresh
    · subst h2
      simp [h1]
    · simp [h1, h2, hx]

end Opus

namespace MetaExt

theorem ext_of_find_eq {s s1 : Opus} (h : ∀ k, s1.meta_.find k = s.meta_.find k) : MetaExt s s1 := by
  intro k
  rw [h k]
  cases s.meta_.find k with
  | none => intro w' hw; simp at hw
  | some w => exact ⟨w, rfl, rfl, rfl, rfl⟩

theorem ext_refl (s : Opus) : MetaExt s s := ext_of_find_eq (fun _ => rfl)

theorem ext_of_meta_eq {s s1 : Opus} (h : s1.meta_ = s.meta_) : MetaExt s s1 :=
  ext_of_find_eq (fun k => by rw [h])

theorem ext_trans {s s1 s2 : Opus} (h1 : MetaExt s s1) (h2 : MetaExt s1 s2) : MetaExt s s2 := by
  intro k
  have a := h1 k
  have b := h2 k
  cases hk : s.meta_.find k with
  | some w =>
    rw [hk] at a
    obtain ⟨w1, hw1, p1, c1, q1⟩ := a
    rw [hw1] at b
    obtain ⟨w2, hw2, p2, c2, q2⟩ := b
    exact ⟨w2, hw2, p2.trans p1, c2.trans c1, q2.trans q1⟩
  | none =>
    rw [hk] at a
    intro w2 hw2
    cases hk1 : s1.meta_.find k with
    | some w1 =>
      rw [hk1] at b
      obtain ⟨w2', hw2', p2, c2, q2⟩ := b
      rw [hw2] at hw2'
      cases hw2'
      obtain ⟨p1, c1, q1⟩ := a w1 hk1
      exact ⟨p2.trans p1, c2.trans c1, q2.trans q1⟩
    | none =>
      rw [hk1] at b
      exact b w2 hw2

theorem ext_parent_eq {s s1 : Opus} (h : MetaExt s s1) (k : Id) : s1.parent k = s.parent k := by
  have a := h k
  rw [Opus.parent_eq, Opus.parent_eq]
  cases hk : s.meta_.find k with
  | some w =>
    rw [hk] at a
    obtain ⟨w1, hw1, p1, _, _⟩ := a
    simp [hw1, p1]
  | none =>
    rw [hk] at a
    cases hk1 : s1.meta_.find k with
    | none => rfl
    | some w1 => simp [(a w1 hk1).1]

theorem ext_iterate_eq {s s1 : Opus} (h : MetaExt s s1) (k : Id) : s1.iterate k = s.iterate k := by
  have a := h k
  rw [Opus.iterate_eq, Opus.iterate_eq]
  cases hk : s.meta_.find k with
  | some w =>
    rw [hk] at a
    obtain ⟨w1, hw1, _, c1, _⟩ := a
    simp [hw1, c1]
  | none =>
    rw [hk] at a
    cases hk1 : s1.meta_.find k with
    | none => rfl
    | some w1 => simp [(a w1 hk1).2.1]

theorem ext_priority_eq {s s1 : Opus} (h : MetaExt s s1) (k : Id) :
    s1.priority k = s.priority k := by
  have a := h k
  rw [Opus.priority_eq, Opus.priority_eq]
  cases hk : s.meta_.find k with
  | some w =>
    rw [hk] at a
    obtain ⟨w1, hw1, _, _, q1⟩ := a
    simp [hw1, q1]
  | none =>
    rw [hk] at a
    cases hk1 : s1.meta_.find k with
    | none => rfl
    | some w1 => simp [(a w1 hk1).2.2]

theorem ext_find_some {s s1 : Opus} (h : MetaExt s s1) {k : Id} {w : op_meta}
    (hk : s.meta_.find k = some w) :
    ∃ w', s1.meta_.find k = some w' ∧ w'.parent = w.parent ∧ w'.children = w.children ∧
      w'.priority = w.priority := by
  have a := h k
  rw [hk] at a
  exact a

theorem ext_get_or_create_ (s : Opus) (id : Id) : MetaExt s (s.get_or_create_ id) := by
  intro k
  rw [Opus.find_get_or_create_]
  cases hk : s.meta_.find k with
  | some w => exact ⟨w, rfl, rfl, rfl, rfl⟩
  | none =>
    intro w' hw'
    by_cases hc : s.meta_.find id = none ∧ (k = id ∨ k = 0)
    · simp [hc] at hw'
      subst hw'
      exact ⟨rfl, rfl, rfl⟩
    · simp [hc] at hw'

theorem ext_modify (s : Opus) (id : Id) (f : op_meta → op_meta)
    (hf : ∀ m, (f m).parent = m.parent ∧ (f m).children = m.children ∧
      (f m).priority = m.priority) : MetaExt s (s.modify id f) := by
  intro k
  rw [Opus.find_modify]
  by_cases hk : k = id
  · subst hk
    cases hk' : s.meta_.find k with
    | some w => exact ⟨f w, by simp, (hf w).1, (hf w).2.1, (hf w).2.2⟩
    | none => intro w' hw'; simp at hw'
  · cases hk' : s.meta_.find k with
    | some w => exact ⟨w, by simp [hk, hk'], rfl, rfl, rfl⟩
    | none => intro w' hw'; simp [hk, hk'] at hw'

end MetaExt

namespace Opus

/-- What a returning `get_or_create_with_op_(id)` guarantees: the entries are
extended, no Op dies, and the entry of `id` holds a live handle. -/
theorem get_or_create_with_op_spec :
    ∀ (fuel : Nat) (s : Opus) (id : Id) (s1 : Opus),
      get_or_create_with_op_ fuel s id = some s1 →
        MetaExt s s1 ∧ (∃ m h, s1.meta_.find id = some m ∧ s1.get m.op = some h) ∧
          (∀ x, (s.ops x).isSome = true → (s1.ops x).isSome = true) := by
  intro fuel
  induction fuel with
  | zero => intro s id s1 h; simp [get_or_create_with_op_] at h
  | succ n ih =>
    intro s id s1 h
    unfold get_or_create_with_op_ at h
    cases hm : s.meta_.find id with
    | some m =>
      simp only [hm] at h
      cases hg : s.get m.op with
      | some x =>
        simp only [hg, Option.some.injEq] at h
        subst h
        exact ⟨MetaExt.ext_refl s, ⟨m, x, hm, hg⟩, fun _ hx => hx⟩
      | none =>
        simp only [hg] at h
        cases hr : get_or_create_with_op_ n s m.parent with
        | none => simp [hr] at h
        | some sA =>
          obtain ⟨hext, ⟨p, ph, hp, hph⟩, hmono⟩ := ih s m.parent sA hr
          simp only [hr, hp, hph, Option.some.injEq] at h
          subst h
          obtain ⟨w', hw', _, _, _⟩ := hext.ext_find_some hm
          refine ⟨?_, ?_, ?_⟩
          · refine hext.ext_trans ?_
            refine MetaExt.ext_trans (@MetaExt.ext_of_meta_eq sA (sA.push_new ph id) rfl) ?_
            refine MetaExt.ext_trans
              (MetaExt.ext_modify _ id (fun e => { e with op := some sA.fresh }) (fun _ => ⟨rfl, rfl, rfl⟩)) ?_
            refine MetaExt.ext_trans
              (MetaExt.ext_modify _ m.parent (fun e => { e with children_dirty := true })
                (fun _ => ⟨rfl, rfl, rfl⟩)) ?_
            exact MetaExt.ext_of_meta_eq rfl
          · have hfresh : ((sA.push_new ph id).ops sA.fresh).isSome = true :=
              push_new_ops_fresh sA ph id
            by_cases hpar : id = m.parent
            · refine ⟨{ ({ w' with op := some sA.fresh } : op_meta) with children_dirty := true },
                sA.fresh, ?_, ?_⟩
              · simp [find_modify, hw', ← hpar]
              · simp [get, hfresh]
            · refine ⟨{ w' with op := some sA.fresh }, sA.fresh, ?_, ?_⟩
              · simp [find_modify, hw', hpar]
              · simp [get, hfresh]
          · intro x hx
            simpa using push_new_ops_mono sA ph id x (hmono x hx)
    | none =>
      simp only [hm] at h
      cases hroot : s.ops s.root_ with
      | none => simp [hroot] at h
      | some c =>
        simp only [hroot, Option.some.injEq] at h
        subst h
        refine ⟨?_, ?_, ?_⟩
        · intro k
          simp only [push_new_meta_, opus_map.find_emplace]
          cases hk : s.meta_.find k with
          | some w => exact ⟨w, rfl, rfl, rfl, rfl⟩
          | none =>
            intro w' hw'
            by_cases h1 : k = id
            · simp [h1] at hw'
              subst hw'
              exact ⟨rfl, rfl, rfl⟩
            · by_cases h2 : k = 0
              · subst h2
                have h3 : ¬ (0 = id) := h1
                simp [h3] at hw'
                subst hw'
                exact ⟨rfl, rfl, rfl⟩
              · simp [h1, h2] at hw'
        · refine ⟨{ op := some s.fresh }, s.fresh, ?_, ?_⟩
          · simp [opus_map.find_emplace, hm]
          · have := push_new_ops_fresh s s.root_ id
            simp [get, this]
        · intro x hx
          exact push_new_ops_mono s s.root_ id x hx

end Opus

namespace Opus

theorem move_slot_meta_ {s s5 : Opus} {oh h ph : Nat} (hs5 : move_slot_ s oh h ph = some s5) :
    s5.meta_ = s.meta_ ∧ s5.dirty_ = s.dirty_ := by
  unfold move_slot_ at hs5
  split at hs5
  · split at hs5
    · simp at hs5
    · split at hs5
      · simp only [Option.some.injEq] at hs5
        subst hs5
        exact ⟨rfl, rfl⟩
      · simp at hs5
  · split at hs5
    · simp at hs5
    · simp only [Option.some.injEq] at hs5
      subst hs5
      exact ⟨rfl, rfl⟩

/-- The block `move_op_` keeps `dirty_` and every entry, up to the handle of
the child's entry. -/
theorem move_op_spec (s s5 : Opus) (id old np : Id)
    (hs5 : move_op_ s id old np = some s5) :
    s5.dirty_ = s.dirty_ ∧
      (∀ k, k ≠ id → s5.meta_.find k = s.meta_.find k) ∧
      (s5.meta_.find id = s.meta_.find id ∨
        s5.meta_.find id = (s.meta_.find id).map (fun e => { e with op := none })) := by
  unfold move_op_ at hs5
  cases h1 : (s.meta_.find old).bind (fun e => s.get e.op) with
  | none =>
    simp only [h1, Option.some.injEq] at hs5
    subst hs5
    exact ⟨rfl, fun _ _ => rfl, Or.inl rfl⟩
  | some oh =>
    simp only [h1] at hs5
    cases h2 : (s.meta_.find id).bind (fun e => s.get e.op) with
    | none =>
      simp only [h2, Option.some.injEq] at hs5
      subst hs5
      exact ⟨rfl, fun _ _ => rfl, Or.inl rfl⟩
    | some h =>
      simp only [h2] at hs5
      cases hoc : s.ops oh with
      | none => simp [hoc] at hs5
      | some oc =>
        simp only [hoc] at hs5
        by_cases hin : h ∈ oc.children
        · simp only [hin, if_true] at hs5
          cases h3 : (s.meta_.find np).bind (fun e => s.get e.op) with
          | none => simp [h3] at hs5
          | some ph =>
            simp only [h3] at hs5
            obtain ⟨e1, e2⟩ := move_slot_meta_ hs5
            exact ⟨e2, fun k _ => by rw [e1], Or.inl (by rw [e1])⟩
        · simp only [hin, if_false, Option.some.injEq] at hs5
          subst hs5
          refine ⟨by simp, ?_, ?_⟩
          · intro k hk
            simp [find_modify, hk]
          · right
            simp [find_modify]

/-- The reparenting block, entered with an entry for `id` whose parent is not
`np`, returns whenever its call of `get_or_create_with_op_(np)` does, and then:
`id` has parent `np`, no other parent and no priority changes, `id` is erased
from the old parent's child list and appended to that of `np`, the other child
lists are the same, and `np` and the tree are dirty. -/
theorem reparent_spec (fuel : Nat) (s : Opus) (id np : Id) (m : op_meta)
    (hm : s.meta_.find id = some m) (hne : m.parent ≠ np)
    (hret : (reparent_ fuel s id np).isSome = true) :
    ∃ s', reparent_ fuel s id np = some s' ∧
      s'.parent id = np ∧ (∀ k, k ≠ id → s'.parent k = s.parent k) ∧
      (∀ k, s'.priority k = s.priority k) ∧
      s'.iterate m.parent = (s.iterate m.parent).erase id ∧
      s'.iterate np = s.iterate np ++ [id] ∧
      (∀ e, e ≠ m.parent → e ≠ np → s'.iterate e = s.iterate e) ∧
      (∃ m', s'.meta_.find np = some m' ∧ m'.children_dirty = true) ∧
      s'.dirty_ = true ∧
      (∀ k, (s.meta_.find k).isSome = true → (s'.meta_.find k).isSome = true) := by
  obtain ⟨s1, hs1⟩ : ∃ s1, get_or_create_with_op_ fuel s np = some s1 := by
    obtain ⟨s', hs'⟩ := Option.isSome_iff_exists.mp hret
    unfold reparent_ at hs'
    cases hg : get_or_create_with_op_ fuel s np with
    | none => simp [hm, hg] at hs'
    | some s1 => exact ⟨s1, rfl⟩
  obtain ⟨hext1, ⟨mp1, hp1, hmp1, hhp1⟩, _⟩ := get_or_create_with_op_spec fuel s np s1 hs1
  have hext2 : MetaExt s (s1.get_or_create_ m.parent) :=
    hext1.ext_trans (MetaExt.ext_get_or_create_ s1 m.parent)
  -- the old parent's entry
  have hold : ∃ op_, (s1.get_or_create_ m.parent).meta_.find m.parent = some op_ := by
    rw [find_get_or_create_]
    cases h : s1.meta_.find m.parent with
    | some w => exact ⟨w, rfl⟩
    | none => exact ⟨{}, by simp⟩
  obtain ⟨op_, hop_⟩ := hold
  have hopc : op_.children = s.iterate m.parent := by
    have := hext2.ext_iterate_eq m.parent
    rw [iterate_eq, hop_] at this
    simpa using this
  -- the entries of `id` and `np` in `s2`
  obtain ⟨m2, hm2, hm2p, hm2c, hm2q⟩ := hext2.ext_find_some hm
  obtain ⟨mp2, hmp2, hmp2p, hmp2c, hmp2q⟩ :=
    (MetaExt.ext_get_or_create_ s1 m.parent).ext_find_some hmp1
  have hmp2op : mp2.op = mp1.op := by
    have := find_get_or_create_ s1 m.parent np
    rw [hmp1] at this
    simp only at this
    rw [hmp2] at this
    cases this
    rfl
  have hnpc : mp2.children = s.iterate np := by
    have := hext2.ext_iterate_eq np
    rw [iterate_eq, hmp2] at this
    simpa using this
  -- the state `s3`
  obtain ⟨s3, hs3def⟩ : ∃ s3, s3 =
      (if id ∈ op_.children then
        (s1.get_or_create_ m.parent).modify m.parent
          (fun e => { e with children := e.children.erase id })
      else
        (s1.get_or_create_ m.parent).error (.id_not_found_in_old_parent id m.parent np)) :=
    ⟨_, rfl⟩
  have hs3ops : s3.ops = s1.ops := by
    rw [hs3def]; split <;> simp [get_or_create_] <;> split <;> rfl
  have hs3find : ∀ k, s3.meta_.find k =
      if k = m.parent then some { op_ with children := op_.children.erase id }
      else (s1.get_or_create_ m.parent).meta_.find k := by
    intro k
    rw [hs3def]
    by_cases hin : id ∈ op_.children
    · simp only [hin, if_true, find_modify, hop_, Option.map_some']
    · simp only [hin, if_false, error_meta_]
      by_cases hk : k = m.parent
      · subst hk
        simp only [if_true, hop_]
        rw [List.erase_of_not_mem hin]
      · simp [hk]
  -- the state `s4`
  obtain ⟨s4, hs4def⟩ : ∃ s4 : Opus, s4 =
      { s3.modify np (fun e => { e with children := e.children ++ [id], children_dirty := true })
        with dirty_ := true } := ⟨_, rfl⟩
  have hs4ops : s4.ops = s1.ops := by rw [hs4def]; simp [hs3ops]
  have hs4np : s4.meta_.find np =
      some { mp2 with children := mp2.children ++ [id], children_dirty := true } := by
    rw [hs4def]
    simp only [find_modify, if_true, hs3find, Ne.symm hne, if_false, hmp2, Option.map_some']
  have hs4find : ∀ k, k ≠ np → s4.meta_.find k = s3.meta_.find k := by
    intro k hk
    rw [hs4def]
    simp [find_modify, hk]
  have hs4alive : ∃ m' h, s4.meta_.find np = some m' ∧ s4.get m'.op = some h := by
    refine ⟨_, hp1, hs4np, ?_⟩
    rw [get_congr_ops hs4ops]
    simpa [hmp2op] using hhp1
  obtain ⟨s5, hs5⟩ : ∃ s5, move_op_ s4 id m.parent np = some s5 := by
    obtain ⟨s', hs'⟩ := Option.isSome_iff_exists.mp hret
    unfold reparent_ at hs'
    simp only [hm, hs1, hop_] at hs'
    rw [← hs3def, ← hs4def] at hs'
    cases hmv : move_op_ s4 id m.parent np with
    | none => simp [hmv] at hs'
    | some s5 => exact ⟨s5, rfl⟩
  obtain ⟨hs5d, hs5find, hs5id⟩ := move_op_spec s4 s5 id m.parent np hs5
  have hs5up : ∀ k, (s5.meta_.find k).map (fun e => ({ e with op := none } : op_meta)) =
      (s4.meta_.find k).map (fun e => { e with op := none }) := by
    intro k
    by_cases hk : k = id
    · subst hk
      rcases hs5id with h | h
      · rw [h]
      · rw [h]; cases s4.meta_.find k <;> simp
    · rw [hs5find k hk]
  have hs4all : ∀ k, s4.meta_.find k =
      if k = np then some { mp2 with children := mp2.children ++ [id], children_dirty := true }
      else if k = m.parent then some { op_ with children := op_.children.erase id }
      else (s1.get_or_create_ m.parent).meta_.find k := by
    intro k
    by_cases hk : k = np
    · subst hk; simp [hs4np]
    · rw [hs4find k hk, hs3find]; simp [hk]
  have hg : ∀ {α : Type} (g : op_meta → α), (∀ e : op_meta, g { e with op := none } = g e) →
      ∀ k, (s5.meta_.find k).map g = (s4.meta_.find k).map g := by
    intro α g hg k
    have := hs5up k
    cases h5 : s5.meta_.find k with
    | none =>
      cases h4 : s4.meta_.find k with
      | none => rfl
      | some w4 => simp [h5, h4] at this
    | some w5 =>
      cases h4 : s4.meta_.find k with
      | none => simp [h5, h4] at this
      | some w4 =>
        simp only [h5, h4, Option.map_some', Option.some.injEq] at this ⊢
        rw [← hg w5, ← hg w4, this]
  have hop_par : op_.parent = s.parent m.parent := by
    have := hext2.ext_parent_eq m.parent
    rw [parent_eq, hop_] at this
    simpa using this
  have hop_pri : op_.priority = s.priority m.parent := by
    have := hext2.ext_priority_eq m.parent
    rw [priority_eq, hop_] at this
    simpa using this
  have hmp2_par : mp2.parent = s.parent np := by
    have := hext2.ext_parent_eq np
    rw [parent_eq, hmp2] at this
    simpa using this
  have hmp2_pri : mp2.priority = s.priority np := by
    have := hext2.ext_priority_eq np
    rw [priority_eq, hmp2] at this
    simpa using this
  have hs5some : ∀ k, (s.meta_.find k).isSome = true → (s5.meta_.find k).isSome = true := by
    intro k hk
    have h5 := hg (fun _ => ()) (fun _ => rfl) k
    have h4 : (s4.meta_.find k).isSome = true := by
      rw [hs4all]
      by_cases h1 : k = np
      · subst h1; simp
      · by_cases h2 : k = m.parent
        · subst h2; simp [h1]
        · simp only [h1, h2, if_false]
          obtain ⟨w, hw⟩ := Option.isSome_iff_exists.mp hk
          obtain ⟨w', hw', _⟩ := hext2.ext_find_some hw
          simp [hw']
    cases h5' : s5.meta_.find k with
    | some _ => rfl
    | none =>
      rw [h5'] at h5
      obtain ⟨w, hw⟩ := Option.isSome_iff_exists.mp h4
      rw [hw] at h5
      simp at h5
  have hpar4 : ∀ k, ((s4.meta_.find k).map (fun e => e.parent)).getD 0 = s.parent k := by
    intro k
    rw [hs4all]
    by_cases h1 : k = np
    · subst h1; simp [hmp2_par]
    · by_cases h2 : k = m.parent
      · subst h2; simp [h1, hop_par]
      · simp only [h1, h2, if_false]
        rw [← parent_eq]; exact hext2.ext_parent_eq k
  have hpri4 : ∀ k, ((s4.meta_.find k).map (fun e => e.priority)).getD 0 = s.priority k := by
    intro k
    rw [hs4all]
    by_cases h1 : k = np
    · subst h1; simp [hmp2_pri]
    · by_cases h2 : k = m.parent
      · subst h2; simp [h1, hop_pri]
      · simp only [h1, h2, if_false]
        rw [← priority_eq]; exact hext2.ext_priority_eq k
  have hit6 : ∀ k, (s5.modify id (fun e => { e with parent := np })).iterate k =
      ((s4.meta_.find k).map (fun e => e.children)).getD [] := by
    intro k
    rw [iterate_eq, find_modify, ← hg (fun e => e.children) (fun _ => rfl) k]
    by_cases hk : k = id
    · subst hk; cases s5.meta_.find k <;> simp
    · simp [hk]
  refine ⟨s5.modify id (fun e => { e with parent := np }), ?_, ?_, ?_, ?_, ?_, ?_, ?_, ?_, ?_, ?_⟩
  · unfold reparent_
    simp only [hm, hs1, hop_]
    rw [← hs3def, ← hs4def, hs5]
  · rw [parent_eq, find_modify]
    obtain ⟨w, hw⟩ := Option.isSome_iff_exists.mp (hs5some id (by simp [hm]))
    simp [hw]
  · intro k hk
    rw [parent_eq, find_modify]
    simp only [hk, if_false]
    rw [hg (fun e => e.parent) (fun _ => rfl) k]
    exact hpar4 k
  · intro k
    rw [priority_eq, find_modify, ← hpri4 k, ← hg (fun e => e.priority) (fun _ => rfl) k]
    by_cases hk : k = id
    · subst hk; cases s5.meta_.find k <;> simp
    · simp [hk]
  · rw [hit6, hs4all]
    simp [hne, hopc]
  · rw [hit6, hs4all]
    simp [hnpc]
  · intro e he1 he2
    rw [hit6, hs4all]
    simp only [he1, he2, if_false]
    rw [← iterate_eq]
    exact hext2.ext_iterate_eq e
  · have h5 := hg (fun e => e.children_dirty) (fun _ => rfl) np
    rw [hs4np] at h5
    cases hw : s5.meta_.find np with
    | none => simp [hw] at h5
    | some w =>
      simp only [hw, Option.map_some', Option.some.injEq] at h5
      rw [find_modify]
      by_cases hk : np = id
      · subst hk
        exact ⟨{ w with parent := np }, by simp [hw], h5⟩
      · exact ⟨w, by simp [hk, hw], h5⟩
  · simp [hs5d, hs4def]
  · intro k hk
    rw [find_modify]
    have := hs5some k hk
    by_cases hk' : k = id
    · subst hk'
      obtain ⟨w, hw⟩ := Option.isSome_iff_exists.mp this
      simp [hw]
    · simp [hk', this]

end Opus

namespace SameTree

theorem same_refl (s : Opus) : SameTree s s := ⟨fun _ => rfl, fun _ => rfl, fun _ h => h⟩

theorem same_trans {s s1 s2 : Opus} (h1 : SameTree s s1) (h2 : SameTree s1 s2) : SameTree s s2 :=
  ⟨fun k => (h2.1 k).trans (h1.1 k), fun k => (h2.2.1 k).trans (h1.2.1 k),
    fun k hk => h2.2.2 k (h1.2.2 k hk)⟩

theorem same_of_meta_eq {s s1 : Opus} (h : s1.meta_ = s.meta_) : SameTree s s1 := by
  refine ⟨fun k => ?_, fun k => ?_, fun k hk => ?_⟩
  · simp [Opus.parent, h]
  · simp [Opus.iterate, h]
  · simpa [Opus.exists_id, h] using hk

theorem same_of_metaExt {s s1 : Opus} (h : MetaExt s s1) : SameTree s s1 := by
  refine ⟨h.ext_parent_eq, h.ext_iterate_eq, fun k hk => ?_⟩
  unfold Opus.exists_id at hk ⊢
  obtain ⟨w, hw⟩ := Option.isSome_iff_exists.mp hk
  obtain ⟨w', hw', _⟩ := h.ext_find_some hw
  simp [hw']

theorem same_modify (s : Opus) (id : Id) (f : op_meta → op_meta)
    (hf : ∀ m, (f m).parent = m.parent ∧ (f m).children = m.children) :
    SameTree s (s.modify id f) := by
  refine ⟨fun k => ?_, fun k => ?_, fun k hk => ?_⟩
  · rw [Opus.parent_eq, Opus.parent_eq, Opus.find_modify]
    by_cases h : k = id
    · subst h; cases s.meta_.find k <;> simp [(hf _).1]
    · simp [h]
  · rw [Opus.iterate_eq, Opus.iterate_eq, Opus.find_modify]
    by_cases h : k = id
    · subst h; cases s.meta_.find k <;> simp [(hf _).2]
    · simp [h]
  · unfold Opus.exists_id at hk ⊢
    rw [Opus.find_modify]
    by_cases h : k = id
    · subst h; simpa using hk
    · simpa [h] using hk

theorem same_listsOK {s s1 : Opus} (h : SameTree s s1) (hs : ListsOK s) : ListsOK s1 := by
  intro e
  rw [h.2.1 e]
  refine ⟨(hs e).1, fun c hc => ?_⟩
  rw [h.1 c]
  exact ⟨((hs e).2 c hc).1, h.2.2 c ((hs e).2 c hc).2⟩

end SameTree

namespace Opus

theorem reparent_ret {fuel : Nat} {s s' : Opus} {id np : Id}
    (h : reparent_ fuel s id np = some s') :
    (∃ m, s.meta_.find id = some m) ∧ (get_or_create_with_op_ fuel s np).isSome = true := by
  unfold reparent_ at h
  cases hm : s.meta_.find id with
  | none => simp [hm] at h
  | some m =>
    cases hg : get_or_create_with_op_ fuel s np with
    | none => simp [hm, hg] at h
    | some s1 => exact ⟨⟨m, rfl⟩, rfl⟩

theorem reparent_listsOK {fuel : Nat} {s s' : Opus} {id np : Id} {m : op_meta}
    (hm : s.meta_.find id = some m) (hne : m.parent ≠ np)
    (h : reparent_ fuel s id np = some s') (hs : ListsOK s) : ListsOK s' := by
  obtain ⟨s'', hs'', hpid, hpar, _, hold, hnew, hother, _, _, hex⟩ :=
    reparent_spec fuel s id np m hm hne (by rw [h]; rfl)
  rw [h] at hs''
  cases hs''
  have hparent : s.parent id = m.parent := by simp [parent_eq, hm]
  have hidnp : id ∉ s.iterate np := fun hc => hne (hparent ▸ ((hs np).2 id hc).1)
  have hexid : ∀ k, s.exists_id k = true → s'.exists_id k = true := fun k hk => hex k hk
  intro e
  by_cases he1 : e = np
  · subst he1
    rw [hnew]
    refine ⟨?_, fun c hc => ?_⟩
    · exact List.Nodup.append (hs e).1 (List.nodup_singleton id) (by simpa using hidnp)
    · rw [List.mem_append, List.mem_singleton] at hc
      rcases hc with hc | hc
      · have hcid : c ≠ id := fun hh => hidnp (hh ▸ hc)
        rw [hpar c hcid]
        exact ⟨((hs e).2 c hc).1, hexid c ((hs e).2 c hc).2⟩
      · subst hc
        exact ⟨hpid, hexid c (by simp [exists_id, hm])⟩
  · by_cases he2 : e = m.parent
    · subst he2
      rw [hold]
      refine ⟨(hs m.parent).1.erase id, fun c hc => ?_⟩
      rw [(hs m.parent).1.mem_erase_iff] at hc
      rw [hpar c hc.1]
      exact ⟨((hs m.parent).2 c hc.2).1, hexid c ((hs m.parent).2 c hc.2).2⟩
    · rw [hother e he2 he1]
      refine ⟨(hs e).1, fun c hc => ?_⟩
      have hcid : c ≠ id := by
        intro hh
        subst hh
        exact he2 (((hs e).2 c hc).1.symm.trans hparent)
      rw [hpar c hcid]
      exact ⟨((hs e).2 c hc).1, hexid c ((hs e).2 c hc).2⟩

theorem get_or_create_with_op_sameTree {fuel : Nat} {s s1 : Opus} {id : Id}
    (h : get_or_create_with_op_ fuel s id = some s1) : SameTree s s1 :=
  SameTree.same_of_metaExt (get_or_create_with_op_spec fuel s id s1 h).1

theorem get_or_create_sameTree (s : Opus) (id : Id) : SameTree s (s.get_or_create_ id) :=
  SameTree.same_of_metaExt (MetaExt.ext_get_or_create_ s id)

theorem child_tail_sameTree {fuel : Nat} {s s' : Opus} {p c : Id} {hp : Bool} {h : Nat}
    (hc : child_tail fuel s p c hp = some (s', h)) : SameTree s s' := by
  unfold child_tail at hc
  cases h1 : (if hp = true then some s else get_or_create_with_op_ fuel s p) with
  | none => simp [h1] at hc
  | some s1 =>
    have hs1 : SameTree s s1 := by
      cases hp with
      | true => simp at h1; subst h1; exact SameTree.same_refl s
      | false => simp at h1; exact get_or_create_with_op_sameTree h1
    simp only [h1] at hc
    cases h2 : (s1.meta_.find p).bind (fun e => s1.get e.op) with
    | none => simp [h2] at hc
    | some ph =>
      simp only [h2, Option.some.injEq, Prod.mk.injEq] at hc
      obtain ⟨hc, _⟩ := hc
      subst hc
      refine hs1.same_trans ?_
      refine SameTree.same_trans (@SameTree.same_of_meta_eq s1 (s1.push_new ph c) rfl) ?_
      refine SameTree.same_trans
        (SameTree.same_modify _ p (fun e => { e with children_dirty := true }) (fun _ => ⟨rfl, rfl⟩)) ?_
      refine SameTree.same_trans (@SameTree.same_of_meta_eq
        ((s1.push_new ph c).modify p (fun e => { e with children_dirty := true }))
        { (s1.push_new ph c).modify p (fun e => { e with children_dirty := true })
          with dirty_ := true } rfl) ?_
      exact SameTree.same_modify _ c (fun e => { e with op := some s1.fresh }) (fun _ => ⟨rfl, rfl⟩)

theorem emplace_sameTree (s : Opus) (id : Id) :
    SameTree s { s with meta_ := s.meta_.emplace id {} } := by
  apply SameTree.same_of_metaExt
  intro k
  simp only [opus_map.find_emplace]
  cases hk : s.meta_.find k with
  | some w => exact ⟨w, rfl, rfl, rfl, rfl⟩
  | none =>
    intro w' hw'
    by_cases h1 : k = id
    · simp [h1] at hw'; subst hw'; exact ⟨rfl, rfl, rfl⟩
    · simp [h1] at hw'

theorem child_move_listsOK {fuel : Nat} {s s1 : Opus} {p c : Id} {hp : Bool} {m : op_meta}
    (hm : s.meta_.find c = some m)
    (h : child_move_ fuel s p c = some (s1, hp)) (hs : ListsOK s) : ListsOK s1 := by
  unfold child_move_ at h
  have hpar : s.parent c = m.parent := by simp [parent_eq, hm]
  by_cases hne : s.parent c = p
  · simp only [hne, ne_eq, not_true_eq_false, if_false, Option.some.injEq, Prod.mk.injEq] at h
    obtain ⟨rfl, _⟩ := h
    exact hs
  · simp only [hne, ne_eq, not_false_eq_true, if_true] at h
    cases hrp : reparent_ fuel s c p with
    | none => simp [hrp] at h
    | some s1' =>
      simp only [hrp, Option.map_some', Option.some.injEq, Prod.mk.injEq] at h
      obtain ⟨rfl, _⟩ := h
      exact reparent_listsOK hm (by rw [← hpar]; exact hne) hrp hs

theorem child_priority_sameTree {fuel : Nat} {s s4 : Opus} {p c : Id} {prio : Int}
    {hp hp2 : Bool} (h : child_priority_ fuel s p c prio hp = some (s4, hp2)) :
    SameTree s s4 := by
  unfold child_priority_ at h
  by_cases hq : s.priority c = prio
  · simp only [hq, ne_eq, not_true_eq_false, if_false, Option.some.injEq, Prod.mk.injEq] at h
    obtain ⟨rfl, _⟩ := h
    exact SameTree.same_refl _
  · simp only [hq, ne_eq, not_false_eq_true, if_true] at h
    cases h3 : (if hp = true then some (s.modify c (fun e => { e with priority := prio }))
        else get_or_create_with_op_ fuel (s.modify c (fun e => { e with priority := prio })) p) with
    | none => simp [h3] at h
    | some s3 =>
      simp only [h3, Option.some.injEq, Prod.mk.injEq] at h
      obtain ⟨rfl, _⟩ := h
      have h13 : SameTree s s3 := by
        refine SameTree.same_trans (SameTree.same_modify s c
          (fun e => { e with priority := prio }) (fun _ => ⟨rfl, rfl⟩)) ?_
        cases hp with
        | true => simp at h3; subst h3; exact SameTree.same_refl _
        | false => simp at h3; exact get_or_create_with_op_sameTree h3
      refine h13.same_trans ?_
      refine SameTree.same_trans (SameTree.same_modify s3 p
        (fun e => { e with children_dirty := true }) (fun _ => ⟨rfl, rfl⟩)) ?_
      exact SameTree.same_of_meta_eq rfl

theorem child_listsOK {fuel : Nat} {s s' : Opus} {p c : Id} {prio : Int} {h : Nat}
    (hc : child fuel s p c prio = some (s', h)) (hs : ListsOK s) : ListsOK s' := by
  unfold child at hc
  by_cases hz : c = 0
  · simp [hz] at hc
  · simp only [hz, if_false] at hc
    cases hm : s.meta_.find c with
    | none =>
      simp only [hm] at hc
      exact ((emplace_sameTree s c).same_trans (child_tail_sameTree hc)).same_listsOK hs
    | some m =>
      simp only [hm] at hc
      cases hr1 : child_move_ fuel s p c with
      | none => simp [hr1] at hc
      | some r1 =>
        obtain ⟨s1, hp1⟩ := r1
        have hs1 : ListsOK s1 := child_move_listsOK hm hr1 hs
        simp only [hr1] at hc
        cases hr2 : child_priority_ fuel s1 p c prio hp1 with
        | none => simp [hr2] at hc
        | some r2 =>
          obtain ⟨s4, hp2⟩ := r2
          have hs4 : SameTree s1 s4 := child_priority_sameTree hr2
          simp only [hr2] at hc
          cases h5 : (s4.meta_.find c).bind (fun e => s4.get e.op) with
          | some hh =>
            simp only [h5, Option.some.injEq, Prod.mk.injEq] at hc
            obtain ⟨rfl, _⟩ := hc
            exact hs4.same_listsOK hs1
          | none =>
            simp only [h5] at hc
            exact (hs4.same_trans (child_tail_sameTree hc)).same_listsOK hs1

end Opus

namespace Opus

theorem exists_id_eq (s : Opus) (k : Id) : s.exists_id k = (s.meta_.find k).isSome := rfl

/-- The end of `erase(id)`: the entry of `id` is gone, `id` is erased from its
parent's child list, and nothing else changes in the entries of the state
after `get_or_create_(meta.parent)`. -/
theorem erase_op_find {fuel : Nat} {s3 s4 : Opus} {id pid : Id}
    (h : erase_op_ fuel s3 id pid = some s4) :
    ∀ k, k ≠ id → s4.meta_.find k = s3.meta_.find k := by
  intro k hk
  unfold erase_op_ at h
  split at h
  · simp only [Option.some.injEq] at h; subst h; rfl
  · split at h
    · simp only [Option.some.injEq] at h; subst h; rfl
    · split at h
      · simp only [Option.some.injEq] at h; subst h; rfl
      · split at h
        · split at h
          · simp at h
          · simp only [Option.some.injEq] at h; subst h; rfl
        · simp only [Option.some.injEq] at h
          subst h
          simp [find_modify, hk]

theorem erase_self_spec (fuel : Nat) (s1 : Opus) (id : Id) (m : op_meta)
    (hm : s1.meta_.find id = some m) (hret : (erase_self_ fuel s1 id).isSome = true) :
    ∃ s', erase_self_ fuel s1 id = some s' ∧
      (∀ k, s'.exists_id k = (decide (k ≠ id) && (s1.get_or_create_ m.parent).exists_id k)) ∧
      (∀ k, k ≠ id → s'.parent k = s1.parent k) ∧
      (∀ k, k ≠ id → s'.priority k = s1.priority k) ∧
      (∀ k, k ≠ id → s'.iterate k = if k = m.parent then (s1.iterate k).erase id else s1.iterate k) ∧
      s'.iterate id = [] ∧ s'.parent id = 0 := by
  have hext : MetaExt s1 (s1.get_or_create_ m.parent) := MetaExt.ext_get_or_create_ s1 m.parent
  have hp : ∃ p, (s1.get_or_create_ m.parent).meta_.find m.parent = some p := by
    rw [find_get_or_create_]
    cases h : s1.meta_.find m.parent with
    | some w => exact ⟨w, rfl⟩
    | none => exact ⟨{}, by simp⟩
  obtain ⟨p, hp⟩ := hp
  have hpc : p.children = s1.iterate m.parent := by
    have := hext.ext_iterate_eq m.parent
    rw [iterate_eq, hp] at this
    simpa using this
  have hpp : p.parent = s1.parent m.parent := by
    have := hext.ext_parent_eq m.parent
    rw [parent_eq, hp] at this
    simpa using this
  have hpq : p.priority = s1.priority m.parent := by
    have := hext.ext_priority_eq m.parent
    rw [priority_eq, hp] at this
    simpa using this
  obtain ⟨s3, hs3def⟩ : ∃ s3, s3 =
      (if id ∈ p.children then
        (s1.get_or_create_ m.parent).modify m.parent
          (fun e => { e with children := e.children.erase id })
      else
        (s1.get_or_create_ m.parent).error (.id_not_found_in_parent id m.parent)) := ⟨_, rfl⟩
  have hs3find : ∀ k, s3.meta_.find k =
      if k = m.parent then some { p with children := p.children.erase id }
      else (s1.get_or_create_ m.parent).meta_.find k := by
    intro k
    rw [hs3def]
    by_cases hin : id ∈ p.children
    · simp only [hin, if_true, find_modify, hp, Option.map_some']
    · simp only [hin, if_false, error_meta_]
      by_cases hk : k = m.parent
      · subst hk
        simp only [if_true, hp]
        rw [List.erase_of_not_mem hin]
      · simp [hk]
  obtain ⟨s4, hs4⟩ : ∃ s4, erase_op_ fuel s3 id m.parent = some s4 := by
    obtain ⟨s', hs'⟩ := Option.isSome_iff_exists.mp hret
    unfold erase_self_ at hs'
    simp only [hm, hp] at hs'
    rw [← hs3def] at hs'
    cases h4 : erase_op_ fuel s3 id m.parent with
    | none => simp [h4] at hs'
    | some s4 => exact ⟨s4, rfl⟩
  have hs4find : ∀ k, k ≠ id → s4.meta_.find k = s3.meta_.find k := erase_op_find hs4
  have hfind : ∀ k, ({ s4 with meta_ := s4.meta_.erase id } : Opus).meta_.find k =
      if k = id then none
      else if k = m.parent then some { p with children := p.children.erase id }
      else (s1.get_or_create_ m.parent).meta_.find k := by
    intro k
    simp only [opus_map.find_erase]
    by_cases hk : k = id
    · simp [hk]
    · simp only [hk, if_false]
      rw [hs4find k hk, hs3find]
  refine ⟨{ s4 with meta_ := s4.meta_.erase id }, ?_, ?_, ?_, ?_, ?_, ?_, ?_⟩
  · unfold erase_self_
    simp only [hm, hp]
    rw [← hs3def, hs4]
  · intro k
    rw [exists_id_eq, exists_id_eq, hfind]
    by_cases hk : k = id
    · simp [hk]
    · by_cases hk2 : k = m.parent
      · subst hk2; simp [hk, hp]
      · simp [hk, hk2]
  · intro k hk
    rw [parent_eq, hfind]
    simp only [hk, if_false]
    by_cases hk2 : k = m.parent
    · subst hk2; simp [hpp]
    · simp only [hk2, if_false]
      rw [← parent_eq]; exact hext.ext_parent_eq k
  · intro k hk
    rw [priority_eq, hfind]
    simp only [hk, if_false]
    by_cases hk2 : k = m.parent
    · subst hk2; simp [hpq]
    · simp only [hk2, if_false]
      rw [← priority_eq]; exact hext.ext_priority_eq k
  · intro k hk
    rw [iterate_eq, hfind]
    simp only [hk, if_false]
    by_cases hk2 : k = m.parent
    · subst hk2; simp [hpc]
    · simp only [hk2, if_false]
      rw [← iterate_eq]; exact hext.ext_iterate_eq k
  · rw [iterate_eq, hfind]; simp
  · rw [parent_eq, hfind]; simp

theorem erase_self_listsOK {fuel : Nat} {s1 s' : Opus} {id : Id}
    (h : erase_self_ fuel s1 id = some s') (hs : ListsOK s1) : ListsOK s' := by
  cases hm : s1.meta_.find id with
  | none => simp [erase_self_, hm] at h
  | some m =>
    obtain ⟨s'', hs'', hex, hpar, _, hit, hitid, _⟩ :=
      erase_self_spec fuel s1 id m hm (by rw [h]; rfl)
    rw [h] at hs''
    cases hs''
    have hparent : s1.parent id = m.parent := by simp [parent_eq, hm]
    have hmem : ∀ e c, e ≠ id → c ∈ s'.iterate e → c ≠ id ∧ c ∈ s1.iterate e := by
      intro e c he hc
      rw [hit e he] at hc
      by_cases he2 : e = m.parent
      · simp only [he2, if_true] at hc
        rw [(hs m.parent).1.mem_erase_iff] at hc
        exact ⟨hc.1, he2 ▸ hc.2⟩
      · simp only [he2, if_false] at hc
        refine ⟨?_, hc⟩
        intro hh
        subst hh
        exact he2 (((hs e).2 c hc).1.symm.trans hparent)
    intro e
    by_cases he : e = id
    · subst he
      rw [hitid]
      exact ⟨List.nodup_nil, fun c hc => by simp at hc⟩
    · refine ⟨?_, fun c hc => ?_⟩
      · rw [hit e he]
        by_cases he2 : e = m.parent
        · simp only [he2, if_true]; exact (hs m.parent).1.erase id
        · simp only [he2, if_false]; exact (hs e).1
      · obtain ⟨hcid, hc1⟩ := hmem e c he hc
        rw [hpar c hcid, hex c]
        refine ⟨((hs e).2 c hc1).1, ?_⟩
        have := (get_or_create_sameTree s1 m.parent).2.2 c ((hs e).2 c hc1).2
        simp [hcid, this]

theorem erase_listsOK :
    ∀ fuel : Nat,
      (∀ s id s', erase fuel s id = some s' → ListsOK s → ListsOK s') ∧
      (∀ s id s', erase_children fuel s id = some s' → ListsOK s → ListsOK s') := by
  intro fuel
  induction fuel with
  | zero =>
    exact ⟨fun s id s' h => by simp [erase] at h, fun s id s' h => by simp [erase_children] at h⟩
  | succ n ih =>
    refine ⟨fun s id s' h hs => ?_, fun s id s' h hs => ?_⟩
    · unfold erase at h
      cases hm : s.meta_.find id with
      | none => simp only [hm, Option.some.injEq] at h; subst h; exact hs
      | some m =>
        simp only [hm] at h
        cases hc : erase_children n s id with
        | none => simp [hc] at h
        | some s1 =>
          simp only [hc] at h
          exact erase_self_listsOK h (ih.2 s id s1 hc hs)
    · unfold erase_children at h
      cases hm : s.meta_.find id with
      | none => simp [hm] at h
      | some m =>
        simp only [hm] at h
        cases hl : m.children.getLast? with
        | none => simp only [hl, Option.some.injEq] at h; subst h; exact hs
        | some c =>
          simp only [hl] at h
          cases he : erase n s c with
          | none => simp [he] at h
          | some s1 =>
            simp only [he] at h
            exact ih.2 s1 id s' h (ih.1 s c s1 he hs)

end Opus

namespace Opus

theorem listsOK_of_perm {s s' : Opus} (hp : ∀ k, s'.parent k = s.parent k)
    (hi : ∀ k, (s'.iterate k).Perm (s.iterate k))
    (he : ∀ k, s.exists_id k = true → s'.exists_id k = true) (hs : ListsOK s) : ListsOK s' := by
  intro e
  refine ⟨(hi e).nodup_iff.mpr (hs e).1, fun c hc => ?_⟩
  have hc' := (hi e).mem_iff.mp hc
  rw [hp c]
  exact ⟨((hs e).2 c hc').1, he c ((hs e).2 c hc').2⟩

@[simp] theorem swap_meta_ (s : Opus) (h1 h2 : Nat) : (s.swap h1 h2).meta_ = s.meta_ := rfl

theorem lockstep_meta_ : ∀ (kids : List Id) (s : Opus) (H op_it : Nat),
    (lockstep s H kids op_it).meta_ = s.meta_ := by
  intro kids
  induction kids with
  | nil => intro s H op_it; simp [lockstep]
  | cons id rest ih =>
    intro s H op_it
    unfold lockstep
    split
    · rfl
    · split
      · rfl
      · split
        · exact ih _ _ _
        · rw [ih]; rfl

/-- The entries after `clean_(op_meta&)` on the entry of `id`. -/
theorem find_clean_meta (s : Opus) (id k : Id) :
    (s.clean_meta id).meta_.find k =
      if k = id then
        (s.meta_.find id).map (fun m =>
          if m.children_dirty = true then
            { m with
              children :=
                if (s.get m.op).isSome = true then
                  m.children.insertionSort (fun a b => s.priority b ≤ s.priority a)
                else m.children
              children_dirty := false }
          else m)
      else s.meta_.find k := by
  unfold clean_meta
  cases hm : s.meta_.find id with
  | none =>
    by_cases hk : k = id
    · subst hk; simp [hm]
    · simp [hk]
  | some m =>
    by_cases hd : m.children_dirty = true
    · simp only [hd, Bool.not_true, Bool.false_eq_true, if_false, if_true, Option.map_some']
      cases hg : s.get m.op with
      | none =>
        simp only [find_modify, hm]
        by_cases hk : k = id
        · simp [hk, hd]
        · simp [hk]
      | some H =>
        simp only [find_modify, lockstep_meta_, hm]
        by_cases hk : k = id
        · simp [hk]
        · simp [hk]
    · simp only [hd, Bool.not_false, if_true, Option.map_some', if_false]
      by_cases hk : k = id
      · subst hk
        simp [hm, hd]
      · simp [hk]

theorem clean_meta_listsOK (s : Opus) (id : Id) (hs : ListsOK s) : ListsOK (s.clean_meta id) := by
  apply listsOK_of_perm _ _ _ hs
  · intro k
    rw [parent_eq, parent_eq, find_clean_meta]
    by_cases hk : k = id
    · subst hk
      cases hm : s.meta_.find k with
      | none => simp
      | some m => by_cases hd : m.children_dirty = true <;> simp [hd]
    · simp [hk]
  · intro k
    rw [iterate_eq, iterate_eq, find_clean_meta]
    by_cases hk : k = id
    · subst hk
      cases hm : s.meta_.find k with
      | none => simp
      | some m =>
        by_cases hd : m.children_dirty = true
        · by_cases hg : (s.get m.op).isSome = true
          · simp only [hd, hg, if_true, Option.map_some', Option.getD_some]
            exact List.perm_insertionSort _ _
          · simp [hd, hg]
        · simp [hd]
    · simp [hk]
  · intro k hk'
    rw [exists_id_eq] at hk' ⊢
    rw [find_clean_meta]
    by_cases hk : k = id
    · subst hk; simpa using hk'
    · simpa [hk] using hk'

theorem foldl_clean_meta_listsOK (ks : List Id) :
    ∀ s : Opus, ListsOK s → ListsOK (ks.foldl clean_meta s) := by
  induction ks with
  | nil => intro s hs; exact hs
  | cons k rest ih => intro s hs; exact ih _ (clean_meta_listsOK s k hs)

theorem clean_listsOK (s : Opus) (hs : ListsOK s) : ListsOK s.clean_ := by
  unfold clean_
  split
  · exact (@SameTree.same_of_meta_eq (s.meta_.keys.foldl clean_meta s)
      { s.meta_.keys.foldl clean_meta s with dirty_ := false } rfl).same_listsOK (foldl_clean_meta_listsOK _ s hs)
  · exact hs

theorem call_listsOK {fuel : Nat} {s s' : Opus} {dt r : F64} {ev : List Event}
    (h : call fuel s dt = some (s', r, ev)) (hs : ListsOK s) : ListsOK s' := by
  unfold call at h
  have h1 : ListsOK (if s.dirty_ = true then s.clean_ else s) := by
    split
    · exact clean_listsOK s hs
    · exact hs
  cases hr : reify fuel (if s.dirty_ = true then s.clean_ else s).ops
      (if s.dirty_ = true then s.clean_ else s).root_ with
  | none => simp [hr] at h
  | some root =>
    simp only [hr] at h
    cases hc : Op.call fuel root dt with
    | none => simp [hc] at h
    | some x =>
      obtain ⟨root', ev'⟩ := x
      simp only [hc, Option.some.injEq, Prod.mk.injEq] at h
      obtain ⟨rfl, _⟩ := h
      exact (SameTree.same_of_meta_eq rfl).same_listsOK h1

theorem set_parent_listsOK {fuel : Nat} {s s' : Opus} {id np old : Id}
    (h : set_parent fuel s id np = some (s', old)) (hs : ListsOK s) : ListsOK s' := by
  unfold set_parent at h
  have h0 : ListsOK (s.get_or_create_ id) := (get_or_create_sameTree s id).same_listsOK hs
  have hm : ∃ m, (s.get_or_create_ id).meta_.find id = some m := by
    rw [find_get_or_create_]
    cases hh : s.meta_.find id with
    | some w => exact ⟨w, rfl⟩
    | none => exact ⟨{}, by simp⟩
  obtain ⟨m, hm⟩ := hm
  have hpar : (s.get_or_create_ id).parent id = m.parent := by simp [parent_eq, hm]
  by_cases hne : (s.get_or_create_ id).parent id = np
  · simp only [hne, ne_eq, not_true_eq_false, if_false, Option.some.injEq, Prod.mk.injEq] at h
    obtain ⟨rfl, _⟩ := h
    exact h0
  · simp only [hne, ne_eq, not_false_eq_true, if_true] at h
    cases hr : reparent_ fuel (s.get_or_create_ id) id np with
    | none => simp [hr] at h
    | some s1 =>
      simp only [hr, Option.map_some', Option.some.injEq, Prod.mk.injEq] at h
      obtain ⟨rfl, _⟩ := h
      exact reparent_listsOK hm (by rw [← hpar]; exact hne) hr h0

theorem set_priority_sameTree (s : Opus) (id : Id) (v : Int) :
    SameTree s (s.set_priority id v).1 := by
  unfold set_priority
  by_cases hq : (s.get_or_create_ id).priority id = v
  · simp only [hq, ne_eq, not_true_eq_false, if_false]
    exact get_or_create_sameTree s id
  · simp only [hq, ne_eq, not_false_eq_true, if_true]
    refine (get_or_create_sameTree s id).same_trans ?_
    refine SameTree.same_trans (SameTree.same_modify _ id (fun e => { e with priority := v })
      (fun _ => ⟨rfl, rfl⟩)) ?_
    refine SameTree.same_trans (get_or_create_sameTree _
      (((s.get_or_create_ id).modify id (fun e => { e with priority := v })).parent id)) ?_
    refine SameTree.same_trans (SameTree.same_modify _
      (((s.get_or_create_ id).modify id (fun e => { e with priority := v })).parent id)
      (fun e => { e with children_dirty := true }) (fun _ => ⟨rfl, rfl⟩)) ?_
    exact SameTree.same_of_meta_eq rfl

theorem index_sameTree {fuel : Nat} {s s' : Opus} {id : Id} {h : Nat}
    (hi : index fuel s id = some (s', h)) : SameTree s s' := by
  unfold index at hi
  cases hg : get_or_create_with_op_ fuel s id with
  | none => simp [hg] at hi
  | some s1 =>
    simp only [hg] at hi
    cases hm : s1.meta_.find id with
    | none => simp [hm] at hi
    | some m =>
      simp only [hm] at hi
      cases hh : s1.get m.op with
      | none => simp [hh] at hi
      | some x =>
        simp only [hh, Option.some.injEq, Prod.mk.injEq] at hi
        obtain ⟨rfl, _⟩ := hi
        exact get_or_create_with_op_sameTree hg

theorem new_listsOK (op_gen : Id → GenOp) : ListsOK (Opus.new op_gen) := by
  intro e
  have : (Opus.new op_gen).iterate e = [] := by
    unfold iterate Opus.new
    by_cases he : e = 0
    · subst he; simp [opus_map.find]
    · simp [opus_map.find, Ne.symm he]
  rw [this]
  exact ⟨List.nodup_nil, fun c hc => by simp at hc⟩

end Opus

theorem Opus.before_child {fuel : Nat} {s : Opus} {sib c : Id} {d : Int} {r : Opus × Nat}
    (h : Opus.before fuel s sib c d = some r) :
    Opus.child fuel (s.get_or_create_ sib) ((s.get_or_create_ sib).parent sib) c
      ((s.get_or_create_ sib).priority sib + d) = some r := by
  unfold Opus.before at h
  by_cases h0 : sib = 0 ∨ c = 0
  · simp [h0] at h
  · by_cases h1 : in_I32 ((s.get_or_create_ sib).priority sib + d) = true
    · simpa [h0, h1] using h
    · simp [h0, h1] at h

theorem Opus.after_child {fuel : Nat} {s : Opus} {sib c : Id} {d : Int} {r : Opus × Nat}
    (h : Opus.after fuel s sib c d = some r) :
    Opus.child fuel (s.get_or_create_ sib) ((s.get_or_create_ sib).parent sib) c
      ((s.get_or_create_ sib).priority sib - d) = some r := by
  unfold Opus.after at h
  by_cases h0 : sib = 0 ∨ c = 0
  · simp [h0] at h
  · by_cases h1 : in_I32 ((s.get_or_create_ sib).priority sib - d) = true
    · simpa [h0, h1] using h
    · simp [h0, h1] at h

/-- The metadata invariant holds in every reachable state. -/
theorem Reachable.reach_listsOK {s : Opus} (h : Reachable s) : ListsOK s := by
  induction h with
  | new op_gen => exact Opus.new_listsOK op_gen
  | index fuel id h _ hi ih => exact (Opus.index_sameTree hi).same_listsOK ih
  | child fuel p c prio h _ hc ih => exact Opus.child_listsOK hc ih
  | before fuel sib op_id d h _ hb ih =>
    exact Opus.child_listsOK (Opus.before_child hb) ((Opus.get_or_create_sameTree _ _).same_listsOK ih)
  | after fuel sib op_id d h _ hb ih =>
    exact Opus.child_listsOK (Opus.after_child hb) ((Opus.get_or_create_sameTree _ _).same_listsOK ih)
  | set_parent fuel c np old _ hp ih => exact Opus.set_parent_listsOK hp ih
  | set_priority id v _ ih => exact (Opus.set_priority_sameTree _ id v).same_listsOK ih
  | erase fuel id _ he ih => exact (Opus.erase_listsOK fuel).1 _ _ _ he ih
  | call fuel dt r ev _ hc ih => exact Opus.call_listsOK hc ih
  | set_op h r t a _ ih => exact (SameTree.same_of_meta_eq rfl).same_listsOK ih

/-! ### `Opus::parent(Id, Id)` -/

namespace Opus

end Opus

/-! ### `Opus::erase` -/

namespace Desc

theorem desc_trans {s : Opus} {a b c : Id} (h1 : Desc s a b) (h2 : Desc s b c) : Desc s a c := by
  induction h2 with
  | refl => exact h1
  | step _ hc ih => exact Desc.step ih hc

theorem desc_head {s : Opus} {a c d : Id} (hc : c ∈ s.iterate a) (h : Desc s c d) : Desc s a d :=
  desc_trans (Desc.step (Desc.refl a) hc) h

end Desc

namespace DepthLE

end DepthLE

/-! ### The destructor of an Op -/

theorem ownDepthLE_mono {o : Nat → Option OpCell} :
    ∀ (n m h : Nat), n ≤ m → ownDepthLE n o h = true → ownDepthLE m o h = true := by
  intro n
  induction n with
  | zero => intro m h _ hd; simp [ownDepthLE] at hd
  | succ n ih =>
    intro m h hnm hd
    obtain ⟨m', rfl⟩ : ∃ m', m = m' + 1 := ⟨m - 1, by omega⟩
    unfold ownDepthLE at hd ⊢
    cases hc : o h with
    | none => rfl
    | some c =>
      simp only [hc, List.all_eq_true] at hd
      simp only [List.all_eq_true]
      exact fun k hk => ih m' k (by omega) (hd k hk)

theorem destroyAll_le
    {f : (Nat → Option OpCell) → Nat → Option (Nat → Option OpCell)}
    (hf : ∀ ops k o, f ops k = some o → ∀ x, o x = ops x ∨ o x = none) :
    ∀ (l : List Nat) (ops o : Nat → Option OpCell),
      destroyAll f ops l = some o → ∀ x, o x = ops x ∨ o x = none := by
  intro l
  induction l with
  | nil =>
    intro ops o h x
    simp only [destroyAll, Option.some.injEq] at h
    subst h
    exact Or.inl rfl
  | cons k rest ih =>
    intro ops o h x
    unfold destroyAll at h
    cases hk : f ops k with
    | none => simp [hk] at h
    | some o1 =>
      simp only [hk] at h
      rcases ih o1 o h x with r | r
      · rcases hf ops k o1 hk x with r1 | r1
        · exact Or.inl (r.trans r1)
        · exact Or.inr (r.trans r1)
      · exact Or.inr r

/-- The destructor only takes Ops out of the store. -/
theorem destroy_le : ∀ (fuel : Nat) (ops : Nat → Option OpCell) (h : Nat)
    (o : Nat → Option OpCell), destroy fuel ops h = some o →
      ∀ k, o k = ops k ∨ o k = none := by
  intro fuel
  induction fuel with
  | zero => intro ops h o hd; simp [destroy] at hd
  | succ n ih =>
    intro ops h o hd k
    unfold destroy at hd
    cases hc : ops h with
    | none =>
      simp only [hc, Option.some.injEq] at hd
      subst hd
      exact Or.inl rfl
    | some c =>
      simp only [hc] at hd
      cases ha : destroyAll (destroy n) ops c.children with
      | none => simp [ha] at hd
      | some o1 =>
        simp only [ha, Option.some.injEq] at hd
        subst hd
        by_cases hk : k = h
        · simp [hk]
        · simp only [hk, if_false]
          exact destroyAll_le ih _ _ _ ha k

/-- When the first element of the children vector of `a` is `b` and the first
element of the children vector of `b` is `a`, the destructor returns for
neither, whatever the fuel. -/
theorem destroy_cycle (ops : Nat → Option OpCell) (a b : Nat) (ca cb : OpCell)
    (ha : ops a = some ca) (hb : ops b = some cb)
    (hab : ca.children.head? = some b) (hba : cb.children.head? = some a) :
    ∀ fuel, destroy fuel ops a = none ∧ destroy fuel ops b = none := by
  obtain ⟨ra, hra⟩ : ∃ r, ca.children = b :: r := by
    cases h : ca.children with
    | nil => simp [h] at hab
    | cons x r => simp [h] at hab; exact ⟨r, by rw [hab]⟩
  obtain ⟨rb, hrb⟩ : ∃ r, cb.children = a :: r := by
    cases h : cb.children with
    | nil => simp [h] at hba
    | cons x r => simp [h] at hba; exact ⟨r, by rw [hba]⟩
  intro fuel
  induction fuel with
  | zero => exact ⟨rfl, rfl⟩
  | succ n ih =>
    constructor
    · unfold destroy
      simp [ha, hra, destroyAll, ih.2]
    · unfold destroy
      simp [hb, hrb, destroyAll, ih.1]

namespace Opus

end Opus

namespace Opus

end Opus

/-! ### Reconciliation -/

theorem swapId_left (x h : Nat) : swapId x h x = h := by simp [swapId]

theorem swapId_right (x h : Nat) : swapId x h h = x := by
  unfold swapId
  by_cases e : h = x <;> simp [e]

theorem swapId_other (x h k : Nat) (h1 : k ≠ x) (h2 : k ≠ h) : swapId x h k = k := by
  simp [swapId, h1, h2]

theorem swapId_involutive (x h : Nat) : ∀ k, swapId x h (swapId x h k) = k := by
  intro k
  by_cases h1 : k = x
  · subst h1; rw [swapId_left, swapId_right]
  · by_cases h2 : k = h
    · subst h2; rw [swapId_right, swapId_left]
    · rw [swapId_other x h k h1 h2, swapId_other x h k h1 h2]

theorem swapId_injective (x h : Nat) : Function.Injective (swapId x h) :=
  (Function.LeftInverse.injective (swapId_involutive x h))

namespace Opus

theorem op_children_swap (s : Opus) (x h H : Nat) :
    (s.swap x h).op_children H = (s.op_children H).map (swapId x h) := by
  show (((s.ops H).map
      (fun c => ({ c with children := c.children.map (swapId x h) } : OpCell))).map
        (fun c => c.children)).getD [] = _
  unfold op_children
  cases hc : s.ops H <;> simp

theorem get_swap (s : Opus) (x h : Nat) (o : Option Nat) : (s.swap x h).get o = s.get o := by
  unfold get swap
  cases o with
  | none => rfl
  | some y => cases s.ops y <;> simp

theorem live_ops_swap (s : Opus) (x h : Nat) (kids : List Id) :
    (s.swap x h).live_ops kids = s.live_ops kids := by
  unfold live_ops
  simp only [swap_meta_, get_swap]

theorem live_ops_cons (s : Opus) (id : Id) (rest : List Id) :
    s.live_ops (id :: rest) =
      match (s.meta_.find id).bind (fun e => s.get e.op) with
      | none => s.live_ops rest
      | some h => h :: s.live_ops rest := by
  unfold live_ops
  cases hh : (s.meta_.find id).bind (fun e => s.get e.op) <;> simp [List.filterMap_cons, hh]

end Opus

namespace Opus

theorem rename_id (s : Opus) : s.rename (fun k => k) = s := by
  unfold rename
  have : (fun k => (s.ops k).map (fun c => ({ c with children := c.children.map (fun k => k) }
      : OpCell))) = s.ops := by
    funext k
    cases s.ops k <;> simp
  rw [this]

theorem swap_eq_rename (s : Opus) (x h : Nat) : s.swap x h = s.rename (swapId x h) := rfl

theorem rename_rename (s : Opus) (σ τ : Nat → Nat) :
    (s.rename σ).rename τ = s.rename (fun k => τ (σ k)) := by
  unfold rename
  have : (fun k => ((s.ops k).map
        (fun c => ({ c with children := c.children.map σ } : OpCell))).map
        (fun c => ({ c with children := c.children.map τ } : OpCell))) =
      (fun k => (s.ops k).map
        (fun c => ({ c with children := c.children.map (fun k => τ (σ k)) } : OpCell))) := by
    funext k
    cases s.ops k <;> simp
  simp only [this]

@[simp] theorem rename_meta_ (s : Opus) (σ : Nat → Nat) : (s.rename σ).meta_ = s.meta_ := rfl

theorem op_children_rename (s : Opus) (σ : Nat → Nat) (H : Nat) :
    (s.rename σ).op_children H = (s.op_children H).map σ := by
  show (((s.ops H).map
      (fun c => ({ c with children := c.children.map σ } : OpCell))).map
        (fun c => c.children)).getD [] = _
  unfold op_children
  cases hc : s.ops H <;> simp

theorem get_rename (s : Opus) (σ : Nat → Nat) (o : Option Nat) : (s.rename σ).get o = s.get o := by
  unfold get rename
  cases o with
  | none => rfl
  | some y => cases s.ops y <;> simp

/-- The loop of `clean_(op_meta&)` acts on the store as a renaming: an injective
map of identities that moves only identities of the children vector of `H` and
live Ops of the listed identifiers. -/
theorem lockstep_rename : ∀ (kids : List Id) (s : Opus) (H i : Nat),
    ∃ σ : Nat → Nat, lockstep s H kids i = s.rename σ ∧ Function.Injective σ ∧
      ∀ z, z ∉ s.op_children H → z ∉ s.live_ops kids → σ z = z := by
  intro kids
  induction kids with
  | nil =>
    intro s H i
    exact ⟨fun k => k, by simp [lockstep, rename_id], fun _ _ h => h, fun _ _ _ => rfl⟩
  | cons id rest ih =>
    intro s H i
    have hid : ∃ σ : Nat → Nat, s = s.rename σ ∧ Function.Injective σ ∧
        ∀ z, z ∉ s.op_children H → z ∉ s.live_ops (id :: rest) → σ z = z :=
      ⟨fun k => k, (rename_id s).symm, fun _ _ h => h, fun _ _ _ => rfl⟩
    unfold lockstep
    cases hc : s.ops H with
    | none => exact hid
    | some c =>
      simp only []
      cases hx : c.children.get? i with
      | none => exact hid
      | some x =>
        simp only []
        have hxL : x ∈ s.op_children H := by
          simp only [op_children, hc, Option.map_some', Option.getD_some]
          exact List.get?_mem hx
        cases hl : (s.meta_.find id).bind (fun e => s.get e.op) with
        | none =>
          obtain ⟨σ, h1, h2, h3⟩ := ih s H i
          refine ⟨σ, h1, h2, fun z hz1 hz2 => h3 z hz1 ?_⟩
          rw [live_ops_cons, hl] at hz2
          exact hz2
        | some h =>
          simp only []
          obtain ⟨σ, h1, h2, h3⟩ := ih (s.swap x h) H (i + 1)
          refine ⟨fun k => σ (swapId x h k), ?_, ?_, ?_⟩
          · rw [h1, swap_eq_rename, rename_rename]
          · exact fun a b hab => swapId_injective x h (h2 hab)
          · intro z hz1 hz2
            rw [live_ops_cons, hl] at hz2
            simp only [List.mem_cons, not_or] at hz2
            have hzx : z ≠ x := fun e => hz1 (e ▸ hxL)
            show σ (swapId x h z) = z
            rw [swapId_other x h z hzx hz2.1]
            apply h3
            · rw [op_children_swap, List.mem_map]
              rintro ⟨w, hw, hwz⟩
              have : w = z := by
                have := congrArg (swapId x h) hwz
                rw [swapId_involutive, swapId_other x h z hzx hz2.1] at this
                exact this
              exact hz1 (this ▸ hw)
            · rw [live_ops_swap]; exact hz2.2

end Opus

namespace Opus

theorem live_ops_congr {t t' : Opus} (l : List Id)
    (hfind : ∀ k, (t'.meta_.find k).map (fun e => e.op) = (t.meta_.find k).map (fun e => e.op))
    (hget : ∀ o, t'.get o = t.get o) : t'.live_ops l = t.live_ops l := by
  unfold live_ops
  apply List.filterMap_congr
  intro id _
  have := hfind id
  cases h1 : t'.meta_.find id with
  | none =>
    cases h2 : t.meta_.find id with
    | none => rfl
    | some m2 => simp [h1, h2] at this
  | some m1 =>
    cases h2 : t.meta_.find id with
    | none => simp [h1, h2] at this
    | some m2 =>
      simp only [h1, h2, Option.map_some', Option.some.injEq] at this
      simp [this, hget]

theorem live_ops_perm (t : Opus) {l1 l2 : List Id} (h : l1.Perm l2) :
    (t.live_ops l1).Perm (t.live_ops l2) :=
  List.Perm.filterMap _ h

theorem op_children_congr {t t' : Opus} (h : t'.ops = t.ops) (H : Nat) :
    t'.op_children H = t.op_children H := by
  unfold op_children; rw [h]

/-- The function `clean_(op_meta&)` acts on the store as a renaming that moves
only identities of the children vector of the entry's Op and live Ops of its
listed identifiers. -/
theorem clean_meta_rename (t : Opus) (k : Id) :
    ∃ σ : Nat → Nat, Function.Injective σ ∧ (t.clean_meta k).ops = (t.rename σ).ops ∧
      ∀ z, (∀ mk Hk, t.meta_.find k = some mk → t.get mk.op = some Hk →
          z ∉ t.op_children Hk ∧ z ∉ t.live_ops mk.children) → σ z = z := by
  have hid : ∀ (P : Nat → Prop) (t' : Opus), t'.ops = t.ops →
      ∃ σ : Nat → Nat, Function.Injective σ ∧ t'.ops = (t.rename σ).ops ∧
        ∀ z, P z → σ z = z := by
    intro P t' ht'
    exact ⟨fun k => k, fun _ _ h => h, by rw [rename_id, ht'], fun _ _ => rfl⟩
  unfold clean_meta
  cases hm : t.meta_.find k with
  | none => exact hid _ t rfl
  | some m =>
    simp only []
    by_cases hd : m.children_dirty = true
    · simp only [hd, Bool.not_true, Bool.false_eq_true, if_false]
      cases hg : t.get m.op with
      | none => exact hid _ _ (by simp)
      | some Hk =>
        simp only []
        have hperm := List.perm_insertionSort (fun a b => t.priority b ≤ t.priority a) m.children
        generalize m.children.insertionSort (fun a b => t.priority b ≤ t.priority a) = sorted
          at hperm ⊢
        obtain ⟨σ, h1, h2, h3⟩ := lockstep_rename sorted
          (t.modify k (fun e => { e with children := sorted })) Hk 0
        refine ⟨σ, h2, ?_, ?_⟩
        · rw [modify_ops, h1]
          show (fun k' => ((t.modify k _).ops k').map _) = (fun k' => (t.ops k').map _)
          rw [modify_ops]
        · intro z hz
          obtain ⟨hz1, hz2⟩ := hz m Hk rfl hg
          apply h3
          · rw [op_children_congr (modify_ops _ _ _)]; exact hz1
          · rw [live_ops_congr _ (fun k' => ?_) (fun o => get_modify _ _ _ o)]
            · intro hc
              exact hz2 ((live_ops_perm t hperm).mem_iff.mp hc)
            · rw [find_modify]
              by_cases hk : k' = k
              · subst hk; simp [hm]
              · simp [hk]
    · simp only [hd, Bool.not_false, if_true]
      exact hid _ t rfl

theorem storeOK_rename {t t' : Opus} (σ : Nat → Nat) (hσ : Function.Injective σ)
    (h : t'.ops = (t.rename σ).ops) (ht : StoreOK t) : StoreOK t' := by
  have hc : ∀ H, t'.op_children H = (t.op_children H).map σ := by
    intro H
    rw [op_children_congr h, op_children_rename]
  refine ⟨fun H => ?_, fun h1 h2 x hx1 hx2 => ?_⟩
  · rw [hc]; exact (ht.1 H).map hσ
  · rw [hc, List.mem_map] at hx1 hx2
    obtain ⟨y1, hy1, e1⟩ := hx1
    obtain ⟨y2, hy2, e2⟩ := hx2
    have : y1 = y2 := hσ (e1.trans e2.symm)
    subst this
    exact ht.2 h1 h2 y1 hy1 hy2

theorem find_op_clean_meta (t : Opus) (k k' : Id) :
    ((t.clean_meta k).meta_.find k').map (fun e => e.op) =
      (t.meta_.find k').map (fun e => e.op) := by
  rw [find_clean_meta]
  by_cases hk : k' = k
  · subst hk
    cases hm : t.meta_.find k' with
    | none => simp
    | some m => by_cases hd : m.children_dirty = true <;> simp [hd]
  · simp [hk]

theorem get_of_ops_rename {t t' : Opus} (σ : Nat → Nat) (h : t'.ops = (t.rename σ).ops)
    (o : Option Nat) : t'.get o = t.get o := by
  rw [get_congr_ops h, get_rename]

end Opus

namespace Opus

theorem clean_meta_not_dirty {t : Opus} {E : Id} {mt : op_meta}
    (hmt : t.meta_.find E = some mt) (hd : mt.children_dirty = false) : t.clean_meta E = t := by
  unfold clean_meta
  simp [hmt, hd]

end Opus

/-! ### The sorted child list, the write-back of a run, the whole of `clean_()` -/

mutual

theorem store_children_eq (o : Op) (ops : Nat → Option OpCell) (k : Nat) :
    ((o.store ops) k).map (fun c => c.children) = (ops k).map (fun c => c.children) := by
  cases o with
  | mk h r t a kids =>
    rw [Op.store, storeAll_children_eq kids]
    by_cases hk : k = h
    · subst hk
      cases ops k <;> simp
    · simp [hk]

theorem storeAll_children_eq (l : List Op) (ops : Nat → Option OpCell) (k : Nat) :
    ((Op.storeAll l ops) k).map (fun c => c.children) = (ops k).map (fun c => c.children) := by
  cases l with
  | nil => rw [Op.storeAll]
  | cons o rest => rw [Op.storeAll, storeAll_children_eq rest, store_children_eq o]

end

namespace Opus

theorem mem_keys_of_find {m : opus_map} {k : Id} {v : op_meta} (h : m.find k = some v) :
    k ∈ m.keys := by
  induction m with
  | nil => simp [opus_map.find] at h
  | cons p rest ih =>
    obtain ⟨k', v'⟩ := p
    unfold opus_map.find at h
    unfold opus_map.keys
    by_cases hk : k' = k
    · simp [hk]
    · simp only [hk, if_false] at h
      simp only [List.map_cons, List.mem_cons]
      exact Or.inr (ih h)

theorem op_children_store (t : Opus) (o : Op) (h : Nat) :
    Opus.op_children { t with ops := o.store t.ops } h = t.op_children h := by
  unfold op_children
  exact congrArg (fun x => Option.getD x []) (store_children_eq o t.ops h)

theorem get_store (t : Opus) (o : Op) (x : Option Nat) :
    Opus.get { t with ops := o.store t.ops } x = t.get x := by
  unfold get
  cases x with
  | none => rfl
  | some x =>
    have := store_children_eq o t.ops x
    cases h1 : o.store t.ops x <;> cases h2 : t.ops x <;> simp_all

end Opus

namespace Opus

end Opus

/-! ### The ownership invariant -/

namespace HandlesLE

theorem hle_trans {s t u : Opus} (h1 : HandlesLE s t) (h2 : HandlesLE t u) : HandlesLE s u := by
  intro k m' h a b
  obtain ⟨m, c, d⟩ := h2 k m' h a b
  exact h1 k m h c d

theorem hle_of_meta_eq {s t : Opus} (h : t.meta_ = s.meta_) : HandlesLE s t := by
  intro k m' x a b
  rw [h] at a
  exact ⟨m', a, b⟩

theorem hle_modify (s : Opus) (id : Id) (f : op_meta → op_meta)
    (hf : ∀ e, (f e).op = e.op ∨ (f e).op = none) : HandlesLE s (s.modify id f) := by
  intro k m' x a b
  rw [Opus.find_modify] at a
  by_cases hk : k = id
  · subst hk
    simp only [if_true] at a
    cases hm : s.meta_.find k with
    | none => simp [hm] at a
    | some m =>
      simp only [hm, Option.map_some', Option.some.injEq] at a
      subst a
      rcases hf m with h1 | h1
      · exact ⟨m, rfl, by rw [← h1]; exact b⟩
      · rw [h1] at b; simp at b
  · simp only [hk, if_false] at a
    exact ⟨m', a, b⟩

theorem hle_emplace (s : Opus) (id : Id) :
    HandlesLE s { s with meta_ := s.meta_.emplace id {} } := by
  intro k m' x a b
  simp only [opus_map.find_emplace] at a
  cases hm : s.meta_.find k with
  | some m =>
    simp only [hm] at a
    exact ⟨m', by simpa using a, b⟩
  | none =>
    simp only [hm] at a
    by_cases hk : k = id
    · simp [hk] at a
      subst a
      simp at b
    · simp [hk] at a

theorem hle_get_or_create_ (s : Opus) (id : Id) : HandlesLE s (s.get_or_create_ id) := by
  intro k m' x a b
  rw [Opus.find_get_or_create_] at a
  cases hm : s.meta_.find k with
  | some m =>
    simp only [hm] at a
    exact ⟨m', by simpa using a, b⟩
  | none =>
    simp only [hm] at a
    split at a
    · simp at a
      subst a
      simp at b
    · simp at a

theorem hle_erase (s : Opus) (id : Id) :
    HandlesLE s { s with meta_ := s.meta_.erase id } := by
  intro k m' x a b
  simp only [opus_map.find_erase] at a
  by_cases hk : k = id
  · simp [hk] at a
  · simp only [hk, if_false] at a
    exact ⟨m', a, b⟩

end HandlesLE

namespace OwnOK

/-- A step that binds no handle, adds nothing to a children vector and makes
no Op keeps the ownership invariant. -/
theorem own_frame {s t : Opus} (hs : OwnOK s) (hh : HandlesLE s t)
    (hc : ∀ h, (t.op_children h).Sublist (s.op_children h))
    (ha : ∀ h, (t.ops h).isSome = true → (s.ops h).isSome = true)
    (hf : s.fresh ≤ t.fresh) : OwnOK t := by
  obtain ⟨h1, ⟨h2, h3⟩, h4, h5, h6⟩ := hs
  refine ⟨?_, ⟨fun h => (h2 h).sublist (hc h), ?_⟩, ?_, ?_, ?_⟩
  · intro e1 e2 m1 m2 h a b c d
    obtain ⟨n1, a1, c1⟩ := hh e1 m1 h a c
    obtain ⟨n2, b1, d1⟩ := hh e2 m2 h b d
    exact h1 e1 e2 n1 n2 h a1 b1 c1 d1
  · intro k1 k2 x a b
    exact h3 k1 k2 x ((hc k1).subset a) ((hc k2).subset b)
  · intro k m h a b
    obtain ⟨n, a1, b1⟩ := hh k m h a b
    exact lt_of_lt_of_le (h4 k n h a1 b1) hf
  · intro h a
    exact lt_of_lt_of_le (h5 h (ha h a)) hf
  · intro h x a
    exact lt_of_lt_of_le (h6 h x ((hc h).subset a)) hf

/-- A step on the entries alone that binds no handle. -/
theorem own_meta {s t : Opus} (hs : OwnOK s) (hh : HandlesLE s t) (ho : t.ops = s.ops)
    (hf : t.fresh = s.fresh) : OwnOK t :=
  own_frame hs hh (fun h => by rw [Opus.op_children_congr ho]) (fun h a => by rw [← ho]; exact a)
    (le_of_eq hf.symm)

/-- A step on the entries alone that binds the unused handle `x` to `id`. -/
theorem own_bind {s t : Opus} (hs : OwnOK s) (id : Id) (x : Nat) (ho : t.ops = s.ops)
    (hf : t.fresh = s.fresh) (hx : x < s.fresh)
    (hun : ∀ k m, s.meta_.find k = some m → m.op ≠ some x)
    (hh : ∀ k m' h, t.meta_.find k = some m' → m'.op = some h →
      (k = id ∧ h = x) ∨ ∃ m, s.meta_.find k = some m ∧ m.op = some h) : OwnOK t := by
  obtain ⟨h1, h23, h4, h5, h6⟩ := hs
  refine ⟨?_, ?_, ?_, ?_, ?_⟩
  · intro e1 e2 m1 m2 h a b c d
    rcases hh e1 m1 h a c with ⟨r1, r2⟩ | ⟨n1, a1, c1⟩
    · rcases hh e2 m2 h b d with ⟨q1, _⟩ | ⟨n2, b1, d1⟩
      · rw [r1, q1]
      · exact absurd (r2 ▸ d1) (hun e2 n2 b1)
    · rcases hh e2 m2 h b d with ⟨_, q2⟩ | ⟨n2, b1, d1⟩
      · exact absurd (q2 ▸ c1) (hun e1 n1 a1)
      · exact h1 e1 e2 n1 n2 h a1 b1 c1 d1
  · unfold StoreOK Opus.op_children
    rw [ho]
    exact h23
  · intro k m h a b
    rw [hf]
    rcases hh k m h a b with ⟨_, r2⟩ | ⟨n, a1, b1⟩
    · rw [r2]; exact hx
    · exact h4 k n h a1 b1
  · intro h a
    rw [hf]
    rw [ho] at a
    exact h5 h a
  · intro h x a
    rw [hf]
    rw [Opus.op_children_congr ho] at a
    exact h6 h x a

end OwnOK

namespace Opus

theorem op_children_push_back (s : Opus) (h x k : Nat) :
    (s.push_back h x).op_children k =
      if k = h ∧ (s.ops h).isSome = true then s.op_children h ++ [x] else s.op_children k := by
  unfold op_children push_back
  by_cases hk : k = h
  · subst hk
    cases hc : s.ops k <;> simp
  · simp [hk]

theorem isSome_push_back (s : Opus) (h x k : Nat) :
    ((s.push_back h x).ops k).isSome = (s.ops k).isSome := by
  unfold push_back
  by_cases hk : k = h
  · subst hk
    cases hc : s.ops k <;> simp
  · simp [hk]

theorem op_children_erase_slot (s : Opus) (h x k : Nat) :
    (s.erase_slot h x).op_children k =
      if k = h then (s.op_children h).erase x else s.op_children k := by
  unfold op_children erase_slot
  by_cases hk : k = h
  · subst hk
    cases hc : s.ops k <;> simp
  · simp [hk]

theorem isSome_erase_slot (s : Opus) (h x k : Nat) :
    ((s.erase_slot h x).ops k).isSome = (s.ops k).isSome := by
  unfold erase_slot
  by_cases hk : k = h
  · subst hk
    cases hc : s.ops k <;> simp
  · simp [hk]

theorem op_children_of_none {s : Opus} {h : Nat} (hn : s.ops h = none) : s.op_children h = [] := by
  unfold op_children; rw [hn]; rfl

theorem ops_fresh_none {s : Opus} (hs : FreshOK s) : s.ops s.fresh = none := by
  cases h : s.ops s.fresh with
  | none => rfl
  | some c =>
    have := hs.2.1 s.fresh (by rw [h]; rfl)
    exact absurd this (lt_irrefl _)

theorem op_children_push_new {s : Opus} (hs : FreshOK s) {ph : Nat}
    (hph : (s.ops ph).isSome = true) (id : Id) (k : Nat) :
    (s.push_new ph id).op_children k =
      if k = ph then s.op_children ph ++ [s.fresh] else s.op_children k := by
  have hne : ph ≠ s.fresh := Nat.ne_of_lt (hs.2.1 ph hph)
  have hfn := ops_fresh_none hs
  unfold push_new
  rw [op_children_push_back]
  by_cases hk : k = ph
  · subst hk
    simp only [hne, if_false, hph, and_self, if_true]
    unfold op_children
    simp [hne]
  · simp only [hk, false_and, if_false]
    unfold op_children
    by_cases hk2 : k = s.fresh
    · subst hk2
      simp [hfn]
    · simp [hk2]

theorem isSome_push_new (s : Opus) (ph : Nat) (id : Id) (k : Nat) :
    ((s.push_new ph id).ops k).isSome = true → k = s.fresh ∨ (s.ops k).isSome = true := by
  unfold push_new
  rw [isSome_push_back]
  by_cases hk : k = s.fresh
  · exact fun _ => Or.inl hk
  · simp only [hk, if_false]
    exact fun h => Or.inr h

end Opus

namespace OwnOK

/-- The call `children.push_back(op_gen_(id))` on the children of a live Op. -/
theorem own_push_new {s : Opus} (hs : OwnOK s) {ph : Nat} (hph : (s.ops ph).isSome = true)
    (id : Id) : OwnOK (s.push_new ph id) := by
  have hc := Opus.op_children_push_new hs.2.2 hph id
  obtain ⟨h1, ⟨h2, h3⟩, h4, h5, h6⟩ := hs
  have hnin : ∀ k, s.fresh ∉ s.op_children k := fun k hk => lt_irrefl _ (h6 k _ hk)
  refine ⟨?_, ⟨?_, ?_⟩, ?_, ?_, ?_⟩
  · exact h1
  · intro k
    rw [hc]
    split
    · exact List.Nodup.append (h2 ph) (List.nodup_singleton _)
        (by
          intro a ha hb
          rw [List.mem_singleton] at hb
          subst hb
          exact hnin ph ha)
    · exact h2 k
  · intro k1 k2 x a b
    rw [hc] at a b
    by_cases e1 : k1 = ph
    · by_cases e2 : k2 = ph
      · rw [e1, e2]
      · simp only [e1, if_true, List.mem_append, List.mem_singleton] at a
        simp only [e2, if_false] at b
        rcases a with a | a
        · rw [e1]; exact h3 ph k2 x a b
        · subst a
          exact absurd b (hnin k2)
    · by_cases e2 : k2 = ph
      · simp only [e1, if_false] at a
        simp only [e2, if_true, List.mem_append, List.mem_singleton] at b
        rcases b with b | b
        · rw [e2]; exact h3 k1 ph x a b
        · subst b
          exact absurd a (hnin k1)
      · simp only [e1, if_false] at a
        simp only [e2, if_false] at b
        exact h3 k1 k2 x a b
  · intro k m h a b
    exact Nat.lt_succ_of_lt (h4 k m h a b)
  · intro h a
    rcases Opus.isSome_push_new s ph id h a with r | r
    · rw [r]; exact Nat.lt_succ_self _
    · exact Nat.lt_succ_of_lt (h5 h r)
  · intro h x a
    rw [hc] at a
    have : x < s.fresh + 1 := by
      split at a
      · rw [List.mem_append, List.mem_singleton] at a
        rcases a with a | a
        · exact Nat.lt_succ_of_lt (h6 ph x a)
        · rw [a]; exact Nat.lt_succ_self _
      · exact Nat.lt_succ_of_lt (h6 h x a)
    exact this

/-- The move of the Op `h` from the children of `oh` to those of the live Op
`ph`. -/
theorem own_move {s : Opus} (hs : OwnOK s) {ph oh h : Nat} (hph : (s.ops ph).isSome = true)
    (hin : h ∈ s.op_children oh) : OwnOK ((s.push_back ph h).erase_slot oh h) := by
  obtain ⟨h1, ⟨h2, h3⟩, h4, h5, h6⟩ := hs
  have hc : ∀ k, ((s.push_back ph h).erase_slot oh h).op_children k =
      if k = ph then (s.op_children ph).erase h ++ [h]
      else if k = oh then (s.op_children oh).erase h else s.op_children k := by
    intro k
    rw [Opus.op_children_erase_slot, Opus.op_children_push_back, Opus.op_children_push_back]
    simp only [hph, and_true]
    by_cases e1 : k = ph
    · subst e1
      by_cases e2 : k = oh
      · subst e2
        simp only [if_true]
        exact List.erase_append_left _ hin
      · simp only [e2, if_false, if_true]
        have : h ∉ s.op_children k := fun hk => e2 (h3 k oh h hk hin)
        rw [List.erase_of_not_mem this]
    · by_cases e2 : k = oh
      · subst e2
        have e3 : ¬ (ph = k) := fun e => e1 e.symm
        simp [e1]
      · simp [e1, e2]
  have hmem : ∀ k x, x ∈ ((s.push_back ph h).erase_slot oh h).op_children k ↔
      (x ≠ h ∧ x ∈ s.op_children k) ∨ (x = h ∧ k = ph) := by
    intro k x
    rw [hc]
    by_cases e1 : k = ph
    · subst e1
      simp only [if_true, List.mem_append, List.mem_singleton, (h2 k).mem_erase_iff]
      tauto
    · by_cases e2 : k = oh
      · subst e2
        simp only [e1, if_false, if_true, (h2 k).mem_erase_iff]
        tauto
      · simp only [e1, e2, if_false]
        constructor
        · intro hx
          refine Or.inl ⟨fun e => ?_, hx⟩
          subst e
          exact e2 (h3 k oh x hx hin)
        · rintro (⟨_, hx⟩ | ⟨_, e⟩)
          · exact hx
          · exact e.elim
  refine ⟨h1, ⟨?_, ?_⟩, h4, ?_, ?_⟩
  · intro k
    rw [hc]
    split
    · refine List.Nodup.append ((h2 ph).erase h) (List.nodup_singleton _) ?_
      intro a ha hb
      rw [List.mem_singleton] at hb
      subst hb
      exact ((h2 ph).mem_erase_iff.mp ha).1 rfl
    · split
      · exact (h2 oh).erase h
      · exact h2 k
  · intro k1 k2 x a b
    rw [hmem] at a b
    rcases a with ⟨a1, a2⟩ | ⟨a1, a2⟩
    · rcases b with ⟨_, b2⟩ | ⟨b1, _⟩
      · exact h3 k1 k2 x a2 b2
      · exact absurd b1 a1
    · rcases b with ⟨b1, _⟩ | ⟨_, b2⟩
      · exact absurd a1 b1
      · rw [a2, b2]
  · intro k a
    rw [Opus.isSome_erase_slot, Opus.isSome_push_back] at a
    exact h5 k a
  · intro k x a
    rw [hmem] at a
    rcases a with ⟨_, a2⟩ | ⟨a1, _⟩
    · exact h6 k x a2
    · rw [a1]; exact h6 oh h hin

/-- The exchange of two Ops of the store. -/
theorem own_swap {s : Opus} (hs : OwnOK s) {x y : Nat} (hx : x < s.fresh) (hy : y < s.fresh) :
    OwnOK (s.swap x y) := by
  obtain ⟨h1, h23, h4, h5, h6⟩ := hs
  refine ⟨h1, Opus.storeOK_rename (swapId x y) (swapId_injective x y) rfl h23, h4, ?_, ?_⟩
  · intro k a
    apply h5 k
    have : ((s.swap x y).ops k).isSome = (s.ops k).isSome := by
      unfold Opus.swap
      cases hc : s.ops k <;> simp [hc]
    rw [← this]; exact a
  · intro k z a
    rw [Opus.op_children_swap, List.mem_map] at a
    obtain ⟨w, hw, rfl⟩ := a
    have := h6 k w hw
    unfold swapId
    split
    · exact hy
    · split
      · exact hx
      · exact this

end OwnOK

namespace DirtyOK

theorem dirty_of_meta_eq {s t : Opus} (hs : DirtyOK s) (hm : t.meta_ = s.meta_)
    (hd : t.dirty_ = s.dirty_) : DirtyOK t := by
  unfold DirtyOK at hs ⊢
  rw [hm, hd]
  exact hs

theorem dirty_set (t : Opus) (h : t.dirty_ = true) : DirtyOK t := Or.inl h

theorem dirty_modify {s : Opus} (hs : DirtyOK s) (id : Id) (f : op_meta → op_meta)
    (hf : ∀ e, (f e).children_dirty = true → e.children_dirty = true) :
    DirtyOK (s.modify id f) := by
  rcases hs with hs | hs
  · exact Or.inl (by simpa using hs)
  · right
    intro k m' a
    rw [Opus.find_modify] at a
    by_cases hk : k = id
    · subst hk
      simp only [if_true] at a
      cases hm : s.meta_.find k with
      | none => simp [hm] at a
      | some m =>
        simp only [hm, Option.map_some', Option.some.injEq] at a
        subst a
        have := hs k m hm
        cases hc : (f m).children_dirty with
        | false => rfl
        | true => rw [hf m hc] at this; exact this
    · simp only [hk, if_false] at a
      exact hs k m' a

theorem dirty_get_or_create_ {s : Opus} (hs : DirtyOK s) (id : Id) :
    DirtyOK (s.get_or_create_ id) := by
  unfold Opus.get_or_create_
  split
  · exact hs
  · exact Or.inl rfl

theorem dirty_emplace {s : Opus} (hs : DirtyOK s) (id : Id) :
    DirtyOK { s with meta_ := s.meta_.emplace id {} } := by
  rcases hs with hs | hs
  · exact Or.inl hs
  · right
    intro k m' a
    simp only [opus_map.find_emplace] at a
    cases hm : s.meta_.find k with
    | some m =>
      simp only [hm, Option.some.injEq] at a
      subst a
      exact hs k m hm
    | none =>
      simp only [hm] at a
      by_cases hk : k = id
      · simp [hk] at a
        subst a
        rfl
      · simp [hk] at a

theorem dirty_erase {s : Opus} (hs : DirtyOK s) (id : Id) :
    DirtyOK { s with meta_ := s.meta_.erase id } := by
  rcases hs with hs | hs
  · exact Or.inl hs
  · right
    intro k m' a
    simp only [opus_map.find_erase] at a
    by_cases hk : k = id
    · simp [hk] at a
    · simp only [hk, if_false] at a
      exact hs k m' a

end DirtyOK

namespace TreeOK

theorem tree_frame {s t : Opus} (hs : TreeOK s) (hm : t.meta_ = s.meta_)
    (hd : t.dirty_ = s.dirty_) (hf : t.fresh = s.fresh)
    (hc : ∀ h, (t.op_children h).Sublist (s.op_children h))
    (ha : ∀ h, (t.ops h).isSome = true → (s.ops h).isSome = true) : TreeOK t :=
  ⟨hs.1.own_frame (HandlesLE.hle_of_meta_eq hm) hc ha (le_of_eq hf.symm),
    hs.2.dirty_of_meta_eq hm hd⟩

theorem tree_modify {s : Opus} (hs : TreeOK s) (id : Id) (f : op_meta → op_meta)
    (hop : ∀ e, (f e).op = e.op ∨ (f e).op = none)
    (hfl : ∀ e, (f e).children_dirty = true → e.children_dirty = true) :
    TreeOK (s.modify id f) :=
  ⟨hs.1.own_meta (HandlesLE.hle_modify s id f hop) (by simp) (by simp),
    hs.2.dirty_modify id f hfl⟩

theorem tree_modify_dirty {s : Opus} (hs : TreeOK s) (id : Id) (f : op_meta → op_meta)
    (hop : ∀ e, (f e).op = e.op ∨ (f e).op = none) :
    TreeOK { s.modify id f with dirty_ := true } :=
  ⟨hs.1.own_meta (HandlesLE.hle_trans (HandlesLE.hle_modify s id f hop)
      (HandlesLE.hle_of_meta_eq rfl)) (by simp) (by simp), Or.inl rfl⟩

theorem tree_set_dirty {s : Opus} (hs : TreeOK s) : TreeOK { s with dirty_ := true } :=
  ⟨hs.1.own_meta (HandlesLE.hle_of_meta_eq rfl) rfl rfl, Or.inl rfl⟩

theorem tree_error {s : Opus} (hs : TreeOK s) (e : LogEntry) : TreeOK (s.error e) :=
  ⟨hs.1.own_meta (HandlesLE.hle_of_meta_eq rfl) rfl rfl, hs.2.dirty_of_meta_eq rfl rfl⟩

theorem tree_get_or_create_ {s : Opus} (hs : TreeOK s) (id : Id) :
    TreeOK (s.get_or_create_ id) :=
  ⟨hs.1.own_meta (HandlesLE.hle_get_or_create_ s id)
      (by unfold Opus.get_or_create_; split <;> rfl)
      (by unfold Opus.get_or_create_; split <;> rfl),
    hs.2.dirty_get_or_create_ id⟩

theorem tree_emplace {s : Opus} (hs : TreeOK s) (id : Id) :
    TreeOK { s with meta_ := s.meta_.emplace id {} } :=
  ⟨hs.1.own_meta (HandlesLE.hle_emplace s id) rfl rfl, hs.2.dirty_emplace id⟩

theorem tree_meta_erase {s : Opus} (hs : TreeOK s) (id : Id) :
    TreeOK { s with meta_ := s.meta_.erase id } :=
  ⟨hs.1.own_meta (HandlesLE.hle_erase s id) rfl rfl, hs.2.dirty_erase id⟩

theorem tree_push_new {s : Opus} (hs : TreeOK s) {ph : Nat} (hph : (s.ops ph).isSome = true)
    (id : Id) : TreeOK (s.push_new ph id) :=
  ⟨hs.1.own_push_new hph id, hs.2.dirty_of_meta_eq rfl rfl⟩

theorem tree_move {s : Opus} (hs : TreeOK s) {ph oh h : Nat} (hph : (s.ops ph).isSome = true)
    (hin : h ∈ s.op_children oh) : TreeOK ((s.push_back ph h).erase_slot oh h) :=
  ⟨hs.1.own_move hph hin, hs.2.dirty_of_meta_eq rfl rfl⟩

theorem tree_swap {s : Opus} (hs : TreeOK s) {x y : Nat} (hx : x < s.fresh) (hy : y < s.fresh) :
    TreeOK (s.swap x y) :=
  ⟨hs.1.own_swap hx hy, hs.2.dirty_of_meta_eq rfl rfl⟩

/-- Binding the unused handle `x` to the entry of `id`. -/
theorem tree_modify_bind {s : Opus} (hs : TreeOK s) (id : Id) (x : Nat) (hx : x < s.fresh)
    (hun : ∀ k m, s.meta_.find k = some m → m.op ≠ some x) :
    TreeOK (s.modify id (fun e => { e with op := some x })) := by
  refine ⟨hs.1.own_bind id x (by simp) (by simp) hx hun ?_,
    hs.2.dirty_modify id _ (fun e h => h)⟩
  intro k m' h a b
  rw [Opus.find_modify] at a
  by_cases hk : k = id
  · subst hk
    simp only [if_true] at a
    cases hm : s.meta_.find k with
    | none => simp [hm] at a
    | some m =>
      simp only [hm, Option.map_some', Option.some.injEq] at a
      subst a
      simp only [Option.some.injEq] at b
      exact Or.inl ⟨rfl, b.symm⟩
  · simp only [hk, if_false] at a
    exact Or.inr ⟨m', a, b⟩

/-- A handle not yet handed out is held by no entry. -/
theorem tree_unused {s : Opus} (hs : TreeOK s) {x : Nat} (hx : s.fresh ≤ x) :
    ∀ k m, s.meta_.find k = some m → m.op ≠ some x := by
  intro k m a b
  exact absurd (hs.1.2.2.1 k m x a b) (not_lt.mpr hx)

end TreeOK

namespace TreeOK

/-- A new entry for `id` bound to the unused handle `x`. -/
theorem tree_emplace_bind {s : Opus} (hs : TreeOK s) (id : Id) (x : Nat) (hx : x < s.fresh)
    (hun : ∀ k m, s.meta_.find k = some m → m.op ≠ some x) :
    TreeOK { s with meta_ := s.meta_.emplace id { op := some x } } := by
  refine ⟨hs.1.own_bind id x rfl rfl hx hun ?_, ?_⟩
  · intro k m' h a b
    simp only [opus_map.find_emplace] at a
    cases hm : s.meta_.find k with
    | some m =>
      simp only [hm, Option.some.injEq] at a
      subst a
      exact Or.inr ⟨m, rfl, b⟩
    | none =>
      simp only [hm] at a
      by_cases hk : k = id
      · simp only [hk, if_true, Option.some.injEq] at a
        subst a
        simp only [Option.some.injEq] at b
        exact Or.inl ⟨hk, b.symm⟩
      · simp [hk] at a
  · rcases hs.2 with h | h
    · exact Or.inl h
    · right
      intro k m' a
      simp only [opus_map.find_emplace] at a
      cases hm : s.meta_.find k with
      | some m =>
        simp only [hm, Option.some.injEq] at a
        subst a
        exact h k m hm
      | none =>
        simp only [hm] at a
        by_cases hk : k = id
        · simp only [hk, if_true, Option.some.injEq] at a
          subst a
          rfl
        · simp [hk] at a

end TreeOK

namespace Opus

theorem tree_get_or_create_with_op_ :
    ∀ (fuel : Nat) (s : Opus) (id : Id) (s1 : Opus),
      get_or_create_with_op_ fuel s id = some s1 → TreeOK s → TreeOK s1 := by
  intro fuel
  induction fuel with
  | zero => intro s id s1 h; simp [get_or_create_with_op_] at h
  | succ n ih =>
    intro s id s1 h hs
    unfold get_or_create_with_op_ at h
    cases hm : s.meta_.find id with
    | some m =>
      simp only [hm] at h
      cases hg : s.get m.op with
      | some x =>
        simp only [hg, Option.some.injEq] at h
        subst h
        exact hs
      | none =>
        simp only [hg] at h
        cases hr : get_or_create_with_op_ n s m.parent with
        | none => simp [hr] at h
        | some sA =>
          have hA := ih s m.parent sA hr hs
          simp only [hr] at h
          cases hp : sA.meta_.find m.parent with
          | none => simp [hp] at h
          | some p =>
            simp only [hp] at h
            cases hph : sA.get p.op with
            | none => simp [hph] at h
            | some ph =>
              simp only [hph, Option.some.injEq] at h
              subst h
              have h2 := hA.tree_push_new (get_eq_some hph).2 id
              have h3 := h2.tree_modify_bind id sA.fresh (by simp)
                (fun k m a => hA.tree_unused (le_refl _) k m a)
              exact h3.tree_modify_dirty m.parent _ (fun _ => Or.inl rfl)
    | none =>
      simp only [hm] at h
      cases hroot : s.ops s.root_ with
      | none => simp [hroot] at h
      | some c =>
        simp only [hroot, Option.some.injEq] at h
        subst h
        have h2 := hs.tree_push_new (by rw [hroot]; rfl : (s.ops s.root_).isSome = true) id
        have h3 := h2.tree_emplace_bind id s.fresh (by simp)
          (fun k m a => hs.tree_unused (le_refl _) k m a)
        exact (h3.tree_emplace 0).tree_set_dirty

theorem tree_move_slot_ {s s5 : Opus} {oh h ph : Nat} (hs5 : move_slot_ s oh h ph = some s5)
    (hs : TreeOK s) (hph : (s.ops ph).isSome = true) (hin : h ∈ s.op_children oh) :
    TreeOK s5 := by
  unfold move_slot_ at hs5
  by_cases e : ph = h
  · simp only [e, if_true] at hs5
    cases hc : s.ops h with
    | none => simp [hc] at hs5
    | some c =>
      simp only [hc] at hs5
      split at hs5
      · simp only [Option.some.injEq] at hs5
        subst hs5
        have h1 : ∀ k, ((s.erase_slot oh h).op_children k).Sublist (s.op_children k) := by
          intro k
          rw [op_children_erase_slot]
          split
          · rename_i e2; rw [e2]; exact List.erase_sublist _ _
          · exact List.Sublist.refl _
        refine hs.tree_frame rfl rfl rfl (fun k => ?_) (fun k a => ?_)
        · by_cases hk : k = h
          · unfold op_children
            simp [hk]
          · refine List.Sublist.trans ?_ (h1 k)
            unfold op_children
            simp only [hk, if_false]
            exact List.Sublist.refl _
        · rw [← isSome_erase_slot s oh h k]
          by_cases hk : k = h
          · simp [hk] at a
          · simpa [hk] using a
      · simp at hs5
  · simp only [e, if_false] at hs5
    split at hs5
    · simp at hs5
    · simp only [Option.some.injEq] at hs5
      subst hs5
      exact hs.tree_move hph hin

theorem tree_move_op_ {s s5 : Opus} {id old np : Id} (h : move_op_ s id old np = some s5)
    (hs : TreeOK s) : TreeOK s5 := by
  unfold move_op_ at h
  cases h1 : (s.meta_.find old).bind (fun e => s.get e.op) with
  | none => simp only [h1, Option.some.injEq] at h; subst h; exact hs
  | some oh =>
    simp only [h1] at h
    cases h2 : (s.meta_.find id).bind (fun e => s.get e.op) with
    | none => simp only [h2, Option.some.injEq] at h; subst h; exact hs
    | some x =>
      simp only [h2] at h
      cases hoc : s.ops oh with
      | none => simp [hoc] at h
      | some oc =>
        simp only [hoc] at h
        by_cases hin : x ∈ oc.children
        · simp only [hin, if_true] at h
          cases h3 : (s.meta_.find np).bind (fun e => s.get e.op) with
          | none => simp [h3] at h
          | some ph =>
            simp only [h3] at h
            have hph : (s.ops ph).isSome = true := by
              cases hn : s.meta_.find np with
              | none => simp [hn] at h3
              | some e =>
                simp only [hn, Option.some_bind] at h3
                exact (get_eq_some h3).2
            exact tree_move_slot_ h hs hph (by unfold op_children; simp [hoc, hin])
        · simp only [hin, if_false, Option.some.injEq] at h
          subst h
          exact (hs.tree_error _).tree_modify id _ (fun _ => Or.inr rfl) (fun _ h => h)

theorem tree_reparent_ {fuel : Nat} {s s' : Opus} {id np : Id}
    (h : reparent_ fuel s id np = some s') (hs : TreeOK s) : TreeOK s' := by
  unfold reparent_ at h
  cases hm : s.meta_.find id with
  | none => simp [hm] at h
  | some m =>
    simp only [hm] at h
    cases h1 : get_or_create_with_op_ fuel s np with
    | none => simp [h1] at h
    | some s1 =>
      simp only [h1] at h
      have t1 := tree_get_or_create_with_op_ fuel s np s1 h1 hs
      have t2 := t1.tree_get_or_create_ m.parent
      cases hop : (s1.get_or_create_ m.parent).meta_.find m.parent with
      | none => simp [hop] at h
      | some old_parent =>
        simp only [hop] at h
        have t3 : TreeOK (if id ∈ old_parent.children then
            (s1.get_or_create_ m.parent).modify m.parent
              (fun e => { e with children := e.children.erase id })
          else (s1.get_or_create_ m.parent).error
            (.id_not_found_in_old_parent id m.parent np)) := by
          split
          · exact t2.tree_modify _ _ (fun _ => Or.inl rfl) (fun _ h => h)
          · exact t2.tree_error _
        have t4 := t3.tree_modify_dirty np
          (fun e => { e with children := e.children ++ [id], children_dirty := true })
          (fun _ => Or.inl rfl)
        split at h
        · simp at h
        · rename_i s5 h5
          simp only [Option.some.injEq] at h
          subst h
          exact (tree_move_op_ h5 t4).tree_modify id _ (fun _ => Or.inl rfl) (fun _ h => h)

theorem tree_child_tail {fuel : Nat} {s s' : Opus} {p c : Id} {hp : Bool} {x : Nat}
    (h : child_tail fuel s p c hp = some (s', x)) (hs : TreeOK s) : TreeOK s' := by
  unfold child_tail at h
  cases h1 : (if hp = true then some s else get_or_create_with_op_ fuel s p) with
  | none => simp [h1] at h
  | some s1 =>
    simp only [h1] at h
    have t1 : TreeOK s1 := by
      cases hp with
      | true => simp only [if_true, Option.some.injEq] at h1; subst h1; exact hs
      | false =>
        simp only [Bool.false_eq_true, if_false] at h1
        exact tree_get_or_create_with_op_ fuel s p s1 h1 hs
    cases h2 : (s1.meta_.find p).bind (fun e => s1.get e.op) with
    | none => simp [h2] at h
    | some ph =>
      simp only [h2, Option.some.injEq, Prod.mk.injEq] at h
      obtain ⟨h, _⟩ := h
      subst h
      have hph : (s1.ops ph).isSome = true := by
        cases hn : s1.meta_.find p with
        | none => simp [hn] at h2
        | some e =>
          simp only [hn, Option.some_bind] at h2
          exact (get_eq_some h2).2
      have t2 := t1.tree_push_new hph c
      have t3 := t2.tree_modify_dirty p (fun e => { e with children_dirty := true })
        (fun _ => Or.inl rfl)
      refine t3.tree_modify_bind c s1.fresh (by simp) ?_
      intro k m a b
      have hle : HandlesLE s1 { (s1.push_new ph c).modify p
          (fun e => { e with children_dirty := true }) with dirty_ := true } :=
        HandlesLE.hle_trans
          (HandlesLE.hle_trans (@HandlesLE.hle_of_meta_eq s1 (s1.push_new ph c) rfl)
            (HandlesLE.hle_modify _ p (fun e => { e with children_dirty := true })
              (fun _ => Or.inl rfl)))
          (HandlesLE.hle_of_meta_eq rfl)
      obtain ⟨m0, a0, b0⟩ := hle k m s1.fresh a b
      exact t1.tree_unused (le_refl _) k m0 a0 b0

theorem tree_child_move_ {fuel : Nat} {s s1 : Opus} {p c : Id} {hp : Bool}
    (h : child_move_ fuel s p c = some (s1, hp)) (hs : TreeOK s) : TreeOK s1 := by
  unfold child_move_ at h
  split at h
  · cases hr : reparent_ fuel s c p with
    | none => simp [hr] at h
    | some s2 =>
      simp only [hr, Option.map_some', Option.some.injEq, Prod.mk.injEq] at h
      obtain ⟨h, _⟩ := h
      subst h
      exact tree_reparent_ hr hs
  · simp only [Option.some.injEq, Prod.mk.injEq] at h
    obtain ⟨h, _⟩ := h
    subst h
    exact hs

theorem tree_child_priority_ {fuel : Nat} {s s4 : Opus} {p c : Id} {prio : Int}
    {hp hp2 : Bool} (h : child_priority_ fuel s p c prio hp = some (s4, hp2))
    (hs : TreeOK s) : TreeOK s4 := by
  unfold child_priority_ at h
  split at h
  · have t2 := hs.tree_modify c (fun e => { e with priority := prio })
      (fun _ => Or.inl rfl) (fun _ h => h)
    cases h1 : (if hp = true then some (s.modify c (fun e => { e with priority := prio }))
        else get_or_create_with_op_ fuel (s.modify c (fun e => { e with priority := prio })) p) with
    | none => simp [h1] at h
    | some s3 =>
      simp only [h1, Option.some.injEq, Prod.mk.injEq] at h
      obtain ⟨h, _⟩ := h
      subst h
      have t3 : TreeOK s3 := by
        cases hp with
        | true => simp only [if_true, Option.some.injEq] at h1; subst h1; exact t2
        | false =>
          simp only [Bool.false_eq_true, if_false] at h1
          exact tree_get_or_create_with_op_ fuel _ p s3 h1 t2
      exact t3.tree_modify_dirty p _ (fun _ => Or.inl rfl)
  · simp only [Option.some.injEq, Prod.mk.injEq] at h
    obtain ⟨h, _⟩ := h
    subst h
    exact hs

theorem tree_child {fuel : Nat} {s s' : Opus} {p c : Id} {prio : Int} {x : Nat}
    (h : child fuel s p c prio = some (s', x)) (hs : TreeOK s) : TreeOK s' := by
  unfold child at h
  split at h
  · simp at h
  · cases hm : s.meta_.find c with
    | none =>
      simp only [hm] at h
      exact tree_child_tail h (hs.tree_emplace c)
    | some m =>
      simp only [hm] at h
      cases h1 : child_move_ fuel s p c with
      | none => simp [h1] at h
      | some r1 =>
        obtain ⟨s1, hp⟩ := r1
        simp only [h1] at h
        have t1 := tree_child_move_ h1 hs
        cases h2 : child_priority_ fuel s1 p c prio hp with
        | none => simp [h2] at h
        | some r2 =>
          obtain ⟨s4, hp2⟩ := r2
          simp only [h2] at h
          have t4 := tree_child_priority_ h2 t1
          cases h3 : (s4.meta_.find c).bind (fun e => s4.get e.op) with
          | some y =>
            simp only [h3, Option.some.injEq, Prod.mk.injEq] at h
            obtain ⟨h, _⟩ := h
            subst h
            exact t4
          | none =>
            simp only [h3] at h
            exact tree_child_tail h t4

theorem tree_before {fuel : Nat} {s s' : Opus} {sib c : Id} {d : Int} {x : Nat}
    (h : before fuel s sib c d = some (s', x)) (hs : TreeOK s) : TreeOK s' := by
  exact tree_child (before_child h) (hs.tree_get_or_create_ sib)

theorem tree_after {fuel : Nat} {s s' : Opus} {sib c : Id} {d : Int} {x : Nat}
    (h : after fuel s sib c d = some (s', x)) (hs : TreeOK s) : TreeOK s' := by
  exact tree_child (after_child h) (hs.tree_get_or_create_ sib)

theorem tree_set_parent {fuel : Nat} {s s' : Opus} {id np old : Id}
    (h : set_parent fuel s id np = some (s', old)) (hs : TreeOK s) : TreeOK s' := by
  unfold set_parent at h
  have t0 := hs.tree_get_or_create_ id
  by_cases hne : (s.get_or_create_ id).parent id = np
  · simp only [hne, ne_eq, not_true_eq_false, if_false, Option.some.injEq, Prod.mk.injEq] at h
    obtain ⟨rfl, _⟩ := h
    exact t0
  · simp only [hne, ne_eq, not_false_eq_true, if_true] at h
    cases hr : reparent_ fuel (s.get_or_create_ id) id np with
    | none => simp [hr] at h
    | some s2 =>
      simp only [hr, Option.map_some', Option.some.injEq, Prod.mk.injEq] at h
      obtain ⟨rfl, _⟩ := h
      exact tree_reparent_ hr t0

theorem tree_set_priority (s : Opus) (id : Id) (v : Int) (hs : TreeOK s) :
    TreeOK (set_priority s id v).1 := by
  unfold set_priority
  have t0 := hs.tree_get_or_create_ id
  by_cases hq : (s.get_or_create_ id).priority id = v
  · simp only [hq, ne_eq, not_true_eq_false, if_false]
    exact t0
  · simp only [hq, ne_eq, not_false_eq_true, if_true]
    have t1 := t0.tree_modify id (fun e => { e with priority := v })
      (fun _ => Or.inl rfl) (fun _ h => h)
    exact (t1.tree_get_or_create_ _).tree_modify_dirty _ _ (fun _ => Or.inl rfl)

theorem tree_index {fuel : Nat} {s s' : Opus} {id : Id} {x : Nat}
    (h : index fuel s id = some (s', x)) (hs : TreeOK s) : TreeOK s' := by
  unfold index at h
  cases h1 : get_or_create_with_op_ fuel s id with
  | none => simp [h1] at h
  | some s1 =>
    simp only [h1] at h
    cases h2 : s1.meta_.find id with
    | none => simp [h2] at h
    | some m =>
      simp only [h2] at h
      cases h3 : s1.get m.op with
      | none => simp [h3] at h
      | some y =>
        simp only [h3, Option.some.injEq, Prod.mk.injEq] at h
        obtain ⟨h, _⟩ := h
        subst h
        exact tree_get_or_create_with_op_ fuel s id s1 h1 hs

end Opus

namespace Opus

/-- The destruction of a child Op: `children.erase(it3)` on the vector of `ph`. -/
theorem tree_erase_destroy {s : Opus} (hs : TreeOK s) (ph h : Nat) (n : Nat)
    (o : Nat → Option OpCell) (ho : destroy n s.ops h = some o) :
    TreeOK (({ s with ops := o } : Opus).erase_slot ph h) := by
  have hle := destroy_le n s.ops h o ho
  have h0 : ∀ k, (({ s with ops := o } : Opus).op_children k).Sublist (s.op_children k) := by
    intro k
    unfold op_children
    rcases hle k with r | r
    · simp only [r]; exact List.Sublist.refl _
    · simp only [r]; exact List.nil_sublist _
  refine hs.tree_frame rfl rfl rfl (fun k => ?_) (fun k a => ?_)
  · refine List.Sublist.trans ?_ (h0 k)
    rw [op_children_erase_slot]
    split
    · rename_i e; rw [e]; exact List.erase_sublist _ _
    · exact List.Sublist.refl _
  · rw [isSome_erase_slot] at a
    rcases hle k with r | r
    · simp only [r] at a; exact a
    · simp only [r] at a; simp at a

theorem tree_erase_op_ {fuel : Nat} {s3 s4 : Opus} {id pid : Id}
    (h : erase_op_ fuel s3 id pid = some s4) (t3 : TreeOK s3) : TreeOK s4 := by
  unfold erase_op_ at h
  split at h
  · simp only [Option.some.injEq] at h; subst h; exact t3
  · split at h
    · simp only [Option.some.injEq] at h; subst h; exact t3
    · split at h
      · simp only [Option.some.injEq] at h; subst h; exact t3
      · split at h
        · split at h
          · simp at h
          · rename_i o ho
            simp only [Option.some.injEq] at h
            subst h
            exact tree_erase_destroy t3 _ _ _ o ho
        · simp only [Option.some.injEq] at h
          subst h
          exact (t3.tree_error _).tree_modify id _ (fun _ => Or.inr rfl) (fun _ h => h)

theorem tree_erase_self_ {fuel : Nat} {s1 s' : Opus} {id : Id}
    (h : erase_self_ fuel s1 id = some s') (hs : TreeOK s1) : TreeOK s' := by
  cases hm : s1.meta_.find id with
  | none => simp [erase_self_, hm] at h
  | some m =>
    have t2 := hs.tree_get_or_create_ m.parent
    cases hp : (s1.get_or_create_ m.parent).meta_.find m.parent with
    | none => simp [erase_self_, hm, hp] at h
    | some p =>
      obtain ⟨s3, hs3def⟩ : ∃ s3, s3 =
          (if id ∈ p.children then
            (s1.get_or_create_ m.parent).modify m.parent
              (fun e => { e with children := e.children.erase id })
          else
            (s1.get_or_create_ m.parent).error (.id_not_found_in_parent id m.parent)) :=
        ⟨_, rfl⟩
      have t3 : TreeOK s3 := by
        rw [hs3def]
        split
        · exact t2.tree_modify _ _ (fun _ => Or.inl rfl) (fun _ h => h)
        · exact t2.tree_error _
      unfold erase_self_ at h
      simp only [hm, hp] at h
      rw [← hs3def] at h
      cases h4 : erase_op_ fuel s3 id m.parent with
      | none => simp [h4] at h
      | some s4 =>
        simp only [h4, Option.some.injEq] at h
        subst h
        exact (tree_erase_op_ h4 t3).tree_meta_erase id

theorem tree_erase :
    ∀ fuel : Nat,
      (∀ s id s', erase fuel s id = some s' → TreeOK s → TreeOK s') ∧
      (∀ s id s', erase_children fuel s id = some s' → TreeOK s → TreeOK s') := by
  intro fuel
  induction fuel with
  | zero =>
    exact ⟨fun s id s' h => by simp [erase] at h, fun s id s' h => by simp [erase_children] at h⟩
  | succ n ih =>
    refine ⟨fun s id s' h hs => ?_, fun s id s' h hs => ?_⟩
    · unfold erase at h
      cases hm : s.meta_.find id with
      | none => simp only [hm, Option.some.injEq] at h; subst h; exact hs
      | some m =>
        simp only [hm] at h
        cases hc : erase_children n s id with
        | none => simp [hc] at h
        | some s1 =>
          simp only [hc] at h
          exact tree_erase_self_ h (ih.2 s id s1 hc hs)
    · unfold erase_children at h
      cases hm : s.meta_.find id with
      | none => simp [hm] at h
      | some m =>
        simp only [hm] at h
        cases hl : m.children.getLast? with
        | none => simp only [hl, Option.some.injEq] at h; subst h; exact hs
        | some c =>
          simp only [hl] at h
          cases he : erase n s c with
          | none => simp [he] at h
          | some s1 =>
            simp only [he] at h
            exact ih.2 s1 id s' h (ih.1 s c s1 he hs)

theorem own_lockstep : ∀ (kids : List Id) (s : Opus) (H i : Nat),
    OwnOK s → OwnOK (lockstep s H kids i) := by
  intro kids
  induction kids with
  | nil => intro s H i hs; simpa [lockstep] using hs
  | cons id rest ih =>
    intro s H i hs
    unfold lockstep
    cases hc : s.ops H with
    | none => exact hs
    | some c =>
      simp only
      cases hx : c.children.get? i with
      | none => exact hs
      | some x =>
        simp only
        cases hb : (s.meta_.find id).bind (fun e => s.get e.op) with
        | none => exact ih s H i hs
        | some y =>
          simp only
          apply ih
          apply hs.own_swap
          · apply hs.2.2.2.2 H x
            unfold op_children
            simp only [hc, Option.map_some', Option.getD_some]
            exact List.get?_mem hx
          · apply hs.2.2.2.1 y
            cases hn : s.meta_.find id with
            | none => simp [hn] at hb
            | some e =>
              simp only [hn, Option.some_bind] at hb
              exact (get_eq_some hb).2

theorem own_clean_meta {s : Opus} (hs : OwnOK s) (k : Id) : OwnOK (s.clean_meta k) := by
  unfold clean_meta
  cases hm : s.meta_.find k with
  | none => exact hs
  | some m =>
    simp only
    split
    · exact hs
    · refine OwnOK.own_meta ?_ (HandlesLE.hle_modify _ k _ (fun _ => Or.inl rfl))
        (by simp) (by simp)
      split
      · exact hs
      · apply own_lockstep
        exact hs.own_meta (HandlesLE.hle_modify s k _ (fun _ => Or.inl rfl)) (by simp) (by simp)

theorem clean_meta_dirty_ (s : Opus) (k : Id) : (s.clean_meta k).dirty_ = s.dirty_ := by
  unfold clean_meta
  cases hm : s.meta_.find k with
  | none => rfl
  | some m =>
    simp only
    split
    · rfl
    · rw [modify_dirty_]
      split
      · rfl
      · have : ∀ (kids : List Id) (t : Opus) (H i : Nat), (lockstep t H kids i).dirty_ = t.dirty_ := by
          intro kids
          induction kids with
          | nil => intro t H i; simp [lockstep]
          | cons id rest ih =>
            intro t H i
            unfold lockstep
            split
            · rfl
            · split
              · rfl
              · split
                · exact ih _ _ _
                · rw [ih]; rfl
        rw [this, modify_dirty_]

/-- After the loop of `clean_()` over the keys `ks`, an entry is dirty only if
it was and its key is not in `ks`. -/
theorem foldl_clean_flags : ∀ (ks : List Id) (t : Opus) (k : Id) (m' : op_meta),
    (ks.foldl clean_meta t).meta_.find k = some m' → m'.children_dirty = true →
      k ∉ ks ∧ ∃ m, t.meta_.find k = some m ∧ m.children_dirty = true := by
  intro ks
  induction ks with
  | nil => intro t k m' a b; exact ⟨by simp, m', a, b⟩
  | cons x rest ih =>
    intro t k m' a b
    rw [List.foldl_cons] at a
    obtain ⟨h1, m1, a1, b1⟩ := ih (t.clean_meta x) k m' a b
    rw [find_clean_meta] at a1
    by_cases hk : k = x
    · subst hk
      simp only [if_true] at a1
      cases hm : t.meta_.find k with
      | none => simp [hm] at a1
      | some m =>
        simp only [hm, Option.map_some', Option.some.injEq] at a1
        subst a1
        by_cases hd : m.children_dirty = true
        · simp [hd] at b1
        · simp only [hd, if_false] at b1
          exact absurd b1 hd
    · simp only [hk, if_false] at a1
      exact ⟨by simp [hk, h1], m1, a1, b1⟩

theorem tree_clean_ {s : Opus} (hs : TreeOK s) : TreeOK s.clean_ := by
  unfold clean_
  split
  · have hown : ∀ (ks : List Id) (t : Opus), OwnOK t → OwnOK (ks.foldl clean_meta t) := by
      intro ks
      induction ks with
      | nil => intro t ht; exact ht
      | cons x rest ih => intro t ht; exact ih _ (own_clean_meta ht x)
    refine ⟨(hown _ s hs.1).own_meta (HandlesLE.hle_of_meta_eq rfl) rfl rfl, Or.inr ?_⟩
    intro k m a
    cases hd : m.children_dirty with
    | false => rfl
    | true =>
      have := (foldl_clean_flags s.meta_.keys s k m a hd).1
      have hk : ((s.meta_.keys.foldl clean_meta s).meta_.find k).isSome = true := by
        rw [show (s.meta_.keys.foldl clean_meta s).meta_.find k = some m from a]; rfl
      obtain ⟨_, m0, a0, _⟩ := foldl_clean_flags s.meta_.keys s k m a hd
      exact absurd (mem_keys_of_find a0) this
  · exact hs

theorem tree_call {fuel : Nat} {s s' : Opus} {dt r : F64} {ev : List Event}
    (h : call fuel s dt = some (s', r, ev)) (hs : TreeOK s) : TreeOK s' := by
  unfold call at h
  have h1 : TreeOK (if s.dirty_ = true then s.clean_ else s) := by
    split
    · exact tree_clean_ hs
    · exact hs
  cases hr : reify fuel (if s.dirty_ = true then s.clean_ else s).ops
      (if s.dirty_ = true then s.clean_ else s).root_ with
  | none => simp [hr] at h
  | some root =>
    simp only [hr] at h
    cases hc : Op.call fuel root dt with
    | none => simp [hc] at h
    | some x =>
      obtain ⟨root', ev'⟩ := x
      simp only [hc, Option.some.injEq, Prod.mk.injEq] at h
      obtain ⟨rfl, _⟩ := h
      refine h1.tree_frame rfl rfl rfl (fun k => ?_) (fun k a => ?_)
      · rw [op_children_store]
      · have := get_store (if s.dirty_ = true then s.clean_ else s) root' (some k)
        unfold get at this
        simp only [a, if_true] at this
        by_contra hn
        simp [hn] at this

theorem tree_set_op {s : Opus} (hs : TreeOK s) (h : Nat) (r t : F64) (a : Action) :
    TreeOK (s.set_op h r t a) := by
  refine hs.tree_frame rfl rfl rfl (fun k => ?_) (fun k b => ?_)
  · unfold op_children set_op
    by_cases hk : k = h
    · subst hk
      cases hc : s.ops k <;> simp
    · simp [hk]
  · unfold set_op at b
    by_cases hk : k = h
    · subst hk
      cases hc : s.ops k <;> simp_all
    · simpa [hk] using b

theorem tree_new (op_gen : Id → GenOp) : TreeOK (Opus.new op_gen) := by
  refine ⟨⟨?_, ⟨?_, ?_⟩, ?_, ?_, ?_⟩, Or.inr ?_⟩
  · intro e1 e2 m1 m2 h a b _ _
    unfold Opus.new opus_map.find at a b
    simp only [opus_map.find] at a b
    have h1 : e1 = 0 := by by_contra hn; simp [Ne.symm hn] at a
    have h2 : e2 = 0 := by by_contra hn; simp [Ne.symm hn] at b
    rw [h1, h2]
  · intro h
    unfold op_children Opus.new
    by_cases hk : h = 0 <;> simp [hk]
  · intro h1 h2 x a
    unfold op_children Opus.new at a
    by_cases hk : h1 = 0 <;> simp [hk] at a
  · intro k m h a b
    unfold Opus.new opus_map.find at a
    simp only [opus_map.find] at a
    have hk : k = 0 := by by_contra hn; simp [Ne.symm hn] at a
    subst hk
    simp only [if_true, Option.some.injEq] at a
    subst a
    simp only [Option.some.injEq] at b
    subst b
    exact Nat.zero_lt_one
  · intro h a
    unfold Opus.new at a
    by_cases hk : h = 0
    · rw [hk]; exact Nat.zero_lt_one
    · simp [hk] at a
  · intro h x a
    unfold op_children Opus.new at a
    by_cases hk : h = 0 <;> simp [hk] at a
  · intro k m a
    unfold Opus.new opus_map.find at a
    simp only [opus_map.find] at a
    by_cases hk : 0 = k
    · simp only [hk, if_true, Option.some.injEq] at a
      subst a
      rfl
    · simp [hk] at a

end Opus

/-- Every state of a tree keeps the ownership invariant and the cover of the
entries' flags by `dirty_`. -/
theorem Reachable.reach_treeOK {s : Opus} (h : Reachable s) : TreeOK s := by
  induction h with
  | new op_gen => exact Opus.tree_new op_gen
  | index fuel id x _ h ih => exact Opus.tree_index h ih
  | child fuel p c prio x _ h ih => exact Opus.tree_child h ih
  | before fuel sib c d x _ h ih => exact Opus.tree_before h ih
  | after fuel sib c d x _ h ih => exact Opus.tree_after h ih
  | set_parent fuel c np old _ h ih => exact Opus.tree_set_parent h ih
  | set_priority id v _ ih => exact Opus.tree_set_priority _ id v ih
  | erase fuel id _ h ih => exact (Opus.tree_erase fuel).1 _ id _ h ih
  | call fuel dt r ev _ h ih => exact Opus.tree_call h ih
  | set_op x r t a _ ih => exact Opus.tree_set_op ih x r t a

/-! ### C7: reconciliation -/

namespace Opus

end Opus

/-- C11: in every state a tree reaches from its construction by index access,
`child`, `before`, `after`, `parent(Id, Id)`, `priority(Id, I32)`, `erase` and
ticks, an identifier `c` in the child list of an entry `e` has an entry of its
own, whose parent is `e`; it occurs once in the list of `e` and in the list of
no other entry. -/
theorem metadata_parent_child_invariant (s : Opus) (hs : Reachable s) (e c : Id)
    (hc : c ∈ s.iterate e) :
    s.exists_id c = true ∧ s.parent c = e ∧ (s.iterate e).count c = 1 ∧
      ∀ e', c ∈ s.iterate e' → e' = e := by
  have hL := hs.reach_listsOK
  refine ⟨((hL e).2 c hc).2, ((hL e).2 c hc).1, List.count_eq_one_of_mem (hL e).1 hc, ?_⟩
  intro e' hc'
  rw [← ((hL e).2 c hc).1, ((hL e').2 c hc').1]

/-- C11, witness: after `parent(1, 2)` on a fresh tree the list of 2 holds 1,
whose entry has parent 2. -/
theorem metadata_parent_child_invariant_witness :
    ∃ s, Opus.set_parent 5 (Opus.new default_op_generator) 1 2 = some (s, 0) ∧
      1 ∈ s.iterate 2 ∧ s.exists_id 1 = true ∧ s.parent 1 = 2 ∧ (s.iterate 2).count 1 = 1 := by
  have h0 : (Opus.set_parent 5 (Opus.new default_op_generator) 1 2).map (fun r => r.2)
      = some 0 := by decide
  cases h : Opus.set_parent 5 (Opus.new default_op_generator) 1 2 with
  | none => rw [h] at h0; simp at h0
  | some r =>
    obtain ⟨s, o⟩ := r
    rw [h] at h0
    simp only [Option.map_some', Option.some.injEq] at h0
    subst h0
    have hr : Reachable s := Reachable.set_parent 5 1 2 0 (Reachable.new _) h
    have hi2 : s.iterate 2 = [1] := by
      have : (Opus.set_parent 5 (Opus.new default_op_generator) 1 2).map
          (fun r => r.1.iterate 2) = some [1] := by decide
      rw [h] at this; simpa using this
    have hm : 1 ∈ s.iterate 2 := by rw [hi2]; simp
    obtain ⟨a, b, c, _⟩ := metadata_parent_child_invariant s hr 2 1 hm
    exact ⟨s, rfl, hm, a, b, c⟩

/-! ### C15: reads of a missing entry -/

/-- C15: for an identifier without an entry, `parent(id) const` returns the
default identifier and `priority(id) const` returns 0. Both are `const` member
functions that only look `id` up: they return a value and leave the tree as it
is, so `exists(id)` is still false and no flag changes. -/
theorem read_of_missing_entry (s : Opus) (id : Id) (h : s.exists_id id = false) :
    s.parent id = 0 ∧ s.priority id = 0 := by
  unfold Opus.exists_id at h
  have hn : s.meta_.find id = none := by
    cases hf : s.meta_.find id with
    | none => rfl
    | some m => rw [hf] at h; simp at h
  simp [Opus.parent, Opus.priority, hn]

/-- C15, witness: on a fresh tree the identifier 5 has no entry; its parent
reads as 0 and its priority as 0. -/
theorem read_of_missing_entry_witness :
    (Opus.new default_op_generator).exists_id 5 = false ∧
      (Opus.new default_op_generator).parent 5 = 0 ∧
      (Opus.new default_op_generator).priority 5 = 0 :=
  ⟨by decide, read_of_missing_entry (Opus.new default_op_generator) 5 (by decide)⟩

/-! ### C19: reconciliation twice -/

/-- C19: `clean_()` twice in a row is `clean_()` once: the second run finds
`dirty_` cleared and changes nothing, so every child list and every children
vector is as the first run left it. The same holds for `clean_(op_meta&)` on
one entry, whose second run finds `children_dirty` cleared. -/
theorem clean_idempotent (s : Opus) :
    s.clean_.clean_ = s.clean_ ∧
      (∀ e, s.clean_.clean_.iterate e = s.clean_.iterate e) ∧
      (∀ h, s.clean_.clean_.op_children h = s.clean_.op_children h) ∧
      ∀ k, (s.clean_meta k).clean_meta k = s.clean_meta k := by
  have h1 : s.clean_.clean_ = s.clean_ := by
    unfold Opus.clean_
    by_cases hd : s.dirty_ = true
    · simp [hd]
    · simp [hd]
  refine ⟨h1, fun e => by rw [h1], fun h => by rw [h1], fun k => ?_⟩
  cases hm : (s.clean_meta k).meta_.find k with
  | none =>
    generalize s.clean_meta k = t at hm ⊢
    unfold Opus.clean_meta
    simp only [hm]
  | some m' =>
    have hfl : m'.children_dirty = false := by
      rw [Opus.find_clean_meta] at hm
      simp only [if_true] at hm
      cases h0 : s.meta_.find k with
      | none => simp [h0] at hm
      | some m =>
        simp only [h0, Option.map_some', Option.some.injEq] at hm
        subst hm
        by_cases hd : m.children_dirty = true
        · simp [hd]
        · simp only [hd, if_false]
          simpa using hd
    exact Opus.clean_meta_not_dirty hm hfl

/-! ### C13: the value a tick returns -/

theorem staticSetLoop_eq (call : Op → F64 → Option (Op × List Event)) (d : F64) :
    ∀ kids : List Op, (∀ c ∈ kids, (call c d).isSome) →
      staticSetLoop call d kids =
        some (kids.map (fun c => ((call c d).map Prod.fst).getD c),
          kids.flatMap (fun c => ((call c d).map Prod.snd).getD [])) := by
  intro kids
  induction kids with
  | nil => intro _; simp [staticSetLoop]
  | cons op rest ih =>
    intro h
    have ih' := ih (fun c hc => h c (List.mem_cons_of_mem _ hc))
    obtain ⟨r, hr⟩ := Option.isSome_iff_exists.mp (h op (List.mem_cons_self _ _))
    simp [staticSetLoop, hr, ih']

/-- C18: a call of `StaticSet` with delta `d`, when the calls of the children
return: every child is called once, in sequence order and with `d`, whatever
its `remaining` is (the trace is the concatenation of the traces of the calls
of all children, each starting with its own `op handle d`); `remaining` and
`total` of the container and the delta are as before the call. -/
theorem StaticSet_call_spec (fuel : Nat) (data : OpData) (d : F64)
    (hret : ∀ c ∈ data.children, (Op.call fuel c d).isSome) :
    ∃ kids ev,
      Action.call (fuel + 1) Action.StaticSet data d
          = some (Action.StaticSet,
              { remaining := data.remaining, total := data.total, action := data.action,
                children := kids }, d, ev)
      ∧ kids = data.children.map (fun c => ((Op.call fuel c d).map Prod.fst).getD c)
      ∧ ev = data.children.flatMap (fun c => ((Op.call fuel c d).map Prod.snd).getD [])
      ∧ (∀ c ∈ data.children, ∃ x e, Op.call fuel c d = some x ∧
          x.2 = Event.op c.handle d :: e) := by
  have hl := staticSetLoop_eq (Op.call fuel) d data.children hret
  refine ⟨_, _, ?_, rfl, rfl, ?_⟩
  · simp only [Action.call, hl]
  · intro c hc
    obtain ⟨x, hx⟩ := Option.isSome_iff_exists.mp (hret c hc)
    obtain ⟨e, he⟩ := Op.call_trace_head fuel c d x hx
    exact ⟨x, e, hx, he⟩

/-- C18, witness: a StaticSet over a finished child and an unfinished one, with
delta 1: both are called, in order, each with 1, and `remaining` of the
container stays `-1`. -/
theorem StaticSet_call_spec_witness :
    ∃ kids ev,
      Action.call 3 Action.StaticSet set_data 1
          = some (Action.StaticSet,
              { remaining := -1, total := 0, action := Action.Set, children := kids }, 1, ev)
      ∧ ev = [Event.op 1 1, Event.func 1 1, Event.op 2 1, Event.func 2 1] := by
  have hret : ∀ c ∈ set_data.children, (Op.call 2 c 1).isSome := by
    intro c hc
    simp only [set_data, List.mem_cons, List.mem_singleton, List.not_mem_nil, or_false] at hc
    rcases hc with rfl | rfl <;> simp [Op.call, Action.call, Op.action]
  obtain ⟨kids, ev, h1, _, h3, _⟩ := StaticSet_call_spec 2 set_data 1 hret
  refine ⟨kids, ev, h1, ?_⟩
  rw [h3]
  simp [set_data, Op.call, Action.call, Op.action, Op.handle]

/-! ### C14: `priority(Id, I32)` -/

namespace Opus

theorem get_or_create_of_exists {s : Opus} {id : Id} (h : s.exists_id id = true) :
    s.get_or_create_ id = s := by
  obtain ⟨m, hm⟩ := Option.isSome_iff_exists.mp h
  unfold get_or_create_
  simp [hm]

theorem get_or_create_of_not_exists {s : Opus} {id : Id} (h : s.exists_id id = false) :
    (s.get_or_create_ id).dirty_ = true ∧
      (s.get_or_create_ id).meta_ = (s.meta_.emplace id {}).emplace 0 {} := by
  have hn : s.meta_.find id = none := by
    cases hf : s.meta_.find id with
    | none => rfl
    | some m => unfold exists_id at h; rw [hf] at h; simp at h
  unfold get_or_create_
  simp [hn]

theorem exists_get_or_create_ (s : Opus) (id : Id) : (s.get_or_create_ id).exists_id id = true := by
  rw [exists_id_eq, find_get_or_create_]
  cases h : s.meta_.find id <;> simp

end Opus

/-- C14 (amended): `priority(id, v)` returns the priority `id` had before (0
without an entry) and leaves `priority(id) = v` and `parent(id)` as it was.
When `v` differs from the previous priority, the flag `children_dirty` of the
parent's entry and `dirty_` are set. When `v` is the previous priority and `id`
has an entry, the tree is left as it was. When `id` has no entry, the entry is
created and `dirty_` is set, also for `v = 0`. -/
theorem set_priority_spec (s : Opus) (id : Id) (v : Int) :
    (s.set_priority id v).2 = s.priority id ∧
      (s.set_priority id v).1.priority id = v ∧
      (s.set_priority id v).1.parent id = s.parent id ∧
      (v ≠ s.priority id →
        (s.set_priority id v).1.dirty_ = true ∧
          ∃ m', (s.set_priority id v).1.meta_.find (s.parent id) = some m' ∧
            m'.children_dirty = true) ∧
      (v = s.priority id → s.exists_id id = true → (s.set_priority id v).1 = s) ∧
      (s.exists_id id = false →
        (s.set_priority id v).1.exists_id id = true ∧ (s.set_priority id v).1.dirty_ = true) := by
  have hext := MetaExt.ext_get_or_create_ s id
  have hp0 : (s.get_or_create_ id).priority id = s.priority id := hext.ext_priority_eq id
  have hpar0 : (s.get_or_create_ id).parent id = s.parent id := hext.ext_parent_eq id
  obtain ⟨m0, hm0⟩ := Option.isSome_iff_exists.mp (Opus.exists_get_or_create_ s id)
  have hm0p : m0.priority = s.priority id := by
    rw [← hp0, Opus.priority_eq, hm0]; rfl
  have hm0q : m0.parent = s.parent id := by
    rw [← hpar0, Opus.parent_eq, hm0]; rfl
  by_cases hq : (s.get_or_create_ id).priority id = v
  · have hv : v = s.priority id := by rw [← hq, hp0]
    have hres : s.set_priority id v = (s.get_or_create_ id, (s.get_or_create_ id).priority id) := by
      unfold Opus.set_priority
      simp only [hq, ne_eq, not_true_eq_false, if_false]
    rw [hres]
    refine ⟨hp0, hq, hpar0, fun hne => absurd hv hne, fun _ hex => ?_, fun hex => ?_⟩
    · exact Opus.get_or_create_of_exists hex
    · exact ⟨Opus.exists_get_or_create_ s id, (Opus.get_or_create_of_not_exists hex).1⟩
  · have hv : v ≠ s.priority id := by
      intro h
      exact hq (by rw [hp0, h])
    have hpar1 : ((s.get_or_create_ id).modify id (fun e => { e with priority := v })).parent id
        = s.parent id := by
      rw [Opus.parent_eq, Opus.find_modify]
      simp only [if_true, hm0, Option.map_some', Option.getD_some]
      exact hm0q
    have hpri1 : ((s.get_or_create_ id).modify id (fun e => { e with priority := v })).priority id
        = v := by
      rw [Opus.priority_eq, Opus.find_modify]
      simp only [if_true, hm0, Option.map_some', Option.getD_some]
    have hres : s.set_priority id v =
        ({ (((s.get_or_create_ id).modify id (fun e => { e with priority := v })).get_or_create_
              (s.parent id)).modify (s.parent id) (fun e => { e with children_dirty := true })
            with dirty_ := true }, s.priority id) := by
      unfold Opus.set_priority
      simp only [hq, ne_eq, not_false_eq_true, if_true]
      rw [hpar1, hp0]
    rw [hres]
    have e2 := MetaExt.ext_get_or_create_
      ((s.get_or_create_ id).modify id (fun e => { e with priority := v })) (s.parent id)
    have e3 := MetaExt.ext_modify
      (((s.get_or_create_ id).modify id (fun e => { e with priority := v })).get_or_create_
        (s.parent id)) (s.parent id) (fun e => { e with children_dirty := true })
      (fun _ => ⟨rfl, rfl, rfl⟩)
    have e23 := e2.ext_trans e3
    obtain ⟨mp, hmp⟩ := Option.isSome_iff_exists.mp (Opus.exists_get_or_create_
      ((s.get_or_create_ id).modify id (fun e => { e with priority := v })) (s.parent id))
    obtain ⟨m1, hm1⟩ : ∃ m1, ((s.get_or_create_ id).modify id
        (fun e => { e with priority := v })).meta_.find id = some m1 := by
      rw [Opus.find_modify]
      simp [hm0]
    refine ⟨rfl, ?_, ?_, fun _ => ⟨rfl, ?_⟩, fun h => absurd h hv, fun _ => ⟨?_, rfl⟩⟩
    · exact (e23.ext_priority_eq id).trans hpri1
    · exact (e23.ext_parent_eq id).trans hpar1
    · refine ⟨{ mp with children_dirty := true }, ?_, rfl⟩
      show (Opus.meta_ (Opus.modify _ (s.parent id) _)).find (s.parent id) = _
      rw [Opus.find_modify, if_pos rfl, hmp]
      rfl
    · obtain ⟨w', hw', _⟩ := e23.ext_find_some hm1
      rw [Opus.exists_id_eq]
      show ((Opus.meta_ (Opus.modify _ (s.parent id) _)).find id).isSome = true
      rw [hw']
      rfl

/-- C14, witness: on a fresh tree `priority(1, 7)` returns 0, leaves
`priority(1) = 7` and sets `dirty_` and the flag of the root entry. -/
theorem set_priority_spec_witness :
    ((Opus.new default_op_generator).set_priority 1 7).2 = 0 ∧
      ((Opus.new default_op_generator).set_priority 1 7).1.priority 1 = 7 ∧
      ((Opus.new default_op_generator).set_priority 1 7).1.dirty_ = true ∧
      ∃ m', ((Opus.new default_op_generator).set_priority 1 7).1.meta_.find 0 = some m' ∧
        m'.children_dirty = true := by
  obtain ⟨h1, h2, _, h4, _, _⟩ := set_priority_spec (Opus.new default_op_generator) 1 7
  have hp : (Opus.new default_op_generator).priority 1 = 0 := by decide
  have hq : (Opus.new default_op_generator).parent 1 = 0 := by decide
  rw [hp] at h1
  obtain ⟨h5, h6⟩ := h4 (by rw [hp]; decide)
  rw [hq] at h6
  exact ⟨h1, h2, h5, h6⟩

/-- C14, counterexample: on a fresh tree, which is not dirty, the identifier 5
has no entry and reads priority 0; `priority(5, 0)` writes the value it had and
yet leaves `dirty_` set. -/
theorem set_priority_same_value_sets_dirty :
    (Opus.new default_op_generator).dirty_ = false ∧
      (Opus.new default_op_generator).priority 5 = 0 ∧
      ((Opus.new default_op_generator).set_priority 5 0).2 = 0 ∧
      ((Opus.new default_op_generator).set_priority 5 0).1.dirty_ = true := by
  decide

/-! ### C16, C17: entries made by index access and by `before` / `after` -/

/-- C16 (as the code behaves): on a fresh tree, index access `[1]` makes the
entry of 1 with the root as parent and returns a live Op (identity 1), the new
last child of the root Op; `dirty_` is set. But the child list of the root
entry stays empty and its flag `children_dirty` stays clear: the statement
`op_meta rootMeta = meta_[Id()]` copies the root entry, and the `push_back` and
the flag go to the copy. -/
theorem index_new_entry_not_listed_under_root :
    ((Opus.index 5 (Opus.new default_op_generator) 1).map fun r =>
        (r.1.exists_id 1, r.1.parent 1, r.2, r.1.get (some r.2)))
      = some (true, 0, 1, some 1)
    ∧ ((Opus.index 5 (Opus.new default_op_generator) 1).map fun r =>
        (r.1.root_, r.1.op_children r.1.root_, r.1.dirty_))
      = some (0, [1], true)
    ∧ ((Opus.index 5 (Opus.new default_op_generator) 1).map fun r =>
        (r.1.iterate 0, (r.1.meta_.find 0).map (fun e => e.children_dirty)))
      = some ([], some false) := by
  decide

/-- C17 (as the code behaves): on a fresh tree after `parent(1, 9)` the sibling
1 has parent 9 and priority 0. `before(1, 2, 3)` for the new identifier 2
leaves `parent(2) = 0` and `priority(2) = 0`, and `after(1, 2, 3)` does the
same; the claim gives parent 9 and priority 3 and -3. When 2 has an entry
before the call (made by `[2]`), the same calls store parent 9 and priority 3
and -3. The sibling keeps its parent and priority in all four runs. -/
theorem before_after_new_entry_drops_parent_and_priority :
    ((Opus.set_parent 5 (Opus.new default_op_generator) 1 9).map fun r1 =>
        (r1.1.parent 1, r1.1.priority 1, r1.1.exists_id 2))
      = some (9, 0, false)
    ∧ ((Opus.set_parent 5 (Opus.new default_op_generator) 1 9).bind fun r1 =>
        (Opus.before 5 r1.1 1 2 3).map fun r =>
          (r.1.parent 2, r.1.priority 2, r.1.parent 1, r.1.priority 1))
      = some (0, 0, 9, 0)
    ∧ ((Opus.set_parent 5 (Opus.new default_op_generator) 1 9).bind fun r1 =>
        (Opus.after 5 r1.1 1 2 3).map fun r =>
          (r.1.parent 2, r.1.priority 2, r.1.parent 1, r.1.priority 1))
      = some (0, 0, 9, 0)
    ∧ ((Opus.set_parent 5 (Opus.new default_op_generator) 1 9).bind fun r1 =>
        (Opus.index 5 r1.1 2).bind fun r2 =>
          (Opus.before 5 r2.1 1 2 3).map fun r =>
            (r.1.parent 2, r.1.priority 2, r.1.parent 1, r.1.priority 1))
      = some (9, 3, 9, 0)
    ∧ ((Opus.set_parent 5 (Opus.new default_op_generator) 1 9).bind fun r1 =>
        (Opus.index 5 r1.1 2).bind fun r2 =>
          (Opus.after 5 r2.1 1 2 3).map fun r =>
            (r.1.parent 2, r.1.priority 2, r.1.parent 1, r.1.priority 1))
      = some (9, -3, 9, 0) := by
  decide

/-! ### C12: the root entry -/

namespace Opus

theorem reparent_exists {fuel : Nat} {s s' : Opus} {id np : Id}
    (h : reparent_ fuel s id np = some s') (hne : s.parent id ≠ np) :
    ∀ k, s.exists_id k = true → s'.exists_id k = true := by
  obtain ⟨⟨m, hm⟩, hret⟩ := reparent_ret h
  have hpar : s.parent id = m.parent := by simp [parent_eq, hm]
  obtain ⟨s'', hs'', _, _, _, _, _, _, _, _, hex⟩ :=
    reparent_spec fuel s id np m hm (by rw [← hpar]; exact hne) (by rw [h]; rfl)
  rw [h] at hs''
  cases hs''
  exact hex

theorem child_move_exists {fuel : Nat} {s s1 : Opus} {p c : Id} {hp : Bool}
    (h : child_move_ fuel s p c = some (s1, hp)) :
    ∀ k, s.exists_id k = true → s1.exists_id k = true := by
  unfold child_move_ at h
  by_cases hne : s.parent c = p
  · simp only [hne, ne_eq, not_true_eq_false, if_false, Option.some.injEq, Prod.mk.injEq] at h
    obtain ⟨rfl, _⟩ := h
    exact fun _ hk => hk
  · simp only [hne, ne_eq, not_false_eq_true, if_true] at h
    cases hr : reparent_ fuel s c p with
    | none => simp [hr] at h
    | some s2 =>
      simp only [hr, Option.map_some', Option.some.injEq, Prod.mk.injEq] at h
      obtain ⟨rfl, _⟩ := h
      exact reparent_exists hr hne

theorem child_exists {fuel : Nat} {s s' : Opus} {p c : Id} {prio : Int} {x : Nat}
    (h : child fuel s p c prio = some (s', x)) :
    ∀ k, s.exists_id k = true → s'.exists_id k = true := by
  unfold child at h
  by_cases hz : c = 0
  · simp [hz] at h
  · simp only [hz, if_false] at h
    cases hm : s.meta_.find c with
    | none =>
      simp only [hm] at h
      intro k hk
      exact (child_tail_sameTree h).2.2 k ((emplace_sameTree s c).2.2 k hk)
    | some m =>
      simp only [hm] at h
      cases h1 : child_move_ fuel s p c with
      | none => simp [h1] at h
      | some r1 =>
        obtain ⟨s1, hp⟩ := r1
        simp only [h1] at h
        cases h2 : child_priority_ fuel s1 p c prio hp with
        | none => simp [h2] at h
        | some r2 =>
          obtain ⟨s4, hp2⟩ := r2
          simp only [h2] at h
          have e4 : ∀ k, s.exists_id k = true → s4.exists_id k = true := fun k hk =>
            (child_priority_sameTree h2).2.2 k (child_move_exists h1 k hk)
          cases h3 : (s4.meta_.find c).bind (fun e => s4.get e.op) with
          | some y =>
            simp only [h3, Option.some.injEq, Prod.mk.injEq] at h
            obtain ⟨rfl, _⟩ := h
            exact e4
          | none =>
            simp only [h3] at h
            exact fun k hk => (child_tail_sameTree h).2.2 k (e4 k hk)

theorem before_exists {fuel : Nat} {s s' : Opus} {sib c : Id} {d : Int} {x : Nat}
    (h : before fuel s sib c d = some (s', x)) :
    ∀ k, s.exists_id k = true → s'.exists_id k = true := by
  exact fun k hk => child_exists (before_child h) k ((get_or_create_sameTree s sib).2.2 k hk)

theorem after_exists {fuel : Nat} {s s' : Opus} {sib c : Id} {d : Int} {x : Nat}
    (h : after fuel s sib c d = some (s', x)) :
    ∀ k, s.exists_id k = true → s'.exists_id k = true := by
  exact fun k hk => child_exists (after_child h) k ((get_or_create_sameTree s sib).2.2 k hk)

theorem set_parent_exists {fuel : Nat} {s s' : Opus} {id np old : Id}
    (h : set_parent fuel s id np = some (s', old)) :
    ∀ k, s.exists_id k = true → s'.exists_id k = true := by
  unfold set_parent at h
  have e0 := (get_or_create_sameTree s id).2.2
  by_cases hne : (s.get_or_create_ id).parent id = np
  · simp only [hne, ne_eq, not_true_eq_false, if_false, Option.some.injEq, Prod.mk.injEq] at h
    obtain ⟨rfl, _⟩ := h
    exact e0
  · simp only [hne, ne_eq, not_false_eq_true, if_true] at h
    cases hr : reparent_ fuel (s.get_or_create_ id) id np with
    | none => simp [hr] at h
    | some s1 =>
      simp only [hr, Option.map_some', Option.some.injEq, Prod.mk.injEq] at h
      obtain ⟨rfl, _⟩ := h
      exact fun k hk => reparent_exists hr hne k (e0 k hk)

theorem clean_meta_exists (t : Opus) (k j : Id) :
    (t.clean_meta k).exists_id j = t.exists_id j := by
  have h := congrArg Option.isSome (find_op_clean_meta t k j)
  simpa [exists_id] using h

theorem clean_exists (s : Opus) (j : Id) : s.clean_.exists_id j = s.exists_id j := by
  have hf : ∀ (ks : List Id) (t : Opus), (ks.foldl clean_meta t).exists_id j = t.exists_id j := by
    intro ks
    induction ks with
    | nil => intro t; rfl
    | cons x rest ih => intro t; rw [List.foldl_cons, ih, clean_meta_exists]
  unfold clean_
  split
  · exact hf _ s
  · rfl

theorem call_exists {fuel : Nat} {s s' : Opus} {dt r : F64} {ev : List Event}
    (h : call fuel s dt = some (s', r, ev)) (j : Id) : s'.exists_id j = s.exists_id j := by
  unfold call at h
  have h1 : (if s.dirty_ = true then s.clean_ else s).exists_id j = s.exists_id j := by
    split
    · exact clean_exists s j
    · rfl
  cases hr : reify fuel (if s.dirty_ = true then s.clean_ else s).ops
      (if s.dirty_ = true then s.clean_ else s).root_ with
  | none => simp [hr] at h
  | some root =>
    simp only [hr] at h
    cases hc : Op.call fuel root dt with
    | none => simp [hc] at h
    | some x =>
      obtain ⟨root', ev'⟩ := x
      simp only [hc, Option.some.injEq, Prod.mk.injEq] at h
      obtain ⟨rfl, _⟩ := h
      exact h1

end Opus

theorem Desc.desc_mono {s t : Opus} (h : ∀ e, t.iterate e ⊆ s.iterate e) {a b : Id}
    (hd : Desc t a b) : Desc s a b := by
  induction hd with
  | refl => exact Desc.refl a
  | step _ hc ih => exact Desc.step ih (h _ hc)

namespace Opus

theorem erase_self_keeps {fuel : Nat} {s1 s' : Opus} {id : Id}
    (h : erase_self_ fuel s1 id = some s') :
    (∀ e, s'.iterate e ⊆ s1.iterate e) ∧
      ∀ k, k ≠ id → s1.exists_id k = true → s'.exists_id k = true := by
  cases hm : s1.meta_.find id with
  | none => simp [erase_self_, hm] at h
  | some m =>
    obtain ⟨s'', hs'', hex, _, _, hit, hitid, _⟩ :=
      erase_self_spec fuel s1 id m hm (by rw [h]; rfl)
    rw [h] at hs''
    cases hs''
    refine ⟨fun e => ?_, fun k hk hk1 => ?_⟩
    · by_cases he : e = id
      · rw [he, hitid]
        exact List.nil_subset _
      · rw [hit e he]
        split
        · exact (List.erase_sublist _ _).subset
        · exact List.Subset.refl _
    · rw [hex k]
      simp [hk, (get_or_create_sameTree s1 m.parent).2.2 k hk1]

/-- A returning `erase(id)` adds nothing to a child list and erases no entry but
those of `id` and of the identifiers below it. -/
theorem erase_keeps :
    ∀ fuel : Nat,
      (∀ s id s', erase fuel s id = some s' →
        (∀ e, s'.iterate e ⊆ s.iterate e) ∧
          ∀ k, s.exists_id k = true → ¬ Desc s id k → s'.exists_id k = true) ∧
      (∀ s id s1, erase_children fuel s id = some s1 →
        (∀ e, s1.iterate e ⊆ s.iterate e) ∧
          ∀ k, s.exists_id k = true → (¬ Desc s id k ∨ k = id) → s1.exists_id k = true) := by
  intro fuel
  induction fuel with
  | zero =>
    exact ⟨fun s id s' h => by simp [erase] at h, fun s id s' h => by simp [erase_children] at h⟩
  | succ n ih =>
    refine ⟨fun s id s' h => ?_, fun s id s1 h => ?_⟩
    · unfold erase at h
      cases hm : s.meta_.find id with
      | none =>
        simp only [hm, Option.some.injEq] at h
        subst h
        exact ⟨fun _ => List.Subset.refl _, fun _ hk _ => hk⟩
      | some m =>
        simp only [hm] at h
        cases hc : erase_children n s id with
        | none => simp [hc] at h
        | some s1 =>
          simp only [hc] at h
          obtain ⟨a1, a2⟩ := ih.2 s id s1 hc
          obtain ⟨b1, b2⟩ := erase_self_keeps h
          refine ⟨fun e => (b1 e).trans (a1 e), fun k hk hd => ?_⟩
          have hne : k ≠ id := fun e => hd (by rw [e]; exact Desc.refl id)
          exact b2 k hne (a2 k hk (Or.inl hd))
    · unfold erase_children at h
      cases hm : s.meta_.find id with
      | none => simp [hm] at h
      | some m =>
        simp only [hm] at h
        cases hl : m.children.getLast? with
        | none =>
          simp only [hl, Option.some.injEq] at h
          subst h
          exact ⟨fun _ => List.Subset.refl _, fun _ hk _ => hk⟩
        | some c =>
          simp only [hl] at h
          cases he : erase n s c with
          | none => simp [he] at h
          | some sA =>
            simp only [he] at h
            obtain ⟨a1, a2⟩ := ih.1 s c sA he
            obtain ⟨b1, b2⟩ := ih.2 sA id s1 h
            have hcm : c ∈ s.iterate id := by
              have : s.iterate id = m.children := by simp [iterate, hm]
              rw [this]
              exact List.mem_of_mem_getLast? hl
            have hAid : sA.exists_id id = true := by
              cases n with
              | zero => simp [erase_children] at h
              | succ n' =>
                unfold erase_children at h
                cases hf : sA.meta_.find id with
                | none => simp [hf] at h
                | some w => simp [exists_id, hf]
            refine ⟨fun e => (b1 e).trans (a1 e), fun k hk hd => ?_⟩
            rcases hd with hd | hd
            · have h1 : ¬ Desc s c k := fun hx => hd (Desc.desc_head hcm hx)
              exact b2 k (a2 k hk h1) (Or.inl (fun hx => hd (Desc.desc_mono a1 hx)))
            · rw [hd]
              exact b2 id hAid (Or.inr rfl)

end Opus

/-- C12 (amended): the root entry exists in a fresh tree, and no operation but
`erase` takes an entry away: index access, `child`, `before`, `after`,
`parent(Id, Id)`, `priority(Id, I32)` and a tick keep the entry of the
identifier 0. A returning `erase(id)` keeps it when 0 is not `id` and not below
`id` in the child lists. -/
theorem root_entry_exists :
    (∀ op_gen, (Opus.new op_gen).exists_id 0 = true) ∧
      ∀ s : Opus, s.exists_id 0 = true →
        (∀ fuel id s' h, Opus.index fuel s id = some (s', h) → s'.exists_id 0 = true) ∧
        (∀ fuel p c prio s' h, Opus.child fuel s p c prio = some (s', h) →
          s'.exists_id 0 = true) ∧
        (∀ fuel sib c d s' h, Opus.before fuel s sib c d = some (s', h) →
          s'.exists_id 0 = true) ∧
        (∀ fuel sib c d s' h, Opus.after fuel s sib c d = some (s', h) →
          s'.exists_id 0 = true) ∧
        (∀ fuel id np s' old, Opus.set_parent fuel s id np = some (s', old) →
          s'.exists_id 0 = true) ∧
        (∀ id v, (Opus.set_priority s id v).1.exists_id 0 = true) ∧
        (∀ fuel dt s' r ev, Opus.call fuel s dt = some (s', r, ev) → s'.exists_id 0 = true) ∧
        (∀ fuel id s', Opus.erase fuel s id = some s' → ¬ Desc s id 0 →
          s'.exists_id 0 = true) := by
  refine ⟨fun op_gen => rfl, fun s h0 => ⟨?_, ?_, ?_, ?_, ?_, ?_, ?_, ?_⟩⟩
  · intro fuel id s' h hi
    exact (Opus.index_sameTree hi).2.2 0 h0
  · intro fuel p c prio s' h hc
    exact Opus.child_exists hc 0 h0
  · intro fuel sib c d s' h hb
    exact Opus.before_exists hb 0 h0
  · intro fuel sib c d s' h ha
    exact Opus.after_exists ha 0 h0
  · intro fuel id np s' old hp
    exact Opus.set_parent_exists hp 0 h0
  · intro id v
    exact (Opus.set_priority_sameTree s id v).2.2 0 h0
  · intro fuel dt s' r ev hc
    rw [Opus.call_exists hc 0]
    exact h0
  · intro fuel id s' he hd
    exact ((Opus.erase_keeps fuel).1 s id s' he).2 0 h0 hd

/-- C12, witness: on a fresh tree, index access `[1]` and then `erase(1)`
return, and the root entry exists after each. -/
theorem root_entry_exists_witness :
    ∃ s1 h s2, Opus.index 5 (Opus.new default_op_generator) 1 = some (s1, h) ∧
      s1.exists_id 0 = true ∧ Opus.erase 5 s1 1 = some s2 ∧ s2.exists_id 0 = true := by
  have h0 : ((Opus.index 5 (Opus.new default_op_generator) 1).bind fun r =>
      Opus.erase 5 r.1 1).isSome = true := by decide
  cases hi : Opus.index 5 (Opus.new default_op_generator) 1 with
  | none => rw [hi] at h0; simp at h0
  | some r =>
    obtain ⟨s1, h⟩ := r
    rw [hi, Option.some_bind] at h0
    obtain ⟨s2, he⟩ := Option.isSome_iff_exists.mp h0
    have hi1 : s1.iterate 1 = [] := by
      have : (Opus.index 5 (Opus.new default_op_generator) 1).map (fun r => r.1.iterate 1)
          = some [] := by decide
      rw [hi] at this; simpa using this
    have hdesc : ∀ d, Desc s1 1 d → d = 1 := by
      intro d hd
      induction hd with
      | refl => rfl
      | step _ hc ih => rw [ih, hi1] at hc; simp at hc
    have e1 := (root_entry_exists.2 (Opus.new default_op_generator)
      (root_entry_exists.1 default_op_generator)).1 5 1 s1 h hi
    have e2 := (root_entry_exists.2 s1 e1).2.2.2.2.2.2.2 5 1 s2 he
      (fun hd => absurd (hdesc 0 hd) (by decide))
    exact ⟨s1, h, s2, rfl, e1, he, e2⟩

/-- C12, counterexample: on a fresh tree the root entry exists, and `erase(0)`
returns and leaves no entry for the identifier 0. -/
theorem erase_root_removes_root_entry :
    (Opus.new default_op_generator).exists_id 0 = true ∧
      (Opus.erase 5 (Opus.new default_op_generator) 0).map (fun s => s.exists_id 0)
        = some false := by
  decide

/-! ### A finished Queue whose `position` stays valid -/

/-- The loop of `Queue::operator()` with a positive delta, started with the
cursor on the first element of `post`: when it returns it has looked at the
children `visited ++ [last]` in sequence order and at no other, every one of
`visited` is finished, the cursor is on `last`, and `remaining` is 0 when
`last` is the last child and finished, and -1 when `last` is unfinished. -/
theorem queueLoop_spec (call : Op → F64 → Option (Op × List Event)) (dt : F64) (hdt : 0 < dt) :
    ∀ (steps : Nat) (pre post : List Op) (data : OpData) (ev : List Event) (p' : Nat)
      (d' : OpData) (ev' : List Event),
      data.children = pre ++ post →
      queueLoop call dt steps pre.length data ev = some (p', d', ev') →
      ∃ visited last tail,
        post = visited ++ last :: tail ∧ p' = pre.length + visited.length ∧
        d'.children = pre ++ (visited ++ [last]).map (Queue.visitedOp call dt) ++ tail ∧
        ev' = ev ++ (visited ++ [last]).flatMap (Queue.visitedTrace call dt) ∧
        (∀ c ∈ visited, (Queue.visitedOp call dt c).remaining = 0) ∧
        d'.total = data.total ∧ d'.action = data.action ∧
        ((d'.remaining = 0 ∧ tail = [] ∧ (Queue.visitedOp call dt last).remaining = 0) ∨
          (d'.remaining = -1 ∧ (Queue.visitedOp call dt last).remaining ≠ 0)) := by
  intro steps
  induction steps with
  | zero => intro pre post data ev p' d' ev' _ h; simp [queueLoop] at h
  | succ n ih =>
    intro pre post data ev p' d' ev' hch h
    unfold queueLoop at h
    simp only [gt_iff_lt, hdt, if_true] at h
    cases post with
    | nil =>
      have hget : data.children.get? pre.length = none := by
        rw [hch]; simp
      rw [hget] at h
      simp at h
    | cons op post1 =>
      have hget : data.children.get? pre.length = some op := by
        rw [hch, List.get?_eq_getElem?, List.getElem?_append_right (le_refl _), Nat.sub_self]
        simp
      have hlen : data.children.length = pre.length + 1 + post1.length := by
        rw [hch]; simp; omega
      simp only [hget] at h
      by_cases hr : op.remaining = 0
      · have hu : Queue.visitedOp call dt op = op := by simp [Queue.visitedOp, hr]
        have ht : Queue.visitedTrace call dt op = [] := by simp [Queue.visitedTrace, hr]
        simp only [hr, ne_eq, not_true_eq_false, if_false] at h
        by_cases hp : post1 = []
        · subst hp
          have : pre.length + 1 = data.children.length := by rw [hlen]; simp
          simp only [this, not_true_eq_false, if_false, Option.some.injEq, Prod.mk.injEq] at h
          obtain ⟨rfl, rfl, rfl⟩ := h
          refine ⟨[], op, [], rfl, by simp, ?_, ?_, by simp, rfl, rfl, Or.inl ⟨rfl, rfl, ?_⟩⟩
          · simp [hu, hch]
          · simp [ht]
          · rw [hu]; exact hr
        · have hne : ¬ (pre.length + 1 = data.children.length) := by
            rw [hlen]
            have : 0 < post1.length := List.length_pos.mpr hp
            omega
          simp only [hne, not_false_eq_true, if_true] at h
          have hl1 : (pre ++ [op]).length = pre.length + 1 := by simp
          rw [← hl1] at h
          obtain ⟨visited, last, tail, a1, a2, a3, a4, a5, a6, a7, a8⟩ :=
            ih (pre ++ [op]) post1 data ev p' d' ev' (by rw [hch]; simp) h
          refine ⟨op :: visited, last, tail, by rw [a1]; rfl, by rw [a2]; simp; omega, ?_, ?_, ?_,
            a6, a7, a8⟩
          · rw [a3]; simp [hu]
          · rw [a4]; simp [ht]
          · intro c hc
            rcases List.mem_cons.mp hc with rfl | hc
            · rw [hu]; exact hr
            · exact a5 c hc
      · simp only [hr, ne_eq, not_false_eq_true, if_true] at h
        cases hc : call op dt with
        | none => simp [hc] at h
        | some x =>
          obtain ⟨op', e⟩ := x
          have hu : Queue.visitedOp call dt op = op' := by simp [Queue.visitedOp, hr, hc]
          have ht : Queue.visitedTrace call dt op = e := by simp [Queue.visitedTrace, hr, hc]
          have hset : data.children.set pre.length op' = pre ++ op' :: post1 := by
            rw [hch]; simp
          simp only [hc, hset] at h
          by_cases hr' : op'.remaining = 0
          · simp only [hr', ne_eq, not_true_eq_false, if_false] at h
            by_cases hp : post1 = []
            · subst hp
              simp only [List.length_append, List.length_cons, List.length_nil, zero_add,
                not_true_eq_false, if_false, Option.some.injEq, Prod.mk.injEq] at h
              obtain ⟨rfl, rfl, rfl⟩ := h
              refine ⟨[], op, [], rfl, by simp, ?_, ?_, by simp, rfl, rfl, Or.inl ⟨rfl, rfl, ?_⟩⟩
              · simp [hu]
              · simp [ht]
              · rw [hu]; exact hr'
            · have hne : ¬ (pre.length + 1 = (pre ++ op' :: post1).length) := by
                have : 0 < post1.length := List.length_pos.mpr hp
                rw [List.length_append, List.length_cons]
                omega
              simp only [hne, not_false_eq_true, if_true] at h
              have hl1 : (pre ++ [op']).length = pre.length + 1 := by simp
              rw [← hl1] at h
              obtain ⟨visited, last, tail, a1, a2, a3, a4, a5, a6, a7, a8⟩ :=
                ih (pre ++ [op']) post1 _ (ev ++ e) p' d' ev' (by simp) h
              refine ⟨op :: visited, last, tail, by rw [a1]; rfl, by rw [a2]; simp; omega, ?_, ?_,
                ?_, a6, a7, a8⟩
              · rw [a3]; simp [hu]
              · rw [a4]; simp [ht]
              · intro c hc
                rcases List.mem_cons.mp hc with rfl | hc
                · rw [hu]; exact hr'
                · exact a5 c hc
          · simp only [hr', ne_eq, not_false_eq_true, if_true, Option.some.injEq,
              Prod.mk.injEq] at h
            obtain ⟨rfl, rfl, rfl⟩ := h
            refine ⟨[], op, post1, rfl, by simp, ?_, ?_, by simp, rfl, rfl, Or.inr ⟨rfl, ?_⟩⟩
            · simp [hu]
            · simp [ht]
            · rw [hu]; exact hr'

theorem Queue_call_initialized (fuel p : Nat) (data : OpData) (dt : F64) (hdt : dt ≠ 0) :
    Action.call (fuel + 1) (Action.Queue p true) data dt =
      (queueLoop (Op.call fuel) dt fuel p data []).map
        (fun r => (Action.Queue r.1 true, r.2.1, dt, r.2.2)) := by
  simp only [Action.call, Bool.not_true, Bool.false_or, decide_eq_true_eq, hdt, if_false]
  cases queueLoop (Op.call fuel) dt fuel p data [] with
  | none => rfl
  | some r => rfl

/-- A call of a Queue that changes `remaining` to 0 has run the loop with a
positive delta and leaves the cursor on the last child, which is finished. -/
theorem Queue_call_finished (fuel0 pos0 : Nat) (init0 : Bool) (d0 : OpData) (dt0 : F64)
    (a : Action) (data : OpData) (x0 : F64) (ev0 : List Event)
    (hprev : Action.call fuel0 (Action.Queue pos0 init0) d0 dt0 = some (a, data, x0, ev0))
    (hbefore : d0.remaining ≠ 0) (hdone : data.remaining = 0) :
    ∃ pre c0, a = Action.Queue pre.length true ∧ data.children = pre ++ [c0] ∧
      c0.remaining = 0 := by
  cases fuel0 with
  | zero => simp [Action.call] at hprev
  | succ n =>
    have hloop : ∀ pos, pos = 0 ∨ pos = pos0 →
        ∀ p d1 e1, queueLoop (Op.call n) dt0 n pos d0 [] = some (p, d1, e1) → d1 = data →
          ∃ pre c0, p = pre.length ∧ data.children = pre ++ [c0] ∧ c0.remaining = 0 := by
      intro pos _ p d1 e1 hq hd
      subst hd
      have hdt : 0 < dt0 := by
        by_contra hn
        cases n with
        | zero => simp [queueLoop] at hq
        | succ m =>
          unfold queueLoop at hq
          simp only [gt_iff_lt, hn, if_false, Option.some.injEq, Prod.mk.injEq] at hq
          exact hbefore (by rw [hq.2.1]; exact hdone)
      have hle : pos ≤ d0.children.length := by
        by_contra hn
        cases n with
        | zero => simp [queueLoop] at hq
        | succ m =>
          unfold queueLoop at hq
          have hget : d0.children.get? pos = none := List.get?_eq_none.mpr (by omega)
          simp only [gt_iff_lt, hdt, if_true] at hq
          rw [hget] at hq
          simp at hq
      have hl : (d0.children.take pos).length = pos := by
        rw [List.length_take]; omega
      rw [← hl] at hq
      obtain ⟨visited, last, tail, _, a2, a3, _, _, _, _, a8⟩ :=
        queueLoop_spec (Op.call n) dt0 hdt n (d0.children.take pos) (d0.children.drop pos) d0 []
          p d1 e1 (List.take_append_drop pos d0.children).symm hq
      rcases a8 with ⟨_, b2, b3⟩ | ⟨b1, _⟩
      · subst b2
        refine ⟨d0.children.take pos ++ visited.map (Queue.visitedOp (Op.call n) dt0),
          Queue.visitedOp (Op.call n) dt0 last, ?_, ?_, b3⟩
        · rw [a2]; simp
        · rw [a3]; simp
      · rw [hdone] at b1
        norm_num at b1
    by_cases hc : (!init0 || decide (dt0 = 0)) = true
    · unfold Action.call at hprev
      simp only [hc, if_true] at hprev
      by_cases hz : d0.children.length = 0
      · simp only [hz, if_true, Option.some.injEq, Prod.mk.injEq] at hprev
        exact absurd (by rw [hprev.2.1]; exact hdone) hbefore
      · simp only [hz, if_false] at hprev
        cases hq : queueLoop (Op.call n) dt0 n 0 d0 [] with
        | none => simp [hq] at hprev
        | some r =>
          obtain ⟨p, d1, e1⟩ := r
          simp only [hq, Option.some.injEq, Prod.mk.injEq] at hprev
          obtain ⟨pre, c0, h1, h2, h3⟩ := hloop 0 (Or.inl rfl) p d1 e1 hq hprev.2.1
          exact ⟨pre, c0, by rw [← hprev.1, h1], h2, h3⟩
    · have hi : init0 = true := by
        cases init0 with
        | true => rfl
        | false => simp at hc
      subst hi
      have hdt0 : dt0 ≠ 0 := by
        intro h0
        simp [h0] at hc
      rw [Queue_call_initialized n pos0 d0 dt0 hdt0] at hprev
      cases hq : queueLoop (Op.call n) dt0 n pos0 d0 [] with
      | none => simp [hq] at hprev
      | some r =>
        obtain ⟨p, d1, e1⟩ := r
        simp only [hq, Option.map_some', Option.some.injEq, Prod.mk.injEq] at hprev
        obtain ⟨pre, c0, h1, h2, h3⟩ := hloop pos0 (Or.inr rfl) p d1 e1 hq hprev.2.1
        exact ⟨pre, c0, by rw [← hprev.1, h1], h2, h3⟩

theorem queueLoop_skip (call : Op → F64 → Option (Op × List Event)) (dt : F64) (hdt : 0 < dt)
    (s p : Nat) (data : OpData) (ev : List Event) (c : Op)
    (hget : data.children.get? p = some c) (hr : c.remaining = 0)
    (hne : p + 1 ≠ data.children.length) :
    queueLoop call dt (s + 1) p data ev = queueLoop call dt s (p + 1) data ev := by
  conv_lhs => unfold queueLoop
  simp only [gt_iff_lt, hdt, if_true]
  rw [hget]
  simp only [hr, ne_eq, not_true_eq_false, if_false, hne, not_false_eq_true, if_true]

theorem queueLoop_run (call : Op → F64 → Option (Op × List Event)) (dt : F64) (hdt : 0 < dt)
    (s p : Nat) (data : OpData) (ev : List Event) (c c' : Op) (e : List Event)
    (hget : data.children.get? p = some c) (hr : c.remaining ≠ 0)
    (hc : call c dt = some (c', e)) (hlast : p + 1 = data.children.length) :
    queueLoop call dt (s + 1) p data ev =
      some (p, { data with remaining := if c'.remaining ≠ 0 then -1 else 0,
                           children := data.children.set p c' }, ev ++ e) := by
  conv_lhs => unfold queueLoop
  simp only [gt_iff_lt, hdt, if_true]
  rw [hget]
  simp only [hr, ne_eq, not_false_eq_true, if_true, hc]
  by_cases hr' : c'.remaining = 0
  · simp [hr', hlast]
  · simp [hr']

theorem queueLoop_run_unfinished (call : Op → F64 → Option (Op × List Event)) (dt : F64)
    (hdt : 0 < dt) (s p : Nat) (data : OpData) (ev : List Event) (c c' : Op) (e : List Event)
    (hget : data.children.get? p = some c) (hr : c.remaining ≠ 0)
    (hc : call c dt = some (c', e)) (hr' : c'.remaining ≠ 0) :
    queueLoop call dt (s + 1) p data ev =
      some (p, { data with remaining := -1, children := data.children.set p c' }, ev ++ e) := by
  conv_lhs => unfold queueLoop
  simp only [gt_iff_lt, hdt, if_true]
  rw [hget]
  simp only [hr, ne_eq, not_false_eq_true, if_true, hc, hr']

/-- A finished Queue whose `position` is still valid is resumable. Let a call
of a Queue have changed `remaining` to 0. Then the cursor (the index
`position - begin()`) is on the last child (it never passes it) and that child
is finished. (1) When children `c1 :: rest` with `c1` unfinished are appended
without the children vector reallocating (the functor keeps its `position`),
`remaining` is still 0; the next call with a positive delta (fuel for
the two loop steps, the call of `c1` returning) skips the finished last child,
calls `c1` first and calls no earlier child: when `c1` is unfinished
afterwards the call returns with the cursor on `c1`, `remaining = -1` and the
trace of that one call; and whenever it returns, the trace starts with the
trace of the call of `c1`, the earlier children are as they were and the cursor
is on a child after the old last one. (2) When `remaining` of the last child is
made non-zero, the next call with a positive delta calls that child and leaves
`remaining = -1` when it is unfinished afterwards, 0 otherwise. -/
theorem Queue_resumable (fuel0 pos0 : Nat) (init0 : Bool) (d0 : OpData) (dt0 : F64)
    (a : Action) (data : OpData) (x0 : F64) (ev0 : List Event)
    (hprev : Action.call fuel0 (Action.Queue pos0 init0) d0 dt0 = some (a, data, x0, ev0))
    (hbefore : d0.remaining ≠ 0) (hdone : data.remaining = 0) :
    ∃ pre c0, a = Action.Queue pre.length true ∧ data.children = pre ++ [c0] ∧
      c0.remaining = 0 ∧
      (∀ (fuel : Nat) (c1 : Op) (rest : List Op) (dt : F64) (c1' : Op) (e : List Event),
        c1.remaining ≠ 0 → 0 < dt → 2 ≤ fuel → Op.call fuel c1 dt = some (c1', e) →
          ({ data with children := data.children ++ c1 :: rest } : OpData).remaining = 0 ∧
          (c1'.remaining ≠ 0 →
            Action.call (fuel + 1) a { data with children := data.children ++ c1 :: rest } dt
              = some (Action.Queue (pre.length + 1) true,
                  { data with remaining := -1, children := data.children ++ c1' :: rest },
                  dt, e)) ∧
          (∀ a' d' x ev,
            Action.call (fuel + 1) a { data with children := data.children ++ c1 :: rest } dt
              = some (a', d', x, ev) →
            (∃ t, ev = e ++ t) ∧ d'.children.take (pre.length + 1) = data.children ∧
              ∃ p', a' = Action.Queue p' true ∧ pre.length < p' ∧ p' < d'.children.length)) ∧
      (∀ (fuel : Nat) (r : F64) (dt : F64) (c0' : Op) (e : List Event),
        r ≠ 0 → 0 < dt → 1 ≤ fuel →
        Op.call fuel (Op.mk c0.handle r c0.total c0.action c0.children) dt = some (c0', e) →
          Action.call (fuel + 1) a
              { data with children := pre ++ [Op.mk c0.handle r c0.total c0.action c0.children] } dt
            = some (Action.Queue pre.length true,
                { data with remaining := if c0'.remaining ≠ 0 then -1 else 0,
                            children := pre ++ [c0'] }, dt, e)) := by
  obtain ⟨pre, c0, ha, hch, hc0⟩ :=
    Queue_call_finished fuel0 pos0 init0 d0 dt0 a data x0 ev0 hprev hbefore hdone
  refine ⟨pre, c0, ha, hch, hc0, ?_, ?_⟩
  · intro fuel c1 rest dt c1' e hr1 hdt hfuel hcall
    obtain ⟨m, rfl⟩ : ∃ m, fuel = m + 2 := ⟨fuel - 2, by omega⟩
    have hdt0 : dt ≠ 0 := ne_of_gt hdt
    have hkids : data.children ++ c1 :: rest = pre ++ c0 :: c1 :: rest := by
      rw [hch]; simp
    have hu0 : Queue.visitedOp (Op.call (m + 2)) dt c0 = c0 := by simp [Queue.visitedOp, hc0]
    have ht0 : Queue.visitedTrace (Op.call (m + 2)) dt c0 = [] := by
      simp [Queue.visitedTrace, hc0]
    have ht1 : Queue.visitedTrace (Op.call (m + 2)) dt c1 = e := by
      simp [Queue.visitedTrace, hr1, hcall]
    refine ⟨hdone, fun hr1' => ?_, fun a' d' x ev hret => ?_⟩
    · rw [ha, Queue_call_initialized (m + 2) pre.length _ dt hdt0]
      have hg0 : (data.children ++ c1 :: rest).get? pre.length = some c0 := by
        rw [hkids, List.get?_eq_getElem?, List.getElem?_append_right (le_refl _), Nat.sub_self]
        simp
      have hg1 : (data.children ++ c1 :: rest).get? (pre.length + 1) = some c1 := by
        rw [hkids, List.get?_eq_getElem?, List.getElem?_append_right (by omega)]
        simp
      have hne : pre.length + 1 ≠ (data.children ++ c1 :: rest).length := by
        rw [hkids]; simp
      rw [queueLoop_skip (Op.call (m + 2)) dt hdt (m + 1) pre.length _ [] c0 hg0 hc0 hne,
        queueLoop_run_unfinished (Op.call (m + 2)) dt hdt m (pre.length + 1) _ [] c1 c1' e hg1 hr1
          hcall hr1']
      have hset : (data.children ++ c1 :: rest).set (pre.length + 1) c1'
          = data.children ++ c1' :: rest := by
        rw [hch]; simp
      simp only [Option.map_some', List.nil_append, hset]
    · rw [ha, Queue_call_initialized (m + 2) pre.length _ dt hdt0] at hret
      cases hq : queueLoop (Op.call (m + 2)) dt (m + 2) pre.length
          { data with children := data.children ++ c1 :: rest } [] with
      | none => rw [hq] at hret; simp at hret
      | some res =>
        obtain ⟨p', d1, e1⟩ := res
        rw [hq] at hret
        simp only [Option.map_some', Option.some.injEq, Prod.mk.injEq] at hret
        obtain ⟨rfl, rfl, _, rfl⟩ := hret
        obtain ⟨visited, last, tail, a1, a2, a3, a4, _, _, _, a8⟩ :=
          queueLoop_spec (Op.call (m + 2)) dt hdt (m + 2) pre (c0 :: c1 :: rest) _ [] p' d1 e1
            hkids hq
        cases visited with
        | nil =>
          simp only [List.nil_append, List.cons.injEq] at a1
          obtain ⟨rfl, rfl⟩ := a1
          rcases a8 with ⟨_, b, _⟩ | ⟨_, b⟩
          · simp at b
          · rw [hu0] at b; exact absurd hc0 b
        | cons v0 v =>
          simp only [List.cons_append, List.cons.injEq] at a1
          obtain ⟨rfl, a1⟩ := a1
          have hfirst : ∃ w, v ++ [last] = c1 :: w := by
            cases v with
            | nil =>
              simp only [List.nil_append, List.cons.injEq] at a1
              exact ⟨[], by rw [a1.1]; rfl⟩
            | cons y v' =>
              simp only [List.cons_append, List.cons.injEq] at a1
              exact ⟨v' ++ [last], by rw [a1.1]; rfl⟩
          obtain ⟨w, hw⟩ := hfirst
          refine ⟨⟨w.flatMap (Queue.visitedTrace (Op.call (m + 2)) dt), ?_⟩, ?_, p', rfl, ?_, ?_⟩
          · rw [a4]
            simp only [List.nil_append, List.cons_append, List.flatMap_cons, ht0, hw, ht1]
          · rw [a3, hch]
            simp only [List.cons_append, List.map_cons, hu0]
            have : pre ++ c0 :: List.map (Queue.visitedOp (Op.call (m + 2)) dt) (v ++ [last]) ++ tail
                = (pre ++ [c0]) ++
                  (List.map (Queue.visitedOp (Op.call (m + 2)) dt) (v ++ [last]) ++ tail) := by
              simp
            rw [this]
            exact List.take_left' (by simp)
          · rw [a2]; simp
          · rw [a3, a2]; simp
  · intro fuel r dt c0' e hr hdt hfuel hcall
    obtain ⟨m, rfl⟩ : ∃ m, fuel = m + 1 := ⟨fuel - 1, by omega⟩
    have hdt0 : dt ≠ 0 := ne_of_gt hdt
    rw [ha, Queue_call_initialized (m + 1) pre.length _ dt hdt0]
    have hg0 : (pre ++ [Op.mk c0.handle r c0.total c0.action c0.children]).get? pre.length
        = some (Op.mk c0.handle r c0.total c0.action c0.children) := by
      rw [List.get?_eq_getElem?, List.getElem?_append_right (le_refl _), Nat.sub_self]
      simp
    rw [queueLoop_run (Op.call (m + 1)) dt hdt m pre.length _ [] _ c0' e hg0
      (by simpa [Op.remaining] using hr) hcall (by simp)]
    have hset : (pre ++ [Op.mk c0.handle r c0.total c0.action c0.children]).set pre.length c0'
        = pre ++ [c0'] := by simp
    simp only [Option.map_some', List.nil_append, hset]

/-- An instance: the Queue over `A(1,1)` and `B(1,1)` is called with delta 1
and finishes (`remaining = 0`, cursor on B). The leaf `C(2,2)` is appended
without a reallocation; the next call with delta 1 calls C alone (C is left with `remaining = 1`), moves
the cursor to C and sets `remaining = -1`. -/
theorem Queue_resumable_witness :
    ∃ a data x0 ev0 pre c0 c1',
      Action.call 4 (Action.Queue 0 false) queue_AB.data_ 1 = some (a, data, x0, ev0) ∧
      data.remaining = 0 ∧ a = Action.Queue pre.length true ∧ data.children = pre ++ [c0] ∧
      Op.call 2 queue_C 1 = some (c1', [Event.op 3 1, Event.func 3 1]) ∧ c1'.remaining = 1 ∧
      Action.call 3 a { data with children := data.children ++ [queue_C] } 1
        = some (Action.Queue (pre.length + 1) true,
            { data with remaining := -1, children := data.children ++ [c1'] }, 1,
            [Event.op 3 1, Event.func 3 1]) := by
  have h0 : (Action.call 4 (Action.Queue 0 false) queue_AB.data_ 1).map
      (fun r => r.2.1.remaining) = some 0 := by decide!
  have h1 : (Op.call 2 queue_C 1).map (fun r => (r.1.remaining, r.2))
      = some (1, [Event.op 3 1, Event.func 3 1]) := by decide!
  cases hprev : Action.call 4 (Action.Queue 0 false) queue_AB.data_ 1 with
  | none => rw [hprev] at h0; simp at h0
  | some res =>
    obtain ⟨a, data, x0, ev0⟩ := res
    rw [hprev] at h0
    simp only [Option.map_some', Option.some.injEq] at h0
    cases hcall : Op.call 2 queue_C 1 with
    | none => rw [hcall] at h1; simp at h1
    | some rc =>
      obtain ⟨c1', e⟩ := rc
      rw [hcall] at h1
      simp only [Option.map_some', Option.some.injEq, Prod.mk.injEq] at h1
      obtain ⟨hr1, rfl⟩ := h1
      have hbefore : queue_AB.data_.remaining ≠ 0 := by
        simp [queue_AB, Op.data_]
      obtain ⟨pre, c0, ha, hch, _, hB, _⟩ :=
        Queue_resumable 4 0 false queue_AB.data_ 1 a data x0 ev0 hprev hbefore h0
      obtain ⟨_, hB2, _⟩ := hB 2 queue_C [] 1 c1' _
        (by simp [queue_C, Op.remaining]) (by norm_num) (le_refl 2) hcall
      exact ⟨a, data, x0, ev0, pre, c0, c1', rfl, h0, ha, hch, rfl, hr1,
        hB2 (by rw [hr1]; norm_num)⟩

/-! ### C26: the Set that finishes in a call -/

/-- C21: a call of `ResetWhenComplete<Resettable<F>>` with a delta `d ≠ 0`,
where the first call of `F`, with `d`, returns leaving the data `d1` and the
delta `dt1`. When `d1.remaining ≠ 0`, `F` is not called again. When
`d1.remaining = 0`, `remaining` is set to `total` and `F` is called a second
time, with delta 0; when that call returns leaving the data `d2`, the whole call
returns `d2`, so `remaining = d1.total` at the end when `F` leaves `remaining`
as it is on the zero delta. In both cases the delta of the caller is `dt1`. -/
theorem ResetWhenComplete_Resettable_spec (fuel : Nat) (F F1 : Action) (data d1 : OpData)
    (d dt1 : F64) (e1 : List Event) (hd : d ≠ 0)
    (h1 : Action.call fuel F data d = some (F1, d1, dt1, e1)) :
    (d1.remaining ≠ 0 →
      Action.call (fuel + 2) (Action.ResetWhenComplete (Action.Resettable F)) data d
        = some (Action.ResetWhenComplete (Action.Resettable F1), d1, dt1, e1)) ∧
    (d1.remaining = 0 →
      ∀ (F2 : Action) (d2 : OpData) (x : F64) (e2 : List Event),
        Action.call fuel F1 { d1 with remaining := d1.total } 0 = some (F2, d2, x, e2) →
          Action.call (fuel + 2) (Action.ResetWhenComplete (Action.Resettable F)) data d
              = some (Action.ResetWhenComplete (Action.Resettable F2), d2, dt1, e1 ++ e2) ∧
            (d2.remaining = ({ d1 with remaining := d1.total } : OpData).remaining →
              d2.remaining = d1.total)) := by
  have hR : Action.call (fuel + 1) (Action.Resettable F) data d
      = some (Action.Resettable F1, d1, dt1, e1) := by
    simp only [Action.call, hd, if_false, h1]
  constructor
  · intro hr
    simp only [Action.call, hd, if_false, h1, hr]
  · intro hr F2 d2 x e2 h2
    have hR2 : Action.call (fuel + 1) (Action.Resettable F1) d1 0
        = some (Action.Resettable F2, d2, x, e2) := by
      simp only [Action.call, if_true, h2]
    refine ⟨?_, fun h => h⟩
    have hstep : Action.call (fuel + 2) (Action.ResetWhenComplete (Action.Resettable F)) data d
        = (match Action.call (fuel + 1) (Action.Resettable F) data d with
          | none => none
          | some (Fa, da, dta, ea) =>
            if da.remaining = 0 then
              match Action.call (fuel + 1) Fa da 0 with
              | none => none
              | some (Fb, db, _, eb) => some (Action.ResetWhenComplete Fb, db, dta, ea ++ eb)
            else some (Action.ResetWhenComplete Fa, da, dta, ea)) := by
      rw [Action.call]
    rw [hstep, hR]
    simp only [hr, if_true, hR2]

/-- C21, witness: `F` is a leaf that consumes the delta, with `remaining = 1`
and `total = 1`, called with delta 1: the first call of `F` leaves
`remaining = 0`, the second, with delta 0, follows the reset, and the call ends
with `remaining = 1 = total` and the delta 0 of the first call. -/
theorem ResetWhenComplete_Resettable_spec_witness :
    Action.call 3
        (Action.ResetWhenComplete (Action.Resettable (Action.OpFuncPtrWrap 7 consuming_leaf)))
        { remaining := 1, total := 1 } 1
      = some (Action.ResetWhenComplete (Action.Resettable (Action.OpFuncPtrWrap 7 consuming_leaf)),
          { remaining := 1, total := 1 }, 0, [Event.func 7 1, Event.func 7 0]) := by
  have h1 : Action.call 1 (Action.OpFuncPtrWrap 7 consuming_leaf) { remaining := 1, total := 1 } 1
      = some (Action.OpFuncPtrWrap 7 consuming_leaf, { remaining := 0, total := 1 }, 0,
          [Event.func 7 1]) := by
    simp [Action.call, consuming_leaf]
  have h2 : Action.call 1 (Action.OpFuncPtrWrap 7 consuming_leaf)
      { ({ remaining := 0, total := 1 } : OpData) with remaining := 1 } 0
      = some (Action.OpFuncPtrWrap 7 consuming_leaf, { remaining := 1, total := 1 }, 0,
          [Event.func 7 0]) := by
    simp [Action.call, consuming_leaf]
  have h := (ResetWhenComplete_Resettable_spec 1 _ _ _ _ 1 0 _ (by norm_num) h1).2 rfl _ _ _ _ h2
  exact h.1

/-! ### C22: the loop of a Queue ends -/

/-- The loop of `Queue::operator()` returns within as many iterations as there
are children from the cursor on, when the calls of those children return. -/
theorem queueLoop_total (call : Op → F64 → Option (Op × List Event)) (dt : F64) :
    ∀ (steps : Nat) (pre post : List Op) (data : OpData) (ev : List Event),
      data.children = pre ++ post → post ≠ [] → post.length ≤ steps →
      (∀ c ∈ post, c.remaining ≠ 0 → (call c dt).isSome) →
      (queueLoop call dt steps pre.length data ev).isSome := by
  intro steps
  induction steps with
  | zero =>
    intro pre post data ev _ hne hlen _
    exact absurd (List.length_eq_zero.mp (Nat.le_zero.mp hlen)) hne
  | succ n ih =>
    intro pre post data ev hch hne hlen hk
    cases post with
    | nil => exact absurd rfl hne
    | cons op post1 =>
      unfold queueLoop
      by_cases hdt : 0 < dt
      · have hget : data.children.get? pre.length = some op := by
          rw [hch, List.get?_eq_getElem?, List.getElem?_append_right (le_refl _), Nat.sub_self]
          simp
        have hlen1 : post1.length ≤ n := by
          simp only [List.length_cons] at hlen
          omega
        have hk1 : ∀ c ∈ post1, c.remaining ≠ 0 → (call c dt).isSome :=
          fun c hc => hk c (List.mem_cons_of_mem _ hc)
        simp only [gt_iff_lt, hdt, if_true]
        rw [hget]
        by_cases hr : op.remaining = 0
        · simp only [hr, ne_eq, not_true_eq_false, if_false]
          by_cases hp : post1 = []
          · subst hp
            have : pre.length + 1 = data.children.length := by rw [hch]; simp
            simp [this]
          · have hne1 : ¬ (pre.length + 1 = data.children.length) := by
              rw [hch, List.length_append, List.length_cons]
              have : 0 < post1.length := List.length_pos.mpr hp
              omega
            simp only [hne1, not_false_eq_true, if_true]
            have hl1 : (pre ++ [op]).length = pre.length + 1 := by simp
            rw [← hl1]
            exact ih (pre ++ [op]) post1 data ev (by rw [hch]; simp) hp hlen1 hk1
        · obtain ⟨x, hx⟩ := Option.isSome_iff_exists.mp (hk op (List.mem_cons_self _ _) hr)
          obtain ⟨op', e⟩ := x
          have hset : data.children.set pre.length op' = pre ++ op' :: post1 := by
            rw [hch]; simp
          simp only [hr, ne_eq, not_false_eq_true, if_true, hx, hset]
          by_cases hr' : op'.remaining = 0
          · simp only [hr', not_true_eq_false, if_false]
            by_cases hp : post1 = []
            · subst hp
              simp
            · have hne1 : ¬ (pre.length + 1 = (pre ++ op' :: post1).length) := by
                rw [List.length_append, List.length_cons]
                have : 0 < post1.length := List.length_pos.mpr hp
                omega
              simp only [hne1, not_false_eq_true, if_true]
              have hl1 : (pre ++ [op']).length = pre.length + 1 := by simp
              rw [← hl1]
              exact ih (pre ++ [op']) post1 _ (ev ++ e) (by simp) hp hlen1 hk1
          · simp [hr']
      · simp [hdt]

theorem queueLoop_nonpositive (call : Op → F64 → Option (Op × List Event)) (dt : F64)
    (hdt : ¬ 0 < dt) (steps p : Nat) (data : OpData) (ev : List Event) :
    queueLoop call dt (steps + 1) p data ev = some (p, data, ev) := by
  unfold queueLoop
  simp [hdt]

/-- C22: a call of a Queue ends and calls each child at most once. For a Queue
over `n` children with the cursor inside the sequence, every delta, and fuel for
`n` iterations, when the calls of the unfinished children return: the call
returns; the loop looks at a segment `seg` of the children that starts at the
cursor (at the first child on a first call or a reset), one iteration each, so
at most `n` iterations; it calls the unfinished children of `seg` once, in
sequence order, and no other child; and the cursor ends on the last child of
`seg`, not before where it started and inside the sequence. -/
theorem Queue_call_terminates (fuel p : Nat) (init : Bool) (data : OpData) (dt : F64)
    (hfuel : data.children.length ≤ fuel)
    (hcur : init = true → dt ≠ 0 → p < data.children.length)
    (hkids : ∀ c ∈ data.children, c.remaining ≠ 0 → (Op.call fuel c dt).isSome) :
    ∃ p' b' d' ev,
      Action.call (fuel + 1) (Action.Queue p init) data dt
        = some (Action.Queue p' b', d', dt, ev) ∧
      ∃ pre seg tail,
        data.children = pre ++ seg ++ tail ∧
        pre.length = (if init = true ∧ dt ≠ 0 then p else 0) ∧
        d'.children = pre ++ seg.map (Queue.visitedOp (Op.call fuel) dt) ++ tail ∧
        ev = seg.flatMap (Queue.visitedTrace (Op.call fuel) dt) ∧
        p' = pre.length + (seg.length - 1) ∧
        pre.length + seg.length ≤ data.children.length ∧
        (data.children ≠ [] → p' < data.children.length) := by
  have hloop : ∀ start, start < data.children.length →
      ∃ p' d' ev, queueLoop (Op.call fuel) dt fuel start data [] = some (p', d', ev) ∧
        ∃ pre seg tail,
          data.children = pre ++ seg ++ tail ∧ pre.length = start ∧
          d'.children = pre ++ seg.map (Queue.visitedOp (Op.call fuel) dt) ++ tail ∧
          ev = seg.flatMap (Queue.visitedTrace (Op.call fuel) dt) ∧
          p' = pre.length + (seg.length - 1) ∧
          pre.length + seg.length ≤ data.children.length ∧ p' < data.children.length := by
    intro start hstart
    have hl : (data.children.take start).length = start := by
      rw [List.length_take]; omega
    have hsplit : data.children = data.children.take start ++ data.children.drop start :=
      (List.take_append_drop start data.children).symm
    by_cases hdt : 0 < dt
    · have hpost : data.children.drop start ≠ [] := by
        intro h
        have := congrArg List.length h
        rw [List.length_drop] at this
        simp at this
        omega
      have hsome := queueLoop_total (Op.call fuel) dt fuel (data.children.take start)
        (data.children.drop start) data [] hsplit hpost
        (by rw [List.length_drop]; omega)
        (fun c hc => hkids c (List.mem_of_mem_drop hc))
      rw [hl] at hsome
      obtain ⟨res, hq⟩ := Option.isSome_iff_exists.mp hsome
      obtain ⟨p', d', ev⟩ := res
      have hq' := hq
      rw [← hl] at hq'
      obtain ⟨visited, last, tail, a1, a2, a3, a4, _, _, _, _⟩ :=
        queueLoop_spec (Op.call fuel) dt hdt fuel (data.children.take start)
          (data.children.drop start) data [] p' d' ev hsplit hq'
      have hlen : data.children.length = start + (visited.length + 1 + tail.length) := by
        have := congrArg List.length hsplit
        rw [a1, List.length_append, hl] at this
        simp at this
        omega
      refine ⟨p', d', ev, hq, data.children.take start, visited ++ [last], tail, ?_, hl, ?_, ?_,
        ?_, ?_, ?_⟩
      · conv_lhs => rw [hsplit, a1]
        simp
      · rw [a3]
      · rw [a4]; simp
      · rw [a2]; simp
      · rw [hl, hlen]; simp
      · rw [a2, hl, hlen]; omega
    · obtain ⟨m, rfl⟩ : ∃ m, fuel = m + 1 := ⟨fuel - 1, by omega⟩
      refine ⟨start, data, [], queueLoop_nonpositive (Op.call (m + 1)) dt hdt m start data [],
        data.children.take start, [], data.children.drop start, ?_, hl, ?_, rfl, ?_, ?_, ?_⟩
      · simp
      · simp
      · rw [hl]; simp
      · rw [hl]; simp; omega
      · exact hstart
  by_cases hc : (!init || decide (dt = 0)) = true
  · have hstart : (if init = true ∧ dt ≠ 0 then p else 0) = 0 := by
      have : ¬ (init = true ∧ dt ≠ 0) := by
        rintro ⟨h1, h2⟩
        simp [h1, h2] at hc
      simp [this]
    rw [hstart]
    by_cases hz : data.children.length = 0
    · have hnil : data.children = [] := List.length_eq_zero.mp hz
      refine ⟨0, false, data, [], ?_, [], [], [], by simp [hnil], rfl, by simp [hnil], rfl, rfl,
        by simp, fun h => absurd hnil h⟩
      unfold Action.call
      simp only [hc, if_true, hz]
    · obtain ⟨p', d', ev, hq, pre, seg, tail, b1, b2, b3, b4, b5, b6, b7⟩ :=
        hloop 0 (Nat.pos_of_ne_zero hz)
      refine ⟨p', true, d', ev, ?_, pre, seg, tail, b1, b2, b3, b4, b5, b6, fun _ => b7⟩
      unfold Action.call
      simp only [hc, if_true, hz, if_false, hq]
  · have hi : init = true := by
      cases init with
      | true => rfl
      | false => simp at hc
    subst hi
    have hdt0 : dt ≠ 0 := by
      intro h0
      simp [h0] at hc
    have hstart : (if true = true ∧ dt ≠ 0 then p else 0) = p := by simp [hdt0]
    rw [hstart]
    obtain ⟨p', d', ev, hq, pre, seg, tail, b1, b2, b3, b4, b5, b6, b7⟩ :=
      hloop p (hcur rfl hdt0)
    refine ⟨p', true, d', ev, ?_, pre, seg, tail, b1, b2, b3, b4, b5, b6, fun _ => b7⟩
    rw [Queue_call_initialized fuel p data dt hdt0, hq]
    rfl

/-- C22, witness: the Queue over `A(1,1)` and `B(1,1)`, not yet called, with
delta 1 and fuel for two iterations: the call returns with the cursor on one of
the two children. -/
theorem Queue_call_terminates_witness :
    ∃ p' b' d' ev,
      Action.call 3 (Action.Queue 0 false) queue_AB.data_ 1
        = some (Action.Queue p' b', d', 1, ev) ∧ p' < 2 := by
  have hkids : ∀ c ∈ queue_AB.data_.children, c.remaining ≠ 0 → (Op.call 2 c 1).isSome := by
    intro c hc _
    simp only [queue_AB, Op.data_, List.mem_cons, List.mem_singleton, List.not_mem_nil,
      or_false] at hc
    rcases hc with rfl | rfl <;> simp [Op.call, Action.call, Op.action]
  obtain ⟨p', b', d', ev, h, pre, seg, tail, _, _, _, _, _, _, h7⟩ :=
    Queue_call_terminates 2 0 false queue_AB.data_ 1 (by simp [queue_AB, Op.data_])
      (fun h => absurd h (by decide)) hkids
  exact ⟨p', b', d', ev, h, by simpa [queue_AB, Op.data_] using h7 (by simp [queue_AB, Op.data_])⟩

/-! ### C25: a cycle of parents -/

/-- C25: `parent(Id, Id)` checks no ancestry. On a fresh tree, for distinct
identifiers `a` and `b` other than the default one, `parent(a, b)` and then
`parent(b, a)` both return (each returning the root as the old parent), and
leave `parent(a) = b`, `parent(b) = a`, `a` in the child list of `b` and `b` in
the child list of `a`; following parents from `a` or from `b` never reaches the
root. -/
theorem set_parent_makes_cycle (op_gen : Id → GenOp) (fuel : Nat) (a b : Id)
    (ha : a ≠ 0) (hb : b ≠ 0) (hab : a ≠ b) :
    ∃ s1 s2, Opus.set_parent (fuel + 3) (Opus.new op_gen) a b = some (s1, 0) ∧
      Opus.set_parent (fuel + 3) s1 b a = some (s2, 0) ∧
      s2.parent a = b ∧ s2.parent b = a ∧ a ∈ s2.iterate b ∧ b ∈ s2.iterate a ∧
      ∀ n, (fun k => s2.parent k)^[n] a ≠ 0 ∧ (fun k => s2.parent k)^[n] b ≠ 0 := by
  have h1 : ¬ (0 = a) := fun h => ha h.symm
  have h2 : ¬ (0 = b) := fun h => hb h.symm
  have h3 : ¬ (b = a) := fun h => hab h.symm
  have hall : ((Opus.set_parent (fuel + 3) (Opus.new op_gen) a b).bind fun r1 =>
      (Opus.set_parent (fuel + 3) r1.1 b a).map fun r2 =>
        (r1.2, r2.2, r2.1.parent a, r2.1.parent b, r2.1.iterate a, r2.1.iterate b))
      = some (0, 0, b, a, [b], [a]) := by
    simp [Opus.set_parent, Opus.get_or_create_, Opus.new, opus_map.find, opus_map.emplace,
      opus_map.set, Opus.parent, Opus.reparent_, Opus.get_or_create_with_op_, Opus.get,
      Opus.push_new, Opus.push_back, Opus.modify, Opus.move_op_, Opus.move_slot_,
      Opus.op_children, Opus.error, Opus.erase_slot, Opus.iterate, ha, hb, hab, h1, h2, h3]
  rw [Option.bind_eq_some] at hall
  obtain ⟨⟨s1, o1⟩, e1, hall⟩ := hall
  rw [Option.map_eq_some'] at hall
  obtain ⟨⟨s2, o2⟩, e2, hall⟩ := hall
  simp only [Prod.mk.injEq] at hall
  obtain ⟨rfl, rfl, pa, pb, ia, ib⟩ := hall
  refine ⟨s1, s2, e1, e2, pa, pb, by rw [ib]; simp, by rw [ia]; simp, fun n => ?_⟩
  have hcyc : ∀ n, ((fun k => s2.parent k)^[n] a = a ∨ (fun k => s2.parent k)^[n] a = b) ∧
      ((fun k => s2.parent k)^[n] b = a ∨ (fun k => s2.parent k)^[n] b = b) := by
    intro n
    induction n with
    | zero => exact ⟨Or.inl rfl, Or.inr rfl⟩
    | succ n ih =>
      rw [Function.iterate_succ_apply', Function.iterate_succ_apply']
      obtain ⟨i1, i2⟩ := ih
      constructor
      · rcases i1 with h | h
        · rw [h]; exact Or.inr pa
        · rw [h]; exact Or.inl pb
      · rcases i2 with h | h
        · rw [h]; exact Or.inr pa
        · rw [h]; exact Or.inl pb
  obtain ⟨c1, c2⟩ := hcyc n
  constructor
  · rcases c1 with h | h
    · rw [h]; exact ha
    · rw [h]; exact hb
  · rcases c2 with h | h
    · rw [h]; exact ha
    · rw [h]; exact hb

/-- C25, witness: the identifiers 1 and 2 on a tree with the default
generator. -/
theorem set_parent_makes_cycle_witness :
    ∃ s1 s2, Opus.set_parent 3 (Opus.new default_op_generator) 1 2 = some (s1, 0) ∧
      Opus.set_parent 3 s1 2 1 = some (s2, 0) ∧
      s2.parent 1 = 2 ∧ s2.parent 2 = 1 ∧ 1 ∈ s2.iterate 2 ∧ 2 ∈ s2.iterate 1 := by
  obtain ⟨s1, s2, h1, h2, h3, h4, h5, h6, _⟩ :=
    set_parent_makes_cycle default_op_generator 0 1 2 (by decide) (by decide) (by decide)
  exact ⟨s1, s2, h1, h2, h3, h4, h5, h6⟩

/-! ### C23: reconciliation permutes -/

/-- An injective map that fixes what is outside a list without repetition
permutes the list. -/
theorem perm_map_of_fixes {σ : Nat → Nat} (hσ : Function.Injective σ) {L : List Nat}
    (hL : L.Nodup) (hfix : ∀ z, z ∉ L → σ z = z) : (L.map σ).Perm L := by
  have hsub : L.map σ ⊆ L := by
    intro y hy
    rw [List.mem_map] at hy
    obtain ⟨x, hx, rfl⟩ := hy
    by_contra hn
    have hx2 : σ x = x := hσ (hfix (σ x) hn)
    rw [hx2] at hn
    exact hn hx
  exact (List.subperm_of_subset (hL.map hσ) hsub).perm_of_length_le (by simp)

theorem SameOps.ops_refl (s : Opus) : SameOps s s :=
  ⟨fun _ => rfl, fun _ => rfl, fun _ => rfl⟩

theorem SameOps.ops_trans {s t u : Opus} (h1 : SameOps s t) (h2 : SameOps t u) :
    SameOps s u :=
  ⟨fun h => (h2.1 h).trans (h1.1 h), fun k => (h2.2.1 k).trans (h1.2.1 k),
    fun o => (h2.2.2 o).trans (h1.2.2 o)⟩

namespace Opus

/-- The function `clean_(op_meta&)` keeps the state of every Op and what every
entry is bound to. -/
theorem clean_meta_sameOps (t : Opus) (k : Id) : SameOps t (t.clean_meta k) := by
  obtain ⟨σ, _, hops, _⟩ := clean_meta_rename t k
  refine ⟨fun h => ?_, find_op_clean_meta t k, get_of_ops_rename σ hops⟩
  rw [hops]
  show ((t.ops h).map _).map _ = _
  cases t.ops h <;> simp

/-- The function `clean_(op_meta&)` on an entry that owns what it lists
permutes the children vector of the entry's Op and leaves every other Op as it
was. -/
theorem clean_meta_permutes {t : Opus} (hS : StoreOK t) {E : Id} {m : op_meta} {H : Nat}
    (hE : t.meta_.find E = some m) (hH : t.get m.op = some H)
    (hin : ∀ h ∈ t.live_ops m.children, h ∈ t.op_children H) :
    ((t.clean_meta E).op_children H).Perm (t.op_children H) ∧
      ∀ h, h ≠ H → (t.clean_meta E).ops h = t.ops h := by
  obtain ⟨σ, hσ, hops, hfix⟩ := clean_meta_rename t E
  have hfix2 : ∀ z, z ∉ t.op_children H → σ z = z := by
    intro z hz
    apply hfix
    intro mk Hk hmk hHk
    rw [hE] at hmk
    cases hmk
    rw [hH] at hHk
    cases hHk
    exact ⟨hz, fun hc => hz (hin z hc)⟩
  constructor
  · rw [op_children_congr hops, op_children_rename]
    exact perm_map_of_fixes hσ (hS.1 H) hfix2
  · intro h hh
    rw [hops]
    show (t.ops h).map _ = _
    cases hc : t.ops h with
    | none => rfl
    | some c =>
      have hch : t.op_children h = c.children := by simp [op_children, hc]
      have : c.children.map σ = c.children := by
        conv_rhs => rw [← List.map_id c.children]
        apply List.map_congr_left
        intro z hz
        apply hfix2
        intro hz2
        exact hh (hS.2 h H z (hch ▸ hz) hz2)
      simp [this]

/-- The function `clean_(op_meta&)` on an entry that has no live Op, or that
owns what it lists, permutes every children vector. -/
theorem clean_meta_perm_all {t : Opus} (hS : StoreOK t) (k : Id)
    (hown : ∀ m H, t.meta_.find k = some m → t.get m.op = some H →
      ∀ h ∈ t.live_ops m.children, h ∈ t.op_children H) :
    ∀ h, ((t.clean_meta k).op_children h).Perm (t.op_children h) := by
  intro h
  have hid : (∀ m H, t.meta_.find k = some m → t.get m.op = some H → False) →
      ((t.clean_meta k).op_children h).Perm (t.op_children h) := by
    intro hno
    obtain ⟨σ, hσ, hops, hfix⟩ := clean_meta_rename t k
    rw [op_children_congr hops, op_children_rename]
    have : (t.op_children h).map σ = t.op_children h := by
      conv_rhs => rw [← List.map_id (t.op_children h)]
      apply List.map_congr_left
      intro z _
      exact hfix z (fun mk Hk hmk hHk => (hno mk Hk hmk hHk).elim)
    rw [this]
  cases hm : t.meta_.find k with
  | none => exact hid (fun m H hmk _ => by rw [hm] at hmk; cases hmk)
  | some m =>
    cases hg : t.get m.op with
    | none =>
      exact hid (fun m' H hmk hH => by
        rw [hm] at hmk; cases hmk; rw [hg] at hH; cases hH)
    | some H =>
      obtain ⟨p1, p2⟩ := clean_meta_permutes hS hm hg (hown m H hm hg)
      by_cases hh : h = H
      · subst hh; exact p1
      · unfold op_children
        rw [p2 h hh]

theorem cleanPerm_step {s t : Opus} (hall : ListedOwned s) (k : Id) (h : CleanPerm s t) :
    CleanPerm s (t.clean_meta k) := by
  obtain ⟨hS, hsame, hperm, hmeta⟩ := h
  obtain ⟨σ, hσ, hops, _⟩ := clean_meta_rename t k
  refine ⟨storeOK_rename σ hσ hops hS, hsame.ops_trans (clean_meta_sameOps t k),
    fun h => ?_, fun k' mt hmt => ?_⟩
  · cases hm : t.meta_.find k with
    | none =>
      exact (clean_meta_perm_all hS k (fun m H hmk => by rw [hm] at hmk; cases hmk) h).trans
        (hperm h)
    | some m =>
      by_cases hd : m.children_dirty = true
      · have hown : ∀ m' H, t.meta_.find k = some m' → t.get m'.op = some H →
            ∀ x ∈ t.live_ops m'.children, x ∈ t.op_children H := by
          intro m' H hm' hH x hx
          rw [hm] at hm'
          cases hm'
          obtain ⟨ms, hms, hpc, hdd⟩ := hmeta k m hm
          have hop : m.op = ms.op := by
            have := hsame.2.1 k
            rw [hm, hms] at this
            simpa using this
          have hHs : s.get ms.op = some H := by rw [← hop, ← hsame.2.2]; exact hH
          have hx2 : x ∈ s.live_ops ms.children := by
            rw [live_ops_congr _ hsame.2.1 hsame.2.2] at hx
            exact (live_ops_perm s hpc).mem_iff.mp hx
          exact (hperm H).mem_iff.mpr (hall k ms H hms (hdd hd) hHs x hx2)
        exact (clean_meta_perm_all hS k hown h).trans (hperm h)
      · rw [clean_meta_not_dirty hm (by simpa using hd)]
        exact hperm h
  · rw [find_clean_meta] at hmt
    by_cases hk : k' = k
    · subst hk
      rw [if_pos rfl] at hmt
      cases hm : t.meta_.find k' with
      | none => simp [hm] at hmt
      | some m =>
        obtain ⟨ms, hms, hpc, hdd⟩ := hmeta k' m hm
        simp only [hm, Option.map_some', Option.some.injEq] at hmt
        by_cases hd : m.children_dirty = true
        · rw [if_pos hd] at hmt
          subst hmt
          refine ⟨ms, hms, ?_, by simp⟩
          show (if (t.get m.op).isSome = true then _ else m.children).Perm ms.children
          split
          · exact (List.perm_insertionSort _ _).trans hpc
          · exact hpc
        · rw [if_neg hd] at hmt
          subst hmt
          exact ⟨ms, hms, hpc, hdd⟩
    · rw [if_neg hk] at hmt
      exact hmeta k' mt hmt

theorem foldl_cleanPerm {s : Opus} (hall : ListedOwned s) : ∀ (ks : List Id) (t : Opus),
    CleanPerm s t → CleanPerm s (ks.foldl clean_meta t) := by
  intro ks
  induction ks with
  | nil => exact fun _ h => h
  | cons k ks ih => exact fun t h => ih _ (cleanPerm_step hall k h)

theorem foldl_clean_sameOps {s : Opus} : ∀ (ks : List Id) (t : Opus),
    SameOps s t → SameOps s (ks.foldl clean_meta t) := by
  intro ks
  induction ks with
  | nil => exact fun _ h => h
  | cons k ks ih => exact fun t h => ih _ (h.ops_trans (clean_meta_sameOps t k))

/-- The pass `clean_()` keeps the state of every Op and what every entry is
bound to. -/
theorem clean_sameOps (s : Opus) : SameOps s s.clean_ := by
  unfold clean_
  split
  · exact foldl_clean_sameOps s.meta_.keys s (SameOps.ops_refl s)
  · exact SameOps.ops_refl s

/-- The pass `clean_()` over a tree whose entries to reconcile own what they
list permutes every children vector. -/
theorem clean_perm_all {s : Opus} (hS : StoreOK s) (hall : ListedOwned s) (h : Nat) :
    (s.clean_.op_children h).Perm (s.op_children h) := by
  have h0 : CleanPerm s s :=
    ⟨hS, SameOps.ops_refl s, fun _ => List.Perm.refl _, fun k mt hmt =>
      ⟨mt, hmt, List.Perm.refl _, fun hd => hd⟩⟩
  unfold clean_
  split
  · exact (foldl_cleanPerm hall s.meta_.keys s h0).2.2.1 h
  · exact List.Perm.refl _

end Opus

theorem reconcile_example_reachable {s : Opus} (hs : reconcile_example = some s) :
    Reachable s := by
  have h := hs
  unfold reconcile_example at h
  simp only [Option.bind_eq_some, Option.map_eq_some'] at h
  obtain ⟨⟨s1, x1⟩, h1, ⟨s2, x2⟩, h2, ⟨s3, x3⟩, h3, ⟨s4, x4⟩, h4, ⟨s5, x5⟩, h5,
    ⟨s6, x6⟩, h6, h7⟩ := h
  rw [← h7]
  exact Reachable.set_priority 4 5 (Reachable.set_parent 5 4 1 x6
    (Reachable.set_parent 5 3 1 x5 (Reachable.set_parent 5 2 1 x4
      (Reachable.index 5 4 x3 (Reachable.index 5 2 x2
        (Reachable.index 5 1 x1 (Reachable.new _) h1) h2) h3) h4) h5) h6)

/-- In the state `reconcile_example` the one dirty entry, that of 1, owns what
it lists. -/
theorem reconcile_example_listedOwned {s : Opus} (hs : reconcile_example = some s) :
    ListedOwned s := by
  have hmeta : s.meta_ =
      [(0, ⟨0, some 0, [], false, 0⟩), (1, ⟨0, some 1, [2, 3, 4], true, 0⟩),
        (2, ⟨1, some 2, [], false, 0⟩), (4, ⟨1, some 3, [], false, 5⟩),
        (3, ⟨1, none, [], false, 0⟩)] := by
    have : reconcile_example.map (fun s => s.meta_) = some
        [(0, ⟨0, some 0, [], false, 0⟩), (1, ⟨0, some 1, [2, 3, 4], true, 0⟩),
          (2, ⟨1, some 2, [], false, 0⟩), (4, ⟨1, some 3, [], false, 5⟩),
          (3, ⟨1, none, [], false, 0⟩)] := by decide
    rw [hs] at this; simpa using this
  have hH : s.get (some 1) = some 1 := by
    have : reconcile_example.map (fun s => s.get (some 1)) = some (some 1) := by decide
    rw [hs] at this; simpa using this
  have hc : s.op_children 1 = [2, 3] ∧ s.live_ops [2, 3, 4] = [2, 3] := by
    have : reconcile_example.map (fun s => (s.op_children 1, s.live_ops [2, 3, 4]))
        = some ([2, 3], [2, 3]) := by decide
    rw [hs] at this; simpa using this
  intro k m H hk hd hg x hx
  rw [hmeta] at hk
  simp only [opus_map.find] at hk
  split_ifs at hk <;> cases hk <;> simp at hd
  rw [hH] at hg
  cases hg
  rw [hc.2] at hx
  rw [hc.1]
  exact hx

/-- C23: reconciliation only permutes. In every state `s` of a tree:
the function `clean_(op_meta&)` on an entry `E` whose Op `H` is alive and whose
listed identifiers with a live Op all have that Op in the children vector of
`H` leaves that vector a permutation of what it was, of the same length, and
leaves every other Op as it was, children vector included; on any entry, and so
in the whole pass `clean_()`, every Op keeps its `remaining`, `total` and
action, every entry keeps its handle, and a handle refers to the Op it referred
to; and the whole pass `clean_()`, when every dirty entry with a live Op owns
what it lists, leaves every children vector a permutation of what it was. -/
theorem clean_only_permutes (s : Opus) (hs : Reachable s) :
    (∀ E m H, s.meta_.find E = some m → s.get m.op = some H →
      (∀ h ∈ s.live_ops m.children, h ∈ s.op_children H) →
        ((s.clean_meta E).op_children H).Perm (s.op_children H) ∧
          ((s.clean_meta E).op_children H).length = (s.op_children H).length ∧
          ∀ h, h ≠ H → (s.clean_meta E).ops h = s.ops h) ∧
      (∀ E, SameOps s (s.clean_meta E)) ∧
      SameOps s s.clean_ ∧
      (ListedOwned s → ∀ h, (s.clean_.op_children h).Perm (s.op_children h) ∧
        (s.clean_.op_children h).length = (s.op_children h).length) := by
  obtain ⟨⟨_, hS, _⟩, _⟩ := hs.reach_treeOK
  refine ⟨fun E m H hE hH hin => ?_, fun E => Opus.clean_meta_sameOps s E,
    Opus.clean_sameOps s, fun hall h => ?_⟩
  · obtain ⟨p1, p2⟩ := Opus.clean_meta_permutes hS hE hH hin
    exact ⟨p1, p1.length_eq, p2⟩
  · have p := Opus.clean_perm_all hS hall h
    exact ⟨p, p.length_eq⟩

/-- C23, witness: in the state `reconcile_example` the Op of the entry of 1
holds the Ops of 2 and 4 (identities 2 and 3); reconciling the entry exchanges
them, as does the whole pass. -/
theorem clean_only_permutes_witness :
    ∃ s, reconcile_example = some s ∧ s.op_children 1 = [2, 3] ∧
      (s.clean_meta 1).op_children 1 = [3, 2] ∧
      ((s.clean_meta 1).op_children 1).Perm (s.op_children 1) ∧
      (∀ h, h ≠ 1 → (s.clean_meta 1).ops h = s.ops h) ∧
      SameOps s (s.clean_meta 1) ∧ SameOps s s.clean_ ∧
      ∀ h, (s.clean_.op_children h).Perm (s.op_children h) := by
  have h0 : reconcile_example.isSome = true := by decide
  obtain ⟨s, hs⟩ := Option.isSome_iff_exists.mp h0
  have hE : s.meta_.find 1 = some ⟨0, some 1, [2, 3, 4], true, 0⟩ := by
    have : reconcile_example.map (fun s => s.meta_.find 1)
        = some (some ⟨0, some 1, [2, 3, 4], true, 0⟩) := by decide
    rw [hs] at this; simpa using this
  have hH : s.get (some 1) = some 1 := by
    have : reconcile_example.map (fun s => s.get (some 1)) = some (some 1) := by decide
    rw [hs] at this; simpa using this
  have hc : s.op_children 1 = [2, 3] ∧ s.live_ops [2, 3, 4] = [2, 3] := by
    have : reconcile_example.map (fun s => (s.op_children 1, s.live_ops [2, 3, 4]))
        = some ([2, 3], [2, 3]) := by decide
    rw [hs] at this; simpa using this
  have hcl : (s.clean_meta 1).op_children 1 = [3, 2] := by
    have : reconcile_example.map (fun s => (s.clean_meta 1).op_children 1)
        = some [3, 2] := by decide
    rw [hs] at this; simpa using this
  obtain ⟨t1, t2, t3, t4⟩ := clean_only_permutes s (reconcile_example_reachable hs)
  obtain ⟨u1, _, u3⟩ := t1 1 ⟨0, some 1, [2, 3, 4], true, 0⟩ 1 hE hH
    (by
      rw [hc.2, hc.1]
      exact fun h hh => hh)
  exact ⟨s, hs, hc.1, hcl, u1, u3, t2 1, t3,
    fun h => (t4 (reconcile_example_listedOwned hs) h).1⟩

/-- The pass `clean_()` reconciles every dirty entry, and a dirty entry that
lists an identifier whose Op it does not own takes that Op out of the vector it
is in. In the state `unowned_listed_state` the entry of 5 lists nothing and its
Op (identity 1) holds the Op of 1 (identity 2); the entry of 7 lists 1 and its
Op (identity 3) holds the Op of 8 (identity 4). The pass exchanges the two Ops:
afterwards the Op of 5 holds the Op of 8; reconciling the entry of 5 alone
changes nothing. -/
theorem clean_pass_exchanges_unowned :
    unowned_listed_state.map (fun s => (s.iterate 5, s.iterate 7, s.op_children 1,
        s.op_children 3)) = some ([], [1], [2], [4]) ∧
      unowned_listed_state.map (fun s => ((s.clean_meta 5).op_children 1,
        s.clean_.op_children 1, s.clean_.op_children 3)) = some ([2], [4], [2]) ∧
      unowned_listed_state.map (fun s => (s.clean_.meta_.find 1).map (fun e => e.op))
        = some (some (some 2)) ∧
      unowned_listed_state.map (fun s => (s.clean_.meta_.find 8).map (fun e => e.op))
        = some (some (some 4)) := by
  refine ⟨by decide, by decide, by decide, by decide⟩

/-! ### `Opus::erase`: what it leaves of the Ops, and when it returns -/

namespace Opus

theorem get_get_or_create_ (s : Opus) (k : Id) (o : Option Nat) :
    (s.get_or_create_ k).get o = s.get o :=
  get_congr_ops (by unfold get_or_create_; split <;> rfl) o

theorem op_of_get_or_create_ (s : Opus) (k id : Id) :
    (s.get_or_create_ k).op_of id = s.op_of id := by
  unfold op_of
  rw [find_get_or_create_]
  cases h : s.meta_.find id with
  | some w => simp [get_get_or_create_]
  | none =>
    simp only [Option.none_bind]
    split
    · simp [get]
    · rfl

theorem op_of_modify (s : Opus) (k : Id) (f : op_meta → op_meta) (hf : ∀ e, (f e).op = e.op)
    (id : Id) : (s.modify k f).op_of id = s.op_of id := by
  unfold op_of
  rw [find_modify]
  by_cases hk : id = k
  · subst hk
    cases h : s.meta_.find id <;> simp [hf]
  · simp [hk]

theorem op_of_error (s : Opus) (e : LogEntry) (id : Id) : (s.error e).op_of id = s.op_of id :=
  rfl

theorem op_of_some {s : Opus} {id : Id} {h : Nat} (hh : s.op_of id = some h) :
    ∃ m, s.meta_.find id = some m ∧ m.op = some h ∧ (s.ops h).isSome = true := by
  unfold op_of at hh
  cases hm : s.meta_.find id with
  | none => simp [hm] at hh
  | some m =>
    simp only [hm, Option.some_bind] at hh
    exact ⟨m, rfl, (get_eq_some hh).1, (get_eq_some hh).2⟩

end Opus

namespace Opus

end Opus

/-! ### An entry is listed by its parent -/

namespace Opus

end Opus

namespace Opus

/-- The end of `erase(id)` does not return when the destructor of the Op of
`id`, an element of the children vector of the parent's Op, does not. -/
theorem erase_self_of_destroy_none {fuel : Nat} {s1 : Opus} {id : Id} {m : op_meta}
    {ph h : Nat} (hm : s1.meta_.find id = some m) (hph : s1.op_of m.parent = some ph)
    (hh : s1.op_of id = some h) (hin : h ∈ s1.op_children ph)
    (hd : destroy fuel s1.ops h = none) : erase_self_ fuel s1 id = none := by
  unfold erase_self_
  simp only [hm]
  have hp : ∃ p, (s1.get_or_create_ m.parent).meta_.find m.parent = some p := by
    rw [find_get_or_create_]
    cases h : s1.meta_.find m.parent with
    | some w => exact ⟨w, rfl⟩
    | none => exact ⟨{}, by simp⟩
  obtain ⟨p, hp⟩ := hp
  simp only [hp]
  obtain ⟨s3, hs3def⟩ : ∃ s3, s3 =
      (if id ∈ p.children then
        (s1.get_or_create_ m.parent).modify m.parent
          (fun e => { e with children := e.children.erase id })
      else
        (s1.get_or_create_ m.parent).error (.id_not_found_in_parent id m.parent)) :=
    ⟨_, rfl⟩
  rw [← hs3def]
  have h3o : s3.ops = s1.ops := by
    rw [hs3def]; split <;> simp [get_or_create_] <;> split <;> rfl
  have h3of : ∀ k, s3.op_of k = s1.op_of k := by
    intro k
    rw [hs3def]
    split
    · rw [op_of_modify _ m.parent (fun e => { e with children := e.children.erase id })
        (fun _ => rfl), op_of_get_or_create_]
    · rw [op_of_error, op_of_get_or_create_]
  have h4 : erase_op_ fuel s3 id m.parent = none := by
    unfold erase_op_
    have e1 : (s3.meta_.find m.parent).bind (fun e => s3.get e.op) = some ph :=
      (h3of m.parent).trans hph
    have e2 : (s3.meta_.find id).bind (fun e => s3.get e.op) = some h := (h3of id).trans hh
    obtain ⟨_, _, _, hal⟩ := op_of_some hph
    obtain ⟨pc, hpc⟩ := Option.isSome_iff_exists.mp hal
    have hin2 : h ∈ pc.children := by simpa [op_children, hpc] using hin
    simp only [e1, e2, h3o, hpc, hin2, if_true, hd]
  rw [h4]

/-- When the child list of `id` is empty and the destructor of the Op of `id`,
an element of the children vector of the parent's Op, never returns, `erase(id)`
never returns. -/
theorem erase_of_destroy_none {s : Opus} {id : Id} {m : op_meta} {ph h : Nat}
    (hm : s.meta_.find id = some m) (hnil : m.children = [])
    (hph : s.op_of m.parent = some ph) (hh : s.op_of id = some h)
    (hin : h ∈ s.op_children ph) (hd : ∀ fuel, destroy fuel s.ops h = none) :
    ∀ fuel, erase fuel s id = none := by
  intro fuel
  cases fuel with
  | zero => rfl
  | succ n =>
    unfold erase
    simp only [hm]
    cases n with
    | zero => rfl
    | succ k =>
      have hc : erase_children (k + 1) s id = some s := by
        unfold erase_children
        simp [hm, hnil]
      rw [hc]
      exact erase_self_of_destroy_none hm hph hh hin (hd _)

end Opus

/-! ### C4: `erase` -/

/-- C24: `erase(id)` does not end on every finite structure of child lists
without a cycle. In the state `owned_cycle_state`, reached from a fresh tree by
`child(1, 2, 0)` and `parent(1, 2)`, the child list of 1 is empty, 1 is listed
once, by its parent 2, and 2 is listed nowhere and has the root as parent: the
child lists reachable from 1 are finite, without a cycle, and every listed
child has an entry whose parent is the listing entry. The Op of 2 was generated
in the children vector of the Op of 1, and `parent(1, 2)` has moved the Op of 1
into the children vector of the Op of 2: `erase(1)` destroys the Op of 1, whose
destructor destroys the Op of 2, whose destructor destroys the Op of 1, without
end, and `erase(1)` never returns. -/
theorem erase_never_returns_on_owned_cycle :
    owned_cycle_state.map
        (fun s => (s.iterate 1, s.iterate 2, s.iterate 0, s.parent 1, s.parent 2, s.exists_id 1))
        = some ([], [1], [], 2, 0, true) ∧
      owned_cycle_state.map (fun s => (s.op_of 1, s.op_of 2, s.op_children 1, s.op_children 2))
        = some (some 1, some 2, [2], [1]) ∧
      ∀ s, owned_cycle_state = some s →
        Reachable s ∧ DepthLE s 1 1 ∧ ∀ fuel, Opus.erase fuel s 1 = none := by
  refine ⟨by decide, by decide, fun s hs => ⟨?_, ?_, ?_⟩⟩
  · have h := hs
    unfold owned_cycle_state at h
    simp only [Option.bind_eq_some, Option.map_eq_some'] at h
    obtain ⟨⟨s1, x1⟩, h1, ⟨s2, x2⟩, h2, h3⟩ := h
    rw [← h3]
    exact Reachable.set_parent 5 1 2 x2 (Reachable.child 5 1 2 0 x1 (Reachable.new _) h1) h2
  · have hi : s.iterate 1 = [] := by
      have : owned_cycle_state.map (fun s => s.iterate 1) = some [] := by decide
      rw [hs] at this; simpa using this
    intro c hc
    rw [hi] at hc
    simp at hc
  · have h1 : s.meta_.find 1 = some ⟨2, some 1, [], true, 0⟩ := by
      have : owned_cycle_state.map (fun s => s.meta_.find 1)
          = some (some ⟨2, some 1, [], true, 0⟩) := by decide
      rw [hs] at this; simpa using this
    have ho : s.op_of 2 = some 2 ∧ s.op_of 1 = some 1 := by
      have : owned_cycle_state.map (fun s => (s.op_of 2, s.op_of 1))
          = some (some 2, some 1) := by decide
      rw [hs] at this; simpa using this
    have hc : (s.ops 1).map (fun c => c.children) = some [2] ∧
        (s.ops 2).map (fun c => c.children) = some [1] := by
      have : owned_cycle_state.map (fun s => ((s.ops 1).map (fun c => c.children),
          (s.ops 2).map (fun c => c.children))) = some (some [2], some [1]) := by decide
      rw [hs] at this; simpa using this
    obtain ⟨c1, hc1, hk1⟩ : ∃ c, s.ops 1 = some c ∧ c.children = [2] := by
      cases h : s.ops 1 with
      | none => rw [h] at hc; simp at hc
      | some c => rw [h] at hc; exact ⟨c, rfl, by simpa using hc.1⟩
    obtain ⟨c2, hc2, hk2⟩ : ∃ c, s.ops 2 = some c ∧ c.children = [1] := by
      cases h : s.ops 2 with
      | none => rw [h] at hc; simp at hc
      | some c => rw [h] at hc; exact ⟨c, rfl, by simpa using hc.2⟩
    have hdn := destroy_cycle s.ops 1 2 c1 c2 hc1 hc2 (by rw [hk1]; rfl) (by rw [hk2]; rfl)
    exact Opus.erase_of_destroy_none h1 rfl ho.1 ho.2 (by simp [Opus.op_children, hc2, hk2])
      (fun fuel => (hdn fuel).1)


/-! ### C6: `parent(Id, Id)` -/

namespace Opus

theorem op_of_congr {t t' : Opus} (h1 : t'.meta_ = t.meta_) (h2 : t'.ops = t.ops) (k : Id) :
    t'.op_of k = t.op_of k := by
  unfold op_of
  rw [h1]
  cases t.meta_.find k with
  | none => rfl
  | some e => exact get_congr_ops h2 e.op

end Opus

/-- The action of an Op is the action of its data. -/
theorem Op.data_action (q : Op) : q.data_.action = q.action := by
  cases q; rfl

/-- A call with a positive delta of a `Queue` that has been called before and
whose `position` is invalid has no defined result. -/
theorem QueueInvalid_call_undefined (data : OpData) (dt : F64) (hdt : 0 < dt) :
    ∀ fuel, Action.call fuel (Action.QueueInvalid true) data dt = none := by
  intro fuel
  cases fuel with
  | zero => simp [Action.call]
  | succ n =>
    have hdt0 : dt ≠ 0 := ne_of_gt hdt
    simp [Action.call, hdt0, hdt]

/-- C20 (as the code behaves): a finished Queue is not resumable by appending a
child. The Queue over `A(1,1)` and `B(1,1)` is called with delta 1 and
finishes: `remaining = 0`, `position` on B. The leaf `C(2,2)` is appended by a
`push_back` that reallocates the children vector. `remaining` of the Queue is
still 0, and the next call with delta 1 dereferences `position`, an iterator
into the storage the vector has left: the call has no defined result, where the
comment on `Queue::operator()` says that the queue continues with the newly
added children. When the `push_back` does not reallocate, that call runs C
alone and leaves `remaining = -1`. -/
theorem Queue_append_invalidates_position :
    ∃ q ev0, Op.call 4 queue_AB 1 = some (q, ev0) ∧ q.remaining = 0 ∧
      q.action = Action.Queue 1 true ∧
      (q.data_.push_back queue_C true).remaining = 0 ∧
      (q.data_.push_back queue_C true).children.map Op.handle = [1, 2, 3] ∧
      (∀ fuel, Op.call fuel (Op.ofData q.handle (q.data_.push_back queue_C true)) 1 = none) ∧
      (Op.call 4 (Op.ofData q.handle (q.data_.push_back queue_C false)) 1).map
          (fun r => (r.1.remaining, r.2))
        = some (-1, [Event.op 0 1, Event.op 3 1, Event.func 3 1]) := by
  have h0 : (Op.call 4 queue_AB 1).map
      (fun r => (r.1.remaining, r.1.children.map Op.handle)) = some (0, [1, 2]) := by decide!
  have h1 : ((Op.call 4 queue_AB 1).bind fun r =>
      (Op.call 4 (Op.ofData r.1.handle (r.1.data_.push_back queue_C false)) 1).map
        (fun r2 => (r2.1.remaining, r2.2)))
      = some (-1, [Event.op 0 1, Event.op 3 1, Event.func 3 1]) := by decide!
  cases hq : Op.call 4 queue_AB 1 with
  | none => rw [hq] at h0; simp at h0
  | some res =>
    obtain ⟨q, ev0⟩ := res
    rw [hq] at h0 h1
    simp only [Option.map_some', Option.some.injEq, Prod.mk.injEq] at h0
    simp only [Option.some_bind] at h1
    obtain ⟨hr, hk⟩ := h0
    -- the functor the call leaves
    have ha : q.action = Action.Queue 1 true := by
      have hq2 := hq
      unfold Op.call at hq2
      cases hc : Action.call 3 queue_AB.action queue_AB.data_ 1 with
      | none => simp [hc] at hq2
      | some r =>
        obtain ⟨a, d1, x, e1⟩ := r
        simp only [hc, Option.some.injEq, Prod.mk.injEq] at hq2
        obtain ⟨rfl, _⟩ := hq2
        obtain ⟨pre, c0, hpa, hch, _⟩ := Queue_call_finished 3 0 false queue_AB.data_ 1 a d1 x e1
          hc (by simp [queue_AB, Op.data_]) hr
        have hlen : pre.length = 1 := by
          have : (d1.children.map Op.handle).length = 2 := by
            have hk2 : d1.children.map Op.handle = [1, 2] := hk
            rw [hk2]; rfl
          rw [hch] at this
          simpa using this
        show a = Action.Queue 1 true
        rw [hpa, hlen]
    refine ⟨q, ev0, rfl, hr, ha, ?_, ?_, ?_, h1⟩
    · cases q; exact hr
    · have : (q.data_.push_back queue_C true).children = q.children ++ [queue_C] := by
        cases q; rfl
      rw [this, List.map_append, hk]
      rfl
    · intro fuel
      cases fuel with
      | zero => rfl
      | succ n =>
        have hact : (Op.ofData q.handle (q.data_.push_back queue_C true)).action
            = Action.QueueInvalid true := by
          show (if true = true then q.data_.action.invalidate else q.data_.action) = _
          rw [if_pos rfl, Op.data_action, ha]
          rfl
        unfold Op.call
        rw [hact, QueueInvalid_call_undefined _ 1 (by norm_num) n]


end be.op
